import Mathlib

/-!
Verification development for `name-hash.c` (git index name hashing).

The C code is shallowly embedded: byte strings are `List Nat` (one `Nat`
per byte), the two hash tables of `struct index_state` become explicit
lists, pointers to `struct cache_entry` become indices into a store, and
pointers to `struct dir_entry` become stable numeric ids.  Machine
`unsigned int` hashing is modelled with `% 2^32`.  `struct dir_entry.nr`
is a C `int` and is modelled as `Int`.

The generic hashmap container (`hashmap.c`) is not part of the excerpt;
following the specification, a collision chain holds every entry with the
same stored hash value in insertion order, lookups scan that chain, and
removal takes out one matching element.
-/

/-- ASCII upper-case fold of one byte, as git's case-insensitive
comparisons and `memihash` perform: bytes `97..122` (`a..z`) are mapped
down by 32, all other bytes are unchanged. -/
def toUpperByte (c : Nat) : Nat := if 97 ≤ c ∧ c ≤ 122 then c - 32 else c

/-- Case-fold a byte string bytewise.  Two strings are equal after
`foldName` exactly when `strncasecmp`/`slow_same_name` consider them
equal, since ASCII tolower- and toupper-equality coincide. -/
def foldName (s : List Nat) : List Nat := s.map toUpperByte

/-- git's `is_dir_sep` on POSIX: the byte is `'/'` (47). -/
def is_dir_sep (c : Nat) : Bool := c == 47

/-- Modelled from the spec: the single mixing step of the rolling
case-fold hash (`memihash` in `hashmap.c`, which is outside the excerpt):
a 32-bit FNV-1 step applied to the case-folded byte. -/
def memihashStep (h : Nat) (c : Nat) : Nat := (h * 16777619 + toUpperByte c) % 4294967296

/-- Modelled from the spec: `memihash_cont(hash_seed, buf, len)` from
`hashmap.c` (outside the excerpt) — continue an incremental case-fold
hash from a prior hash value over further bytes. -/
def memihash_cont (hash_seed : Nat) (buf : List Nat) : Nat := buf.foldl memihashStep hash_seed

/-- Modelled from the spec: `memihash(buf, len)` from `hashmap.c`
(outside the excerpt) — the case-folding FNV-1 hash of a byte span,
starting from the 32-bit FNV offset basis. -/
def memihash (buf : List Nat) : Nat := memihash_cont 2166136261 buf

/-- One `struct cache_entry` (the fields used by name-hash.c): its path
bytes, the `CE_HASHED` bit of `ce_flags`, and the precomputed-hash record
(`precompute_hash_state` split into its `__SET` and `__DIR` bits, plus
the two cached hash values). -/
structure cache_entry where
  name : List Nat
  ce_hashed : Bool
  precompute_hash_set : Bool
  precompute_hash_dir_bit : Bool
  precompute_hash_dir : Nat
  precompute_hash_name : Nat
deriving DecidableEq, Repr, Inhabited

/-- One `struct dir_entry`: `id` models the node's address (a stable
handle, never reused), `ent_hash` is the hash stored by
`hashmap_entry_init`, `name` the directory span bytes (no closing slash,
verbatim first-seen case), `parent` the parent node's id, `nr` the C
`int` reference count. -/
structure dir_entry where
  id : Nat
  ent_hash : Nat
  name : List Nat
  parent : Option Nat
  nr : Int
deriving DecidableEq, Repr, Inhabited

/-- The `struct index_state` fields used by name-hash.c.  `store` holds
every `cache_entry` object in existence (a list index is an object
identity, i.e. a pointer); `cache` is `istate->cache`, the ordered
collection, as store indices; `name_hash` is the path hash table as a
list of (stored hash, entry index) pairs in insertion order; `dir_hash`
is the directory hash table. -/
structure index_state where
  store : List cache_entry
  cache : List Nat
  name_hash : List (Nat × Nat)
  dir_hash : List dir_entry
  dir_next_id : Nat
  name_hash_initialized : Bool
deriving DecidableEq, Repr

/-- The parent-directory span length of the first `namelen` bytes of
`name`: mirrors the loop
`while (namelen > 0 && !is_dir_sep(ce->name[namelen-1])) namelen--;`
followed by `if (namelen <= 0) return NULL; namelen--;` — i.e. the
position of the last separator strictly below `namelen`, if any. -/
def dirSpanLen (name : List Nat) : Nat → Option Nat
  | 0 => none
  | n + 1 => if is_dir_sep (name.getD n 0) then some n else dirSpanLen name n

/-- `dir_entry_cmp(e1, key, name)` from name-hash.c, true iff DIFFERENT
(as in C, where nonzero means mismatch): compares the stored length with
the key length and the first `e1->namelen` bytes case-insensitively. -/
def dir_entry_cmp (e1 : dir_entry) (namelen : Nat) (name : List Nat) : Bool :=
  e1.name.length != namelen || foldName e1.name != foldName (name.take e1.name.length)

/-- `find_dir_entry__hash`: scan the `dir_hash` table for a node with the
given stored hash whose `dir_entry_cmp` against the key succeeds. -/
def find_dir_entry__hash (st : index_state) (name : List Nat) (namelen : Nat) (hash : Nat) :
    Option dir_entry :=
  st.dir_hash.find? (fun d => d.ent_hash == hash && !dir_entry_cmp d namelen name)

/-- `find_dir_entry`: look up the directory span `name[0..namelen)` by
its case-fold hash. -/
def find_dir_entry (st : index_state) (name : List Nat) (namelen : Nat) : Option dir_entry :=
  find_dir_entry__hash st name namelen (memihash (name.take namelen))

/-- Dereference a `dir_entry` id (a pointer) against the table. -/
def findId (st : index_state) (i : Nat) : Option dir_entry :=
  st.dir_hash.find? (fun d => d.id == i)

/-- In-place `dir->nr++` on the node with id `i`. -/
def bumpNr (st : index_state) (i : Nat) : index_state :=
  { st with dir_hash := st.dir_hash.map (fun d => if d.id == i then { d with nr := d.nr + 1 } else d) }

/-- In-place `--dir->nr` on the node with id `i`. -/
def decNr (st : index_state) (i : Nat) : index_state :=
  { st with dir_hash := st.dir_hash.map (fun d => if d.id == i then { d with nr := d.nr - 1 } else d) }

/-- In-place `dir->parent = p` on the node with id `i`. -/
def setParentOf (st : index_state) (i : Nat) (p : Option Nat) : index_state :=
  { st with dir_hash := st.dir_hash.map (fun d => if d.id == i then { d with parent := p } else d) }

/-- `hashmap_remove(&istate->dir_hash, dir, NULL)`: remove the first
chain member with `dir`'s stored hash that `dir_entry_cmp`-matches
`dir`'s own name. -/
def eraseDirNode (st : index_state) (d : dir_entry) : index_state :=
  { st with dir_hash :=
      st.dir_hash.eraseP (fun c => c.ent_hash == d.ent_hash && !dir_entry_cmp c d.name.length d.name) }

/-- The `p_previous_dir` fast path of `hash_dir_entry`: when the caller
supplies a previous directory whose stored span is byte-identical to the
computed parent span (`namelen == (*p_previous_dir)->namelen &&
memcmp(ce->name, (*p_previous_dir)->name, namelen) == 0`), reuse it. -/
def previous_dir_hit (st : index_state) (ce : cache_entry) (dlen : Nat)
    (p_previous_dir : Option Nat) : Option Nat :=
  match p_previous_dir with
  | some pid =>
    match findId st pid with
    | some prev =>
      if dlen == prev.name.length && ce.name.take dlen == prev.name then some prev.id
      else none
    | none => none
  | none => none

/-- The directory hash used by `hash_dir_entry`: the precomputed
`precompute_hash_dir` when the record is present, tagged as having a
directory, and this is the outer-most call (`namelen == ce_namelen(ce)`),
else `memihash` of the span. -/
def hde_hash (ce : cache_entry) (namelen dlen : Nat) : Nat :=
  if ce.precompute_hash_set && ce.precompute_hash_dir_bit && namelen == ce.name.length
  then ce.precompute_hash_dir
  else memihash (ce.name.take dlen)

/-- The node `FLEX_ALLOC_MEM` creates for a missing directory span, with
the next free id as its address, reference count 0 and (for now) no
parent link. -/
def hde_newnode (st : index_state) (ce : cache_entry) (namelen dlen : Nat) : dir_entry :=
  ⟨st.dir_next_id, hde_hash ce namelen dlen, ce.name.take dlen, none, 0⟩

/-- `hashmap_add(&istate->dir_hash, dir)` of the fresh node. -/
def hde_push (st : index_state) (ce : cache_entry) (namelen dlen : Nat) : index_state :=
  { st with dir_hash := st.dir_hash ++ [hde_newnode st ce namelen dlen],
            dir_next_id := st.dir_next_id + 1 }

/-- `hash_dir_entry(istate, ce, namelen, p_previous_dir)` with explicit
fuel for the parent recursion (the C recursion strictly decreases
`namelen`, so `namelen + 1` fuel is always enough; the fuel-0 branch
coincides with the `namelen == 0` behaviour `(NULL, istate)`).  Returns
the found-or-created node's id and the updated state; the returned id is
also the value stored back through a non-NULL `p_previous_dir`. -/
def hash_dir_entry_go : Nat → index_state → cache_entry → Nat → Option Nat →
    Option Nat × index_state
  | 0, st, _, _, _ => (none, st)
  | fuel + 1, st, ce, namelen, p_previous_dir =>
    if ce.precompute_hash_set && !ce.precompute_hash_dir_bit then
      (none, st)
    else
      match dirSpanLen ce.name namelen with
      | none => (none, st)
      | some dlen =>
        match previous_dir_hit st ce dlen p_previous_dir with
        | some did => (some did, st)
        | none =>
          match find_dir_entry__hash st ce.name dlen (hde_hash ce namelen dlen) with
          | some d => (some d.id, st)
          | none =>
            let r := hash_dir_entry_go fuel (hde_push st ce namelen dlen) ce dlen none
            (some st.dir_next_id, setParentOf r.2 st.dir_next_id r.1)

/-- `hash_dir_entry` proper. -/
def hash_dir_entry (st : index_state) (ce : cache_entry) (namelen : Nat)
    (p_previous_dir : Option Nat) : Option Nat × index_state :=
  hash_dir_entry_go (namelen + 1) st ce namelen p_previous_dir

/-- The loop `while (dir && !(dir->nr++)) dir = dir->parent;` of
`add_dir_entry`, with fuel (one more than the table size always
suffices, since the parent chain visits distinct nodes). -/
def add_dir_refs : Nat → index_state → Option Nat → index_state
  | _, st, none => st
  | 0, st, some _ => st
  | fuel + 1, st, some i =>
    match findId st i with
    | none => st
    | some d =>
      let st' := bumpNr st i
      if d.nr == 0 then add_dir_refs fuel st' d.parent else st'

/-- `add_dir_entry(istate, ce, p_previous_dir)`; the second component is
the value left in `*p_previous_dir` afterwards. -/
def add_dir_entry (st : index_state) (ce : cache_entry) (p_previous_dir : Option Nat) :
    index_state × Option Nat :=
  let r := hash_dir_entry st ce ce.name.length p_previous_dir
  (add_dir_refs (r.2.dir_hash.length + 1) r.2 r.1,
   match r.1 with
   | some i => some i
   | none => p_previous_dir)

/-- The loop of `remove_dir_entry`: decrement, and when the count hits
zero remove the node from the table, free it, and continue with the
parent. -/
def remove_dir_refs : Nat → index_state → Option Nat → index_state
  | _, st, none => st
  | 0, st, some _ => st
  | fuel + 1, st, some i =>
    match findId st i with
    | none => st
    | some d =>
      let st' := decNr st i
      if d.nr - 1 == 0 then remove_dir_refs fuel (eraseDirNode st' d) d.parent
      else st'

/-- `remove_dir_entry(istate, ce)`. -/
def remove_dir_entry (st : index_state) (ce : cache_entry) : index_state :=
  let r := hash_dir_entry st ce ce.name.length none
  remove_dir_refs (r.2.dir_hash.length + 1) r.2 r.1

/-- `hash_index_entry(istate, ce, p_previous_dir)` for the entry at store
index `i`: no-op if `CE_HASHED` is set; otherwise set the flag, add
(hash, entry) to `name_hash` (reusing `precompute_hash_name` when the
precomputed record is present), and, under `ignore_case` (`ic`), add the
directory references.  Returns the state and the value left in
`*p_previous_dir`. -/
def hash_index_entry (ic : Bool) (st : index_state) (i : Nat) (p_previous_dir : Option Nat) :
    index_state × Option Nat :=
  let ce := st.store.getD i default
  if ce.ce_hashed then (st, p_previous_dir)
  else
    let ce' := { ce with ce_hashed := true }
    let h := if ce.precompute_hash_set then ce.precompute_hash_name else memihash ce.name
    let st1 : index_state :=
      { st with store := st.store.set i ce', name_hash := st.name_hash ++ [(h, i)] }
    if ic then add_dir_entry st1 ce' p_previous_dir else (st1, p_previous_dir)

/-- `lazy_init_name_hash`: if already initialized do nothing, else start
from fresh tables, hash every entry of `istate->cache` in order while
threading one `previous_dir` cursor, and set the initialized flag. -/
def lazy_init_name_hash (ic : Bool) (st : index_state) : index_state :=
  if st.name_hash_initialized then st
  else
    let st0 : index_state := { st with name_hash := [], dir_hash := [], dir_next_id := 0 }
    let r := st0.cache.foldl (fun acc i => hash_index_entry ic acc.1 i acc.2)
      (st0, (none : Option Nat))
    { r.1 with name_hash_initialized := true }

/-- `add_name_hash(istate, ce)`: only acts once the lazy table exists. -/
def add_name_hash (ic : Bool) (st : index_state) (i : Nat) : index_state :=
  if st.name_hash_initialized then (hash_index_entry ic st i none).1 else st

/-- `remove_name_hash(istate, ce)`: no-op unless initialized and
`CE_HASHED`; clears the flag, removes the entry from its chain by object
identity (`cache_entry_cmp` with non-NULL keydata is pointer equality),
and under `ignore_case` releases the directory references. -/
def remove_name_hash (ic : Bool) (st : index_state) (i : Nat) : index_state :=
  let ce := st.store.getD i default
  if !st.name_hash_initialized || !ce.ce_hashed then st
  else
    let ce' := { ce with ce_hashed := false }
    let st1 : index_state :=
      { st with store := st.store.set i ce',
                name_hash := st.name_hash.eraseP (fun p => p.2 == i) }
    if ic then remove_dir_entry st1 ce' else st1

/-- `slow_same_name(name1, len1, name2, len2)`: equal lengths and, byte
by byte, equality either exactly or after toupper on both sides. -/
def slow_same_name : List Nat → List Nat → Bool
  | [], [] => true
  | c1 :: n1, c2 :: n2 => (c1 == c2 || toUpperByte c1 == toUpperByte c2) && slow_same_name n1 n2
  | _, _ => false

/-- `same_name(ce, name, namelen, icase)`: the quick exact compare first;
if it fails, only an `icase` lookup falls through to the full
case-folding compare. -/
def same_name (ce : cache_entry) (name : List Nat) (namelen : Nat) (icase : Bool) : Bool :=
  if ce.name == name.take namelen then true
  else if !icase then false
  else slow_same_name (name.take namelen) ce.name

/-- `index_file_exists(istate, name, namelen, icase)`: lazily build, get
the collision chain for the folded hash of the query, scan it with
`same_name`, and return the first match (as the entry's identity). -/
def index_file_exists (ic : Bool) (st : index_state) (name : List Nat) (namelen : Nat)
    (icase : Bool) : Option Nat :=
  let st' := lazy_init_name_hash ic st
  let h := memihash (name.take namelen)
  ((st'.name_hash.filter (fun p => p.1 == h)).find?
      (fun p => same_name (st'.store.getD p.2 default) name namelen icase)).map Prod.snd

/-- `index_dir_exists(istate, name, namelen)`: lazily build, look the
directory span up in `dir_hash`, and test `dir && dir->nr`. -/
def index_dir_exists (ic : Bool) (st : index_state) (name : List Nat) (namelen : Nat) : Bool :=
  let st' := lazy_init_name_hash ic st
  match find_dir_entry st' name namelen with
  | some dir => dir.nr != 0
  | none => false

/-- The inner scan `while (*ptr && *ptr != '/') ptr++;` of
`adjust_dirname_case`: first index at or after `ptr` holding a
separator, or the string length. -/
def scanToSep (name : List Nat) (ptr : Nat) : Nat :=
  match (name.drop ptr).findIdx? (fun c => is_dir_sep c) with
  | some k => ptr + k
  | none => name.length

/-- The outer loop of `adjust_dirname_case`, with `startPtr`/`ptr` as
offsets into the NUL-terminated buffer (end of list plays the role of
the NUL).  On a hit, `memcpy(startPtr, dir->name + (startPtr - name),
ptr - startPtr)` overwrites that byte range in place.  Note the lookup
length is `ptr - name + 1` with `ptr` already past the separator, as in
the C source (`List.take` clamps where C would read past the NUL). -/
def adjust_loop : Nat → index_state → List Nat → Nat → Nat → List Nat
  | 0, _, name, _, _ => name
  | fuel + 1, st, name, startPtr, ptr =>
    if ptr < name.length then
      let p1 := scanToSep name ptr
      if p1 < name.length then
        let p2 := p1 + 1
        match find_dir_entry st name (p2 + 1) with
        | some dir =>
          adjust_loop fuel st
            (name.take startPtr ++ (dir.name.drop startPtr).take (p2 - startPtr) ++ name.drop p2)
            p2 p2
        | none => adjust_loop fuel st name startPtr p2
      else name
    else name

/-- `adjust_dirname_case(istate, name)`: lazily build, then rewrite the
buffer segment by segment. -/
def adjust_dirname_case (ic : Bool) (st : index_state) (name : List Nat) : List Nat :=
  let st' := lazy_init_name_hash ic st
  adjust_loop (name.length + 1) st' name 0 0

/-- `precompute_istate_hashes(ce)`: if the path has no directory
component, cache only the full-path hash (state `__SET`); otherwise
cache the parent-directory hash and continue it over the remaining bytes
(separator included) for the full-path hash (state `__SET | __DIR`). -/
def precompute_istate_hashes (ce : cache_entry) : cache_entry :=
  match dirSpanLen ce.name ce.name.length with
  | none =>
    { ce with precompute_hash_name := memihash ce.name,
              precompute_hash_set := true, precompute_hash_dir_bit := false }
  | some dlen =>
    { ce with precompute_hash_dir := memihash (ce.name.take dlen),
              precompute_hash_name := memihash_cont (memihash (ce.name.take dlen)) (ce.name.drop dlen),
              precompute_hash_set := true, precompute_hash_dir_bit := true }

/-- A precomputed-hash record is well formed when it is exactly what
`precompute_istate_hashes` computes for this entry's path — i.e. the
record genuinely belongs to this path, the situation the field contract
in cache.h prescribes. -/
def wf_entry (ce : cache_entry) : Prop :=
  ce.precompute_hash_set = true → precompute_istate_hashes ce = ce

instance (ce : cache_entry) : Decidable (wf_entry ce) := by
  unfold wf_entry
  infer_instance

/-- The public maintenance operations of the excerpt, plus the optional
precompute pass, as a step alphabet. -/
inductive IndexOp where
  | opInit : IndexOp
  | opAdd : Nat → IndexOp
  | opRemove : Nat → IndexOp
  | opPre : Nat → IndexOp
deriving DecidableEq, Repr

/-- Run `precompute_istate_hashes` on the entry at store index `i`. -/
def precompute_at (st : index_state) (i : Nat) : index_state :=
  { st with store := st.store.set i (precompute_istate_hashes (st.store.getD i default)) }

/-- Apply one public operation. -/
def applyOp (ic : Bool) (st : index_state) : IndexOp → index_state
  | .opInit => lazy_init_name_hash ic st
  | .opAdd i => add_name_hash ic st i
  | .opRemove i => remove_name_hash ic st i
  | .opPre i => precompute_at st i

/-- Apply a sequence of public operations. -/
def applyOps (ic : Bool) (st : index_state) (ops : List IndexOp) : index_state :=
  ops.foldl (applyOp ic) st

/-- A valid starting state: empty tables, lazy flag clear, no entry yet
flagged as hashed, well-formed precompute records, and a cache of valid
store indices. -/
def init0 (st : index_state) : Prop :=
  st.name_hash = [] ∧ st.dir_hash = [] ∧ st.name_hash_initialized = false ∧
  (∀ e ∈ st.store, e.ce_hashed = false ∧ wf_entry e) ∧
  (∀ i ∈ st.cache, i < st.store.length)

instance (st : index_state) : Decidable (init0 st) := by
  unfold init0
  infer_instance

/-- Index states built by the maintenance operations: any valid start
followed by lazy builds, single adds/removes of existing entries,
precompute passes, and allocation of fresh (unhashed, well-formed)
entries. -/
inductive Reachable (ic : Bool) : index_state → Prop where
  | start : ∀ st, init0 st → Reachable ic st
  | stepInit : ∀ st, Reachable ic st → Reachable ic (lazy_init_name_hash ic st)
  | stepAdd : ∀ st i, Reachable ic st → i < st.store.length → Reachable ic (add_name_hash ic st i)
  | stepRemove : ∀ st i, Reachable ic st → i < st.store.length →
      Reachable ic (remove_name_hash ic st i)
  | stepPre : ∀ st i, Reachable ic st → Reachable ic (precompute_at st i)
  | stepAlloc : ∀ st ce, Reachable ic st → ce.ce_hashed = false → wf_entry ce →
      Reachable ic { st with store := st.store ++ [ce] }

/-- The entry is currently indexed and its parent-directory span
case-folds to this node's name. -/
def entrySpanMatches (d : dir_entry) (e : cache_entry) : Bool :=
  e.ce_hashed &&
    match dirSpanLen e.name e.name.length with
    | some s => foldName (e.name.take s) == foldName d.name
    | none => false

/-- Number of indexed entries whose immediate parent directory is this
node. -/
def entryRefs (st : index_state) (d : dir_entry) : Nat :=
  (st.store.filter (entrySpanMatches d)).length

/-- Number of table nodes whose parent link points at this node. -/
def childRefs (st : index_state) (d : dir_entry) : Nat :=
  (st.dir_hash.filter (fun c => c.parent == some d.id)).length

/-- `dir` is a proper ancestor directory of `path` up to ASCII case:
some separator position `j` of `path` has its prefix case-folding to
`dir` (case-folded comparison is the one the active case-insensitive
policy applies). -/
def isProperAncestorDir (dir path : List Nat) : Prop :=
  ∃ j, j < path.length ∧ is_dir_sep (path.getD j 0) = true ∧ foldName (path.take j) = foldName dir

instance (dir path : List Nat) : Decidable (isProperAncestorDir dir path) :=
  decidable_of_iff
    (∃ j ∈ List.range path.length,
      is_dir_sep (path.getD j 0) = true ∧ foldName (path.take j) = foldName dir)
    (by simp [isProperAncestorDir, List.mem_range, and_assoc])

theorem toUpperByte_idem (c : Nat) : toUpperByte (toUpperByte c) = toUpperByte c := by
  simp only [toUpperByte]
  split_ifs <;> omega

theorem toUpperByte_zero : toUpperByte 0 = 0 := by
  simp [toUpperByte]

theorem is_dir_sep_toUpperByte (c : Nat) : is_dir_sep (toUpperByte c) = is_dir_sep c := by
  unfold toUpperByte is_dir_sep
  split_ifs with h
  · have h1 : c - 32 ≠ 47 := by omega
    have h2 : c ≠ 47 := by omega
    simp [h1, h2]
  · rfl

theorem foldName_length (s : List Nat) : (foldName s).length = s.length :=
  List.length_map s toUpperByte

theorem foldName_take (s : List Nat) (n : Nat) : foldName (s.take n) = (foldName s).take n := by
  simp [foldName, List.map_take]

theorem foldName_drop (s : List Nat) (n : Nat) : foldName (s.drop n) = (foldName s).drop n := by
  simp [foldName, List.map_drop]

theorem foldName_append (a b : List Nat) : foldName (a ++ b) = foldName a ++ foldName b := by
  simp [foldName]

theorem foldName_idem (s : List Nat) : foldName (foldName s) = foldName s := by
  induction s with
  | nil => rfl
  | cons c t ih =>
    simp only [foldName, List.map] at *
    exact List.cons_eq_cons.mpr ⟨toUpperByte_idem c, ih⟩

theorem foldName_getD (s : List Nat) (j : Nat) :
    (foldName s).getD j 0 = toUpperByte (s.getD j 0) := by
  induction s generalizing j with
  | nil => simp [foldName, toUpperByte_zero]
  | cons c t ih =>
    cases j with
    | zero => rfl
    | succ j => simpa [foldName] using ih j

theorem foldName_sep (s : List Nat) (j : Nat) :
    is_dir_sep ((foldName s).getD j 0) = is_dir_sep (s.getD j 0) := by
  rw [foldName_getD, is_dir_sep_toUpperByte]

theorem memihash_cont_append (seed : Nat) (a b : List Nat) :
    memihash_cont seed (a ++ b) = memihash_cont (memihash_cont seed a) b :=
  List.foldl_append _ _ _ _

theorem memihash_append (a b : List Nat) :
    memihash (a ++ b) = memihash_cont (memihash a) b :=
  memihash_cont_append _ a b

theorem memihashStep_toUpperByte (h c : Nat) : memihashStep h (toUpperByte c) = memihashStep h c := by
  simp [memihashStep, toUpperByte_idem]

theorem memihash_cont_foldName (seed : Nat) (s : List Nat) :
    memihash_cont seed (foldName s) = memihash_cont seed s := by
  induction s generalizing seed with
  | nil => rfl
  | cons c t ih =>
    simp only [foldName, List.map, memihash_cont, List.foldl] at *
    rw [memihashStep_toUpperByte]
    exact ih _

theorem memihash_foldName (s : List Nat) : memihash (foldName s) = memihash s :=
  memihash_cont_foldName _ s

theorem memihash_congr {a b : List Nat} (h : foldName a = foldName b) : memihash a = memihash b := by
  rw [← memihash_foldName a, h, memihash_foldName b]

theorem dirSpanLen_lt {nm : List Nat} {n s : Nat} (h : dirSpanLen nm n = some s) : s < n := by
  induction n with
  | zero => simp [dirSpanLen] at h
  | succ n ih =>
    simp only [dirSpanLen] at h
    split at h
    · cases h
      omega
    · exact Nat.lt_trans (ih h) (Nat.lt_succ_self n)

theorem dirSpanLen_sep {nm : List Nat} {n s : Nat} (h : dirSpanLen nm n = some s) :
    is_dir_sep (nm.getD s 0) = true := by
  induction n with
  | zero => simp [dirSpanLen] at h
  | succ n ih =>
    simp only [dirSpanLen] at h
    split at h
    · cases h
      assumption
    · exact ih h

theorem dirSpanLen_max {nm : List Nat} {n s : Nat} (h : dirSpanLen nm n = some s) :
    ∀ j, s < j → j < n → is_dir_sep (nm.getD j 0) = false := by
  induction n with
  | zero => simp [dirSpanLen] at h
  | succ n ih =>
    simp only [dirSpanLen] at h
    split at h
    · cases h
      intro j h1 h2
      omega
    · rename_i hnotsep
      intro j h1 h2
      rcases Nat.lt_succ_iff_lt_or_eq.mp h2 with h2' | h2'
      · exact ih h j h1 h2'
      · subst h2'
        simpa using hnotsep

theorem dirSpanLen_none {nm : List Nat} {n : Nat} (h : dirSpanLen nm n = none) :
    ∀ j, j < n → is_dir_sep (nm.getD j 0) = false := by
  induction n with
  | zero => intro j hj; omega
  | succ n ih =>
    simp only [dirSpanLen] at h
    split at h
    · cases h
    · rename_i hnotsep
      intro j hj
      rcases Nat.lt_succ_iff_lt_or_eq.mp hj with h' | h'
      · exact ih h j h'
      · subst h'
        simpa using hnotsep

theorem dirSpanLen_isSome_of_sep {nm : List Nat} {n j : Nat} (hj : j < n)
    (hsep : is_dir_sep (nm.getD j 0) = true) : ∃ s, dirSpanLen nm n = some s ∧ j ≤ s := by
  cases h : dirSpanLen nm n with
  | none =>
    have hf := dirSpanLen_none h j hj
    rw [hsep] at hf
    cases hf
  | some s =>
    refine ⟨s, rfl, ?_⟩
    by_contra hlt
    have hf := dirSpanLen_max h j (by omega) hj
    rw [hsep] at hf
    cases hf

theorem dirSpanLen_congr {nm1 nm2 : List Nat} {n : Nat}
    (h : ∀ j, j < n → is_dir_sep (nm1.getD j 0) = is_dir_sep (nm2.getD j 0)) :
    dirSpanLen nm1 n = dirSpanLen nm2 n := by
  induction n with
  | zero => rfl
  | succ n ih =>
    simp only [dirSpanLen]
    rw [h n (Nat.lt_succ_self n)]
    split
    · rfl
    · exact ih (fun j hj => h j (Nat.lt_trans hj (Nat.lt_succ_self n)))

theorem dirSpanLen_foldName (nm : List Nat) (n : Nat) :
    dirSpanLen (foldName nm) n = dirSpanLen nm n :=
  dirSpanLen_congr (fun j _ => foldName_sep nm j)

theorem getD_take {l : List Nat} {k j : Nat} (h : j < k) : (l.take k).getD j 0 = l.getD j 0 := by
  induction l generalizing k j with
  | nil => simp
  | cons c t ih =>
    cases k with
    | zero => omega
    | succ k =>
      cases j with
      | zero => rfl
      | succ j => simpa using ih (by omega)

theorem dirSpanLen_take {nm : List Nat} {k n : Nat} (h : n ≤ k) :
    dirSpanLen (nm.take k) n = dirSpanLen nm n :=
  dirSpanLen_congr (fun j hj => by rw [getD_take (by omega)])

theorem dirSpanLen_of_foldName_eq {a b : List Nat} (h : foldName a = foldName b) (n : Nat) :
    dirSpanLen a n = dirSpanLen b n := by
  rw [← dirSpanLen_foldName a n, h, dirSpanLen_foldName b n]

theorem foldName_eq_length {a b : List Nat} (h : foldName a = foldName b) :
    a.length = b.length := by
  rw [← foldName_length a, h, foldName_length b]

theorem getD_set_self {α : Type} (l : List α) (i : Nat) (a d : α) (h : i < l.length) :
    (l.set i a).getD i d = a := by
  induction l generalizing i with
  | nil => simp at h
  | cons c t ih =>
    cases i with
    | zero => rfl
    | succ i => simpa using ih i (by simpa using h)

theorem getD_set_ne {α : Type} (l : List α) {i j : Nat} (a : α) (d : α) (h : i ≠ j) :
    (l.set i a).getD j d = l.getD j d := by
  induction l generalizing i j with
  | nil => simp
  | cons c t ih =>
    cases i with
    | zero =>
      cases j with
      | zero => exact absurd rfl h
      | succ j => rfl
    | succ i =>
      cases j with
      | zero => rfl
      | succ j => simpa using ih (fun hh => h (by omega))

theorem mem_eraseP_of_not {α : Type} {p : α → Bool} {l : List α} {a : α}
    (ha : a ∈ l) (hp : p a = false) : a ∈ l.eraseP p := by
  induction l with
  | nil => cases ha
  | cons c t ih =>
    by_cases hc : p c = true
    · rw [List.eraseP_cons_of_pos hc]
      rcases List.mem_cons.mp ha with rfl | ha'
      · rw [hp] at hc
        cases hc
      · assumption
    · rw [List.eraseP_cons_of_neg (by simpa using hc)]
      rcases List.mem_cons.mp ha with rfl | ha'
      · exact List.mem_cons_self _ _
      · exact List.mem_cons_of_mem _ (ih ha')

theorem precompute_name (ce : cache_entry) : (precompute_istate_hashes ce).name = ce.name := by
  unfold precompute_istate_hashes
  cases h : dirSpanLen ce.name ce.name.length <;> rfl

theorem precompute_hashed (ce : cache_entry) :
    (precompute_istate_hashes ce).ce_hashed = ce.ce_hashed := by
  unfold precompute_istate_hashes
  cases h : dirSpanLen ce.name ce.name.length <;> rfl

theorem precompute_set_bit (ce : cache_entry) :
    (precompute_istate_hashes ce).precompute_hash_set = true := by
  unfold precompute_istate_hashes
  cases h : dirSpanLen ce.name ce.name.length <;> rfl

theorem precompute_idem (ce : cache_entry) :
    precompute_istate_hashes (precompute_istate_hashes ce) = precompute_istate_hashes ce := by
  unfold precompute_istate_hashes
  cases h : dirSpanLen ce.name ce.name.length <;> simp [h]

theorem wf_entry_precompute (ce : cache_entry) : wf_entry (precompute_istate_hashes ce) :=
  fun _ => precompute_idem ce

theorem precompute_with_hashed (ce : cache_entry) (b : Bool) :
    precompute_istate_hashes { ce with ce_hashed := b } =
      { precompute_istate_hashes ce with ce_hashed := b } := by
  unfold precompute_istate_hashes
  cases h : dirSpanLen ce.name ce.name.length <;> simp [h]

theorem wf_entry_with_hashed {ce : cache_entry} (h : wf_entry ce) (b : Bool) :
    wf_entry { ce with ce_hashed := b } := by
  intro hset
  rw [precompute_with_hashed, h hset]

theorem wf_entry_dir_bit_none {ce : cache_entry} (hwf : wf_entry ce)
    (hset : ce.precompute_hash_set = true) (hd : dirSpanLen ce.name ce.name.length = none) :
    ce.precompute_hash_dir_bit = false := by
  have h2 : (precompute_istate_hashes ce).precompute_hash_dir_bit = false := by
    unfold precompute_istate_hashes
    rw [hd]
  rw [hwf hset] at h2
  exact h2

theorem wf_entry_dir_bit_some {ce : cache_entry} (hwf : wf_entry ce)
    (hset : ce.precompute_hash_set = true) {s : Nat}
    (hd : dirSpanLen ce.name ce.name.length = some s) :
    ce.precompute_hash_dir_bit = true := by
  have h2 : (precompute_istate_hashes ce).precompute_hash_dir_bit = true := by
    unfold precompute_istate_hashes
    rw [hd]
  rw [hwf hset] at h2
  exact h2

theorem wf_entry_hash_dir {ce : cache_entry} (hwf : wf_entry ce)
    (hset : ce.precompute_hash_set = true) {s : Nat}
    (hd : dirSpanLen ce.name ce.name.length = some s) :
    ce.precompute_hash_dir = memihash (ce.name.take s) := by
  have h2 : (precompute_istate_hashes ce).precompute_hash_dir = memihash (ce.name.take s) := by
    unfold precompute_istate_hashes
    rw [hd]
  rw [hwf hset] at h2
  exact h2

theorem wf_entry_hash_name {ce : cache_entry} (hwf : wf_entry ce)
    (hset : ce.precompute_hash_set = true) :
    ce.precompute_hash_name = memihash ce.name := by
  cases hd : dirSpanLen ce.name ce.name.length with
  | none =>
    have h2 : (precompute_istate_hashes ce).precompute_hash_name = memihash ce.name := by
      unfold precompute_istate_hashes
      rw [hd]
    rw [hwf hset] at h2
    exact h2
  | some s =>
    have h2 : (precompute_istate_hashes ce).precompute_hash_name =
        memihash_cont (memihash (ce.name.take s)) (ce.name.drop s) := by
      unfold precompute_istate_hashes
      rw [hd]
    rw [hwf hset] at h2
    rw [h2, ← memihash_append, List.take_append_drop]

theorem hde_go_frame (fuel : Nat) (st : index_state) (ce : cache_entry) (n : Nat)
    (p : Option Nat) :
    (hash_dir_entry_go fuel st ce n p).2.store = st.store ∧
    (hash_dir_entry_go fuel st ce n p).2.cache = st.cache ∧
    (hash_dir_entry_go fuel st ce n p).2.name_hash = st.name_hash ∧
    (hash_dir_entry_go fuel st ce n p).2.name_hash_initialized = st.name_hash_initialized := by
  induction fuel generalizing st n p with
  | zero => exact ⟨rfl, rfl, rfl, rfl⟩
  | succ fuel ih =>
    simp only [hash_dir_entry_go]
    split
    · exact ⟨rfl, rfl, rfl, rfl⟩
    · split
      · exact ⟨rfl, rfl, rfl, rfl⟩
      · rename_i dlen _
        split
        · exact ⟨rfl, rfl, rfl, rfl⟩
        · split
          · exact ⟨rfl, rfl, rfl, rfl⟩
          · exact ih _ dlen none

theorem add_dir_refs_frame (fuel : Nat) (st : index_state) (cur : Option Nat) :
    (add_dir_refs fuel st cur).store = st.store ∧
    (add_dir_refs fuel st cur).cache = st.cache ∧
    (add_dir_refs fuel st cur).name_hash = st.name_hash ∧
    (add_dir_refs fuel st cur).name_hash_initialized = st.name_hash_initialized ∧
    (add_dir_refs fuel st cur).dir_next_id = st.dir_next_id := by
  induction fuel generalizing st cur with
  | zero =>
    cases cur <;> exact ⟨rfl, rfl, rfl, rfl, rfl⟩
  | succ fuel ih =>
    cases cur with
    | none => exact ⟨rfl, rfl, rfl, rfl, rfl⟩
    | some i =>
      simp only [add_dir_refs]
      split
      · exact ⟨rfl, rfl, rfl, rfl, rfl⟩
      · split
        · exact ih _ _
        · exact ⟨rfl, rfl, rfl, rfl, rfl⟩

theorem remove_dir_refs_frame (fuel : Nat) (st : index_state) (cur : Option Nat) :
    (remove_dir_refs fuel st cur).store = st.store ∧
    (remove_dir_refs fuel st cur).cache = st.cache ∧
    (remove_dir_refs fuel st cur).name_hash = st.name_hash ∧
    (remove_dir_refs fuel st cur).name_hash_initialized = st.name_hash_initialized ∧
    (remove_dir_refs fuel st cur).dir_next_id = st.dir_next_id := by
  induction fuel generalizing st cur with
  | zero =>
    cases cur <;> exact ⟨rfl, rfl, rfl, rfl, rfl⟩
  | succ fuel ih =>
    cases cur with
    | none => exact ⟨rfl, rfl, rfl, rfl, rfl⟩
    | some i =>
      simp only [remove_dir_refs]
      split
      · exact ⟨rfl, rfl, rfl, rfl, rfl⟩
      · split
        · exact ih _ _
        · exact ⟨rfl, rfl, rfl, rfl, rfl⟩

/-- ASCII string to byte list, for readable concrete test paths. -/
def pathBytes (s : String) : List Nat := s.data.map Char.toNat

/-- A fresh entry for a path: unhashed, no precomputed record. -/
def mkEntry (s : String) : cache_entry := ⟨pathBytes s, false, false, false, 0, 0⟩

/-- A fresh index whose ordered collection holds the given paths. -/
def mkState (paths : List String) : index_state :=
  ⟨paths.map mkEntry, List.range paths.length, [], [], 0, false⟩

theorem list_set_of_length_le {α : Type} {l : List α} {i : Nat} (a : α) (h : l.length ≤ i) :
    l.set i a = l := by
  induction l generalizing i with
  | nil => rfl
  | cons c t ih =>
    cases i with
    | zero => simp at h
    | succ i => simpa using ih (by simpa using h)

theorem add_dir_entry_frame (st : index_state) (ce : cache_entry) (prev : Option Nat) :
    (add_dir_entry st ce prev).1.store = st.store ∧
    (add_dir_entry st ce prev).1.cache = st.cache ∧
    (add_dir_entry st ce prev).1.name_hash = st.name_hash ∧
    (add_dir_entry st ce prev).1.name_hash_initialized = st.name_hash_initialized := by
  unfold add_dir_entry hash_dir_entry
  have h1 := hde_go_frame (ce.name.length + 1) st ce ce.name.length prev
  have h2 := add_dir_refs_frame
    (((hash_dir_entry_go (ce.name.length + 1) st ce ce.name.length prev).2.dir_hash.length + 1))
    ((hash_dir_entry_go (ce.name.length + 1) st ce ce.name.length prev).2)
    ((hash_dir_entry_go (ce.name.length + 1) st ce ce.name.length prev).1)
  exact ⟨h2.1.trans h1.1, h2.2.1.trans h1.2.1, h2.2.2.1.trans h1.2.2.1,
    h2.2.2.2.1.trans h1.2.2.2⟩

theorem remove_dir_entry_frame (st : index_state) (ce : cache_entry) :
    (remove_dir_entry st ce).store = st.store ∧
    (remove_dir_entry st ce).cache = st.cache ∧
    (remove_dir_entry st ce).name_hash = st.name_hash ∧
    (remove_dir_entry st ce).name_hash_initialized = st.name_hash_initialized := by
  unfold remove_dir_entry hash_dir_entry
  have h1 := hde_go_frame (ce.name.length + 1) st ce ce.name.length none
  have h2 := remove_dir_refs_frame
    (((hash_dir_entry_go (ce.name.length + 1) st ce ce.name.length none).2.dir_hash.length + 1))
    ((hash_dir_entry_go (ce.name.length + 1) st ce ce.name.length none).2)
    ((hash_dir_entry_go (ce.name.length + 1) st ce ce.name.length none).1)
  exact ⟨h2.1.trans h1.1, h2.2.1.trans h1.2.1, h2.2.2.1.trans h1.2.2.1,
    h2.2.2.2.1.trans h1.2.2.2⟩

theorem hie_store (ic : Bool) (st : index_state) (i : Nat) (prev : Option Nat) :
    (hash_index_entry ic st i prev).1.store =
      if (st.store.getD i default).ce_hashed then st.store
      else st.store.set i { st.store.getD i default with ce_hashed := true } := by
  by_cases h : (st.store.getD i default).ce_hashed = true
  · simp only [hash_index_entry, h, if_true]
  · have h' : (st.store.getD i default).ce_hashed = false := by
      simpa using h
    cases ic with
    | false => simp only [hash_index_entry, h', Bool.false_eq_true, if_false]
    | true =>
      simp only [hash_index_entry, h', Bool.false_eq_true, if_false, if_true]
      rw [(add_dir_entry_frame _ _ _).1]

theorem hie_store_length (ic : Bool) (st : index_state) (i : Nat) (prev : Option Nat) :
    (hash_index_entry ic st i prev).1.store.length = st.store.length := by
  rw [hie_store]
  split
  · rfl
  · exact List.length_set _ _ _

theorem hie_flag_self (ic : Bool) (st : index_state) {i : Nat} (prev : Option Nat)
    (h : i < st.store.length) :
    ((hash_index_entry ic st i prev).1.store.getD i default).ce_hashed = true := by
  rw [hie_store]
  split
  · assumption
  · rw [getD_set_self _ _ _ _ h]

theorem hie_flag_mono (ic : Bool) (st : index_state) (j : Nat) (prev : Option Nat) {i : Nat}
    (h : (st.store.getD i default).ce_hashed = true) :
    ((hash_index_entry ic st j prev).1.store.getD i default).ce_hashed = true := by
  rw [hie_store]
  split
  · assumption
  · by_cases hij : j = i
    · subst hij
      by_cases hlen : j < st.store.length
      · rw [getD_set_self _ _ _ _ hlen]
      · rw [list_set_of_length_le _ (by omega)]
        exact h
    · rw [getD_set_ne _ _ _ hij]
      exact h

theorem foldl_hie_flag (ic : Bool) (l : List Nat) :
    ∀ (acc : index_state × Option Nat) (i : Nat),
      ((i ∈ l ∧ i < acc.1.store.length) ∨ (acc.1.store.getD i default).ce_hashed = true) →
      (((l.foldl (fun a j => hash_index_entry ic a.1 j a.2) acc).1.store.getD i default)).ce_hashed
        = true := by
  induction l with
  | nil =>
    intro acc i h
    rcases h with ⟨h1, _⟩ | h2
    · cases h1
    · exact h2
  | cons j t ih =>
    intro acc i h
    simp only [List.foldl_cons]
    rcases h with ⟨h1, hlen⟩ | h2
    · rcases List.mem_cons.mp h1 with rfl | hmem
      · exact ih _ i (Or.inr (hie_flag_self ic acc.1 acc.2 hlen))
      · exact ih _ i (Or.inl ⟨hmem, by rw [hie_store_length]; exact hlen⟩)
    · exact ih _ i (Or.inr (hie_flag_mono ic acc.1 j acc.2 h2))

theorem slow_same_name_iff (a b : List Nat) :
    slow_same_name a b = true ↔ foldName a = foldName b := by
  induction a generalizing b with
  | nil =>
    cases b with
    | nil => simp [slow_same_name, foldName]
    | cons c t => simp [slow_same_name, foldName]
  | cons c1 t1 ih =>
    cases b with
    | nil => simp [slow_same_name, foldName]
    | cons c2 t2 =>
      simp only [slow_same_name, Bool.and_eq_true, Bool.or_eq_true, beq_iff_eq, foldName,
        List.map, List.cons_eq_cons]
      constructor
      · rintro ⟨h1 | h1, h2⟩
        · exact ⟨by rw [h1], (ih t2).mp h2⟩
        · exact ⟨h1, (ih t2).mp h2⟩
      · rintro ⟨h1, h2⟩
        exact ⟨Or.inr h1, (ih t2).mpr h2⟩

theorem same_name_iff (ce : cache_entry) (name : List Nat) (namelen : Nat) (icase : Bool) :
    same_name ce name namelen icase = true ↔
      (ce.name = name.take namelen ∨
       (icase = true ∧ foldName (name.take namelen) = foldName ce.name)) := by
  by_cases hex : ce.name = name.take namelen
  · simp [same_name, hex]
  · have hexb : (ce.name == name.take namelen) = false := by
      simpa using hex
    cases icase with
    | false => simp [same_name, hexb, hex]
    | true =>
      simp only [same_name, hexb, Bool.false_eq_true, if_false, Bool.not_true,
        slow_same_name_iff]
      constructor
      · intro h
        exact Or.inr ⟨by trivial, h⟩
      · rintro (h | ⟨_, h⟩)
        · exact absurd h hex
        · exact h

theorem find?_eq_some_char {α : Type} (p : α → Bool) (l : List α) (a : α) :
    l.find? p = some a ↔
      ∃ l1 l2, l = l1 ++ a :: l2 ∧ p a = true ∧ ∀ x ∈ l1, p x = false := by
  induction l with
  | nil => simp
  | cons c t ih =>
    by_cases hc : p c = true
    · rw [List.find?_cons_of_pos _ hc]
      constructor
      · intro hh
        cases hh
        exact ⟨[], t, rfl, hc, by simp⟩
      · rintro ⟨l1, l2, heq, hpa, hnone⟩
        cases l1 with
        | nil =>
          simp only [List.nil_append, List.cons.injEq] at heq
          rw [heq.1]
        | cons x l1' =>
          simp only [List.cons_append, List.cons.injEq] at heq
          rcases heq with ⟨rfl, _⟩
          have := hnone c (List.mem_cons_self _ _)
          rw [hc] at this
          cases this
    · rw [List.find?_cons_of_neg _ (by simpa using hc)]
      rw [ih]
      constructor
      · rintro ⟨l1, l2, rfl, hpa, hnone⟩
        refine ⟨c :: l1, l2, rfl, hpa, ?_⟩
        intro x hx
        rcases List.mem_cons.mp hx with rfl | hx'
        · simpa using hc
        · exact hnone x hx'
      · rintro ⟨l1, l2, heq, hpa, hnone⟩
        cases l1 with
        | nil =>
          simp only [List.nil_append, List.cons.injEq] at heq
          rcases heq with ⟨rfl, rfl⟩
          exact absurd hpa (by simpa using hc)
        | cons x l1' =>
          simp only [List.cons_append, List.cons.injEq] at heq
          rcases heq with ⟨rfl, rfl⟩
          exact ⟨l1', l2, rfl, hpa, fun y hy => hnone y (List.mem_cons_of_mem _ hy)⟩

/-- An index built over the single path `foo/Bar.TXT` (case-insensitive
configuration). -/
def exC4 : index_state := lazy_init_name_hash true (mkState ["foo/Bar.TXT"])

/-- An index built over the single path `Foo/Bar/baz.txt`
(case-insensitive configuration), so the directory tree holds the
first-seen spellings `Foo` and `Foo/Bar`. -/
def exC5 : index_state := lazy_init_name_hash true (mkState ["Foo/Bar/baz.txt"])

/-- C2: the rolling case-fold hash is a genuine streaming hash:
continuing the hash of `a` with the bytes of `b` equals hashing the
concatenation `a ++ b`, for all byte spans including empty ones and
splits adjacent to a separator; and consequently the full-path hash
cached by `precompute_istate_hashes` (which continues the parent
directory's hash over the remaining bytes) always equals the direct hash
of the whole path. -/
theorem C2_rolling_hash :
    (∀ a b : List Nat, memihash_cont (memihash a) b = memihash (a ++ b)) ∧
    (∀ ce : cache_entry,
      (precompute_istate_hashes ce).precompute_hash_name = memihash ce.name) := by
  constructor
  · intro a b
    rw [memihash_append]
  · intro ce
    unfold precompute_istate_hashes
    cases h : dirSpanLen ce.name ce.name.length with
    | none => rfl
    | some s =>
      show memihash_cont (memihash (ce.name.take s)) (ce.name.drop s) = memihash ce.name
      rw [← memihash_append, List.take_append_drop]

/-- C4: `index_file_exists` retrieves the collision chain of the folded
hash of the query (the `name_hash` pairs carrying that stored hash, in
insertion order) and returns the first chain member accepted by
`same_name`, or nothing if none is; `same_name` accepts exactly an exact
byte-for-byte match, or — only when case-insensitive matching was
requested — a full case-folding match.  Concretely, after inserting
`foo/Bar.TXT`, a case-insensitive lookup of `FOO/bar.txt` returns that
entry, while a case-sensitive lookup of the same spelling returns
nothing and a case-sensitive lookup of the exact spelling succeeds. -/
theorem C4_lookup_first_match :
    (∀ (ic : Bool) (st : index_state) (name : List Nat) (namelen : Nat) (icase : Bool),
      (∀ i : Nat,
        index_file_exists ic st name namelen icase = some i ↔
          ∃ l1 p l2,
            (lazy_init_name_hash ic st).name_hash.filter
                (fun q => q.1 == memihash (name.take namelen)) = l1 ++ p :: l2 ∧
            p.2 = i ∧
            same_name ((lazy_init_name_hash ic st).store.getD p.2 default) name namelen icase
              = true ∧
            ∀ q ∈ l1,
              same_name ((lazy_init_name_hash ic st).store.getD q.2 default) name namelen icase
                = false) ∧
      (index_file_exists ic st name namelen icase = none ↔
        ∀ p ∈ (lazy_init_name_hash ic st).name_hash.filter
            (fun q => q.1 == memihash (name.take namelen)),
          same_name ((lazy_init_name_hash ic st).store.getD p.2 default) name namelen icase
            = false)) ∧
    (∀ (ce : cache_entry) (name : List Nat) (namelen : Nat) (icase : Bool),
      same_name ce name namelen icase = true ↔
        (ce.name = name.take namelen ∨
         (icase = true ∧ foldName (name.take namelen) = foldName ce.name))) ∧
    (index_file_exists true exC4 (pathBytes "FOO/bar.txt") 11 true = some 0 ∧
     index_file_exists true exC4 (pathBytes "FOO/bar.txt") 11 false = none ∧
     index_file_exists true exC4 (pathBytes "foo/Bar.TXT") 11 false = some 0) := by
  refine ⟨?_, same_name_iff, by decide⟩
  intro ic st name namelen icase
  constructor
  · intro i
    unfold index_file_exists
    simp only [Option.map_eq_some']
    constructor
    · rintro ⟨p, hfind, hsnd⟩
      rcases (find?_eq_some_char _ _ _).mp hfind with ⟨l1, l2, heq, hpa, hnone⟩
      exact ⟨l1, p, l2, heq, hsnd, hpa, hnone⟩
    · rintro ⟨l1, p, l2, heq, hsnd, hpa, hnone⟩
      exact ⟨p, (find?_eq_some_char _ _ _).mpr ⟨l1, l2, heq, hpa, hnone⟩, hsnd⟩
  · unfold index_file_exists
    simp only [Option.map_eq_none']
    rw [List.find?_eq_none]
    constructor
    · intro h p hp
      have := h p hp
      simpa using this
    · intro h p hp
      rw [h p hp]
      simp

/-- C5: with `Foo` and `Foo/Bar` in the directory tree (first-seen
casing), `adjust_dirname_case` leaves the input `foo/bar/baz.txt`
completely unchanged instead of rewriting it to `Foo/Bar/baz.txt`: the
lookup length `ptr - name + 1` is taken with `ptr` already past the
separator, so the function queries spans like `foo/b` and `foo/bar/b`,
which are never directory nodes (nodes are stored without the closing
slash).  This contradicts the function's purpose and the storage
convention of the rest of the file. -/
theorem C5_adjust_dirname_case_noop :
    (∃ d ∈ exC5.dir_hash, d.name = pathBytes "Foo/Bar") ∧
    (∃ d ∈ exC5.dir_hash, d.name = pathBytes "Foo") ∧
    adjust_dirname_case true exC5 (pathBytes "foo/bar/baz.txt") = pathBytes "foo/bar/baz.txt" ∧
    adjust_dirname_case true exC5 (pathBytes "foo/bar/baz.txt") ≠ pathBytes "Foo/Bar/baz.txt" := by
  decide

theorem remove_guard_noop (ic : Bool) (st : index_state) (i : Nat)
    (h : (!st.name_hash_initialized || !(st.store.getD i default).ce_hashed) = true) :
    remove_name_hash ic st i = st := by
  simp only [remove_name_hash, h, if_true]

theorem remove_store (ic : Bool) (st : index_state) (i : Nat)
    (h : (!st.name_hash_initialized || !(st.store.getD i default).ce_hashed) = false) :
    (remove_name_hash ic st i).store =
      st.store.set i { st.store.getD i default with ce_hashed := false } ∧
    (remove_name_hash ic st i).name_hash_initialized = st.name_hash_initialized := by
  simp only [remove_name_hash, h, Bool.false_eq_true, if_false]
  cases ic with
  | false => exact ⟨rfl, rfl⟩
  | true =>
    constructor
    · exact (remove_dir_entry_frame _ _).1
    · exact (remove_dir_entry_frame _ _).2.2.2

/-- C9: double insert and double remove are idempotent no-ops: a second
`hash_index_entry` on the same entry returns immediately because
`CE_HASHED` is already set (leaving both the state and the caller's
`p_previous_dir` untouched), and a second `remove_name_hash` returns
immediately because the flag is already clear; neither is an error. -/
theorem C9_double_insert_remove (ic : Bool) (st : index_state) (i : Nat)
    (prev1 prev2 : Option Nat) (h : i < st.store.length) :
    hash_index_entry ic (hash_index_entry ic st i prev1).1 i prev2 =
      ((hash_index_entry ic st i prev1).1, prev2) ∧
    remove_name_hash ic (remove_name_hash ic st i) i = remove_name_hash ic st i := by
  constructor
  · have hf := hie_flag_self ic st prev1 h
    generalize hX : (hash_index_entry ic st i prev1).1 = X at hf ⊢
    simp only [hash_index_entry, hf, if_true]
  · by_cases hg : (!st.name_hash_initialized || !(st.store.getD i default).ce_hashed) = true
    · rw [remove_guard_noop ic st i hg, remove_guard_noop ic st i hg]
    · have hg' : (!st.name_hash_initialized || !(st.store.getD i default).ce_hashed) = false := by
        simpa using hg
      have hs := remove_store ic st i hg'
      have hflag2 : ((remove_name_hash ic st i).store.getD i default).ce_hashed = false := by
        rw [hs.1, getD_set_self _ _ _ _ (by simpa using h)]
      apply remove_guard_noop
      simp only [Bool.or_eq_true, Bool.not_eq_true']
      exact Or.inr hflag2

/-- Witness for C9 at a concrete one-entry index. -/
theorem C9_double_insert_remove_witness :
    0 < (mkState ["a/b"]).store.length ∧
    (hash_index_entry true (hash_index_entry true (mkState ["a/b"]) 0 none).1 0 none =
      ((hash_index_entry true (mkState ["a/b"]) 0 none).1, none) ∧
     remove_name_hash true (remove_name_hash true (mkState ["a/b"]) 0) 0 =
       remove_name_hash true (mkState ["a/b"]) 0) :=
  ⟨by decide, C9_double_insert_remove true (mkState ["a/b"]) 0 none none (by decide)⟩

/-- C10: while the lazy table has not been built
(`name_hash_initialized` clear), the public single-entry add is a
complete no-op — the state, both tables and the entry's flag are left
exactly as they were — and the entry becomes indexed only when the lazy
bulk build later runs over the collection. -/
theorem C10_add_before_init_noop (ic : Bool) (st : index_state) (i : Nat)
    (h : st.name_hash_initialized = false) :
    add_name_hash ic st i = st ∧
    (i ∈ st.cache → i < st.store.length →
      ((lazy_init_name_hash ic st).store.getD i default).ce_hashed = true) := by
  constructor
  · simp [add_name_hash, h]
  · intro hmem hlen
    simp only [lazy_init_name_hash, h, Bool.false_eq_true, if_false]
    exact foldl_hie_flag ic st.cache _ i (Or.inl ⟨hmem, hlen⟩)

/-- Witness for C10 at a concrete uninitialized one-entry index. -/
theorem C10_add_before_init_noop_witness :
    (mkState ["a/b"]).name_hash_initialized = false ∧
    (add_name_hash true (mkState ["a/b"]) 0 = mkState ["a/b"] ∧
     (0 ∈ (mkState ["a/b"]).cache → 0 < (mkState ["a/b"]).store.length →
       ((lazy_init_name_hash true (mkState ["a/b"])).store.getD 0 default).ce_hashed = true)) :=
  ⟨by decide, C10_add_before_init_noop true (mkState ["a/b"]) 0 (by decide)⟩

theorem dirSpanLen_eq_none {nm : List Nat} {n : Nat}
    (h : ∀ j, j < n → is_dir_sep (nm.getD j 0) = false) : dirSpanLen nm n = none := by
  induction n with
  | zero => rfl
  | succ n ih =>
    simp only [dirSpanLen]
    rw [h n (Nat.lt_succ_self n)]
    simp only [Bool.false_eq_true, if_false]
    exact ih (fun j hj => h j (Nat.lt_trans hj (Nat.lt_succ_self n)))

theorem dirSpanLen_none_mono {nm : List Nat} {k n : Nat} (h : dirSpanLen nm k = none)
    (hn : n ≤ k) : dirSpanLen nm n = none :=
  dirSpanLen_eq_none (fun j hj => dirSpanLen_none h j (Nat.lt_of_lt_of_le hj hn))

theorem hde_go_early (fuel : Nat) (st : index_state) (ce : cache_entry) (n : Nat)
    (p : Option Nat) (h : (ce.precompute_hash_set && !ce.precompute_hash_dir_bit) = true) :
    hash_dir_entry_go (fuel + 1) st ce n p = (none, st) := by
  simp [hash_dir_entry_go, h]

theorem hde_go_nospan (fuel : Nat) (st : index_state) (ce : cache_entry) (n : Nat)
    (p : Option Nat) (hne : (ce.precompute_hash_set && !ce.precompute_hash_dir_bit) = false)
    (hd : dirSpanLen ce.name n = none) :
    hash_dir_entry_go (fuel + 1) st ce n p = (none, st) := by
  simp [hash_dir_entry_go, hne, hd]

theorem hde_go_fast (fuel : Nat) (st : index_state) (ce : cache_entry) (n : Nat)
    (p : Option Nat) (dlen did : Nat)
    (hne : (ce.precompute_hash_set && !ce.precompute_hash_dir_bit) = false)
    (hd : dirSpanLen ce.name n = some dlen)
    (hfast : previous_dir_hit st ce dlen p = some did) :
    hash_dir_entry_go (fuel + 1) st ce n p = (some did, st) := by
  simp [hash_dir_entry_go, hne, hd, hfast]

theorem hde_go_found (fuel : Nat) (st : index_state) (ce : cache_entry) (n : Nat)
    (p : Option Nat) (dlen : Nat) (d : dir_entry)
    (hne : (ce.precompute_hash_set && !ce.precompute_hash_dir_bit) = false)
    (hd : dirSpanLen ce.name n = some dlen)
    (hfast : previous_dir_hit st ce dlen p = none)
    (hlook : find_dir_entry__hash st ce.name dlen (hde_hash ce n dlen) = some d) :
    hash_dir_entry_go (fuel + 1) st ce n p = (some d.id, st) := by
  simp [hash_dir_entry_go, hne, hd, hfast, hlook]

theorem hde_go_create (fuel : Nat) (st : index_state) (ce : cache_entry) (n : Nat)
    (p : Option Nat) (dlen : Nat)
    (hne : (ce.precompute_hash_set && !ce.precompute_hash_dir_bit) = false)
    (hd : dirSpanLen ce.name n = some dlen)
    (hfast : previous_dir_hit st ce dlen p = none)
    (hlook : find_dir_entry__hash st ce.name dlen (hde_hash ce n dlen) = none) :
    hash_dir_entry_go (fuel + 1) st ce n p =
      (some st.dir_next_id,
       setParentOf (hash_dir_entry_go fuel (hde_push st ce n dlen) ce dlen none).2
         st.dir_next_id
         (hash_dir_entry_go fuel (hde_push st ce n dlen) ce dlen none).1) := by
  simp [hash_dir_entry_go, hne, hd, hfast, hlook]

theorem hde_no_early_of_span {ce : cache_entry} {s : Nat} (hwf : wf_entry ce)
    (hfull : dirSpanLen ce.name ce.name.length = some s) :
    (ce.precompute_hash_set && !ce.precompute_hash_dir_bit) = false := by
  cases hset : ce.precompute_hash_set with
  | false => simp [hset]
  | true =>
    rw [wf_entry_dir_bit_some hwf hset hfull]
    simp

theorem hde_hash_eq_memihash {ce : cache_entry} {n dlen : Nat} (hwf : wf_entry ce)
    (hd : dirSpanLen ce.name n = some dlen) :
    hde_hash ce n dlen = memihash (ce.name.take dlen) := by
  unfold hde_hash
  split
  · rename_i hc
    simp only [Bool.and_eq_true, beq_iff_eq] at hc
    obtain ⟨⟨hset, _⟩, hlen⟩ := hc
    rw [hlen] at hd
    exact wf_entry_hash_dir hwf hset hd
  · rfl

theorem findId_congr {st1 st2 : index_state} (h : st1.dir_hash = st2.dir_hash) (i : Nat) :
    findId st1 i = findId st2 i := by
  unfold findId
  rw [h]

theorem find_dir_entry__hash_congr {st1 st2 : index_state} (h : st1.dir_hash = st2.dir_hash)
    (name : List Nat) (namelen hash : Nat) :
    find_dir_entry__hash st1 name namelen hash = find_dir_entry__hash st2 name namelen hash := by
  unfold find_dir_entry__hash
  rw [h]

theorem previous_dir_hit_congr {st1 st2 : index_state} {ce1 ce2 : cache_entry}
    (hdir : st1.dir_hash = st2.dir_hash) (hname : ce1.name = ce2.name) (dlen : Nat)
    (p : Option Nat) :
    previous_dir_hit st1 ce1 dlen p = previous_dir_hit st2 ce2 dlen p := by
  unfold previous_dir_hit
  cases p with
  | none => rfl
  | some pid =>
    show (match findId st1 pid with
      | some prev =>
        if dlen == prev.name.length && ce1.name.take dlen == prev.name then some prev.id
        else none
      | none => none) =
      (match findId st2 pid with
      | some prev =>
        if dlen == prev.name.length && ce2.name.take dlen == prev.name then some prev.id
        else none
      | none => none)
    rw [findId_congr hdir, hname]

theorem hde_go_bi : ∀ (fuel : Nat) (st1 st2 : index_state) (ce1 ce2 : cache_entry) (n : Nat)
    (p : Option Nat),
    st1.dir_hash = st2.dir_hash → st1.dir_next_id = st2.dir_next_id →
    ce1.name = ce2.name → wf_entry ce1 → wf_entry ce2 → n ≤ ce1.name.length →
    (hash_dir_entry_go fuel st1 ce1 n p).1 = (hash_dir_entry_go fuel st2 ce2 n p).1 ∧
    (hash_dir_entry_go fuel st1 ce1 n p).2.dir_hash =
      (hash_dir_entry_go fuel st2 ce2 n p).2.dir_hash ∧
    (hash_dir_entry_go fuel st1 ce1 n p).2.dir_next_id =
      (hash_dir_entry_go fuel st2 ce2 n p).2.dir_next_id := by
  intro fuel
  induction fuel with
  | zero =>
    intro st1 st2 ce1 ce2 n p hdir hnext _ _ _ _
    exact ⟨rfl, hdir, hnext⟩
  | succ fuel ih =>
    intro st1 st2 ce1 ce2 n p hdir hnext hname hwf1 hwf2 hn
    cases hfull : dirSpanLen ce1.name ce1.name.length with
    | none =>
      have hnone1 : dirSpanLen ce1.name n = none := dirSpanLen_none_mono hfull hn
      have hnone2 : dirSpanLen ce2.name n = none := by
        rw [← hname]
        exact hnone1
      have e1 : hash_dir_entry_go (fuel + 1) st1 ce1 n p = (none, st1) := by
        cases hne : (ce1.precompute_hash_set && !ce1.precompute_hash_dir_bit) with
        | true => exact hde_go_early fuel st1 ce1 n p hne
        | false => exact hde_go_nospan fuel st1 ce1 n p hne hnone1
      have e2 : hash_dir_entry_go (fuel + 1) st2 ce2 n p = (none, st2) := by
        cases hne : (ce2.precompute_hash_set && !ce2.precompute_hash_dir_bit) with
        | true => exact hde_go_early fuel st2 ce2 n p hne
        | false => exact hde_go_nospan fuel st2 ce2 n p hne hnone2
      rw [e1, e2]
      exact ⟨rfl, hdir, hnext⟩
    | some sfull =>
      have hfull2 : dirSpanLen ce2.name ce2.name.length = some sfull := by
        rw [← hname]
        exact hfull
      have hne1 := hde_no_early_of_span hwf1 hfull
      have hne2 := hde_no_early_of_span hwf2 hfull2
      cases hdn : dirSpanLen ce1.name n with
      | none =>
        have hdn2 : dirSpanLen ce2.name n = none := by
          rw [← hname]
          exact hdn
        rw [hde_go_nospan fuel st1 ce1 n p hne1 hdn, hde_go_nospan fuel st2 ce2 n p hne2 hdn2]
        exact ⟨rfl, hdir, hnext⟩
      | some dlen =>
        have hdn2 : dirSpanLen ce2.name n = some dlen := by
          rw [← hname]
          exact hdn
        have hfaste := previous_dir_hit_congr hdir hname dlen p
        cases hfast : previous_dir_hit st1 ce1 dlen p with
        | some did =>
          rw [hde_go_fast fuel st1 ce1 n p dlen did hne1 hdn hfast,
            hde_go_fast fuel st2 ce2 n p dlen did hne2 hdn2 (by rw [← hfaste]; exact hfast)]
          exact ⟨rfl, hdir, hnext⟩
        | none =>
          have hfast2 : previous_dir_hit st2 ce2 dlen p = none := by
            rw [← hfaste]
            exact hfast
          have hhash1 : hde_hash ce1 n dlen = memihash (ce1.name.take dlen) :=
            hde_hash_eq_memihash hwf1 hdn
          have hhash2 : hde_hash ce2 n dlen = memihash (ce2.name.take dlen) :=
            hde_hash_eq_memihash hwf2 hdn2
          have hlooke : find_dir_entry__hash st1 ce1.name dlen (hde_hash ce1 n dlen) =
              find_dir_entry__hash st2 ce2.name dlen (hde_hash ce2 n dlen) := by
            rw [hhash1, hhash2, hname, find_dir_entry__hash_congr hdir]
          cases hlook : find_dir_entry__hash st1 ce1.name dlen (hde_hash ce1 n dlen) with
          | some d =>
            rw [hde_go_found fuel st1 ce1 n p dlen d hne1 hdn hfast hlook,
              hde_go_found fuel st2 ce2 n p dlen d hne2 hdn2 hfast2 (by rw [← hlooke]; exact hlook)]
            exact ⟨rfl, hdir, hnext⟩
          | none =>
            rw [hde_go_create fuel st1 ce1 n p dlen hne1 hdn hfast hlook,
              hde_go_create fuel st2 ce2 n p dlen hne2 hdn2 hfast2 (by rw [← hlooke]; exact hlook)]
            have hpush_dir : (hde_push st1 ce1 n dlen).dir_hash = (hde_push st2 ce2 n dlen).dir_hash := by
              simp [hde_push, hde_newnode, hdir, hnext, hname, hhash1, hhash2]
            have hpush_next : (hde_push st1 ce1 n dlen).dir_next_id =
                (hde_push st2 ce2 n dlen).dir_next_id := by
              simp [hde_push, hnext]
            have hrec := ih (hde_push st1 ce1 n dlen) (hde_push st2 ce2 n dlen) ce1 ce2 dlen none
              hpush_dir hpush_next hname hwf1 hwf2
              (Nat.le_of_lt (Nat.lt_of_lt_of_le (dirSpanLen_lt hdn) hn))
            refine ⟨by rw [hnext], ?_, ?_⟩
            · simp only [setParentOf]
              rw [hrec.2.1, hrec.1, hnext]
            · simp only [setParentOf]
              exact hrec.2.2

theorem add_dir_refs_bi : ∀ (fuel : Nat) (st1 st2 : index_state) (cur : Option Nat),
    st1.dir_hash = st2.dir_hash →
    (add_dir_refs fuel st1 cur).dir_hash = (add_dir_refs fuel st2 cur).dir_hash := by
  intro fuel
  induction fuel with
  | zero =>
    intro st1 st2 cur h
    cases cur <;> simpa [add_dir_refs]
  | succ fuel ih =>
    intro st1 st2 cur h
    cases cur with
    | none => simpa [add_dir_refs]
    | some i =>
      simp only [add_dir_refs]
      rw [findId_congr h i]
      cases hfi : findId st2 i with
      | none => exact h
      | some d =>
        have hbump : (bumpNr st1 i).dir_hash = (bumpNr st2 i).dir_hash := by
          simp [bumpNr, h]
        by_cases hnr : (d.nr == 0) = true
        · simp only [hnr, if_true]
          exact ih _ _ _ hbump
        · simp only [hnr, if_false]
          exact hbump

theorem remove_dir_refs_bi : ∀ (fuel : Nat) (st1 st2 : index_state) (cur : Option Nat),
    st1.dir_hash = st2.dir_hash →
    (remove_dir_refs fuel st1 cur).dir_hash = (remove_dir_refs fuel st2 cur).dir_hash := by
  intro fuel
  induction fuel with
  | zero =>
    intro st1 st2 cur h
    cases cur <;> simpa [remove_dir_refs]
  | succ fuel ih =>
    intro st1 st2 cur h
    cases cur with
    | none => simpa [remove_dir_refs]
    | some i =>
      simp only [remove_dir_refs]
      rw [findId_congr h i]
      cases hfi : findId st2 i with
      | none => exact h
      | some d =>
        have hdec : (decNr st1 i).dir_hash = (decNr st2 i).dir_hash := by
          simp [decNr, h]
        have herase : (eraseDirNode (decNr st1 i) d).dir_hash =
            (eraseDirNode (decNr st2 i) d).dir_hash := by
          simp [eraseDirNode, hdec]
        by_cases hnr : (d.nr - 1 == 0) = true
        · simp only [hnr, if_true]
          exact ih _ _ _ herase
        · simp only [hnr, if_false]
          exact hdec

/-- Two index states that agree on everything observable — both tables,
the collection, the lazy flag, and every entry's path and "present"
flag — and may differ only in entries' precomputed-hash records. -/
structure eqUpToPre (st1 st2 : index_state) : Prop where
  cache_eq : st1.cache = st2.cache
  nh_eq : st1.name_hash = st2.name_hash
  dh_eq : st1.dir_hash = st2.dir_hash
  next_eq : st1.dir_next_id = st2.dir_next_id
  init_eq : st1.name_hash_initialized = st2.name_hash_initialized
  len_eq : st1.store.length = st2.store.length
  name_eq : ∀ j : Nat, (st1.store.getD j default).name = (st2.store.getD j default).name
  flag_eq : ∀ j : Nat,
    (st1.store.getD j default).ce_hashed = (st2.store.getD j default).ce_hashed

/-- Every entry in the store has a well-formed precomputed-hash record. -/
def storeWf (st : index_state) : Prop := ∀ e ∈ st.store, wf_entry e

instance (st : index_state) : Decidable (storeWf st) := by
  unfold storeWf
  infer_instance

theorem wf_entry_default : wf_entry (default : cache_entry) := by
  intro hset
  cases hset

theorem storeWf_getD {st : index_state} (h : storeWf st) (j : Nat) :
    wf_entry (st.store.getD j default) := by
  by_cases hj : j < st.store.length
  · have : st.store.getD j default ∈ st.store := by
      rw [List.getD_eq_getElem?_getD, List.getElem?_eq_getElem hj]
      exact List.getElem_mem hj
    exact h _ this
  · rw [List.getD_eq_getElem?_getD, List.getElem?_eq_none (by omega)]
    exact wf_entry_default

theorem hie_eq_hashed (ic : Bool) (st : index_state) (i : Nat) (p : Option Nat)
    (h : (st.store.getD i default).ce_hashed = true) :
    hash_index_entry ic st i p = (st, p) := by
  have h' : (st.store[i]?.getD default).ce_hashed = true := by
    rw [← List.getD_eq_getElem?_getD]
    exact h
  simp [hash_index_entry, h']

/-- The state after `hash_index_entry` has set `CE_HASHED` and added the
entry to `name_hash`, before the `ignore_case` directory work. -/
def hie_mid (st : index_state) (i : Nat) : index_state :=
  { st with store := st.store.set i { st.store.getD i default with ce_hashed := true },
            name_hash := st.name_hash ++
              [(if (st.store.getD i default).precompute_hash_set
                then (st.store.getD i default).precompute_hash_name
                else memihash (st.store.getD i default).name, i)] }

theorem hie_eq_cs (st : index_state) (i : Nat) (p : Option Nat)
    (h : (st.store.getD i default).ce_hashed = false) :
    hash_index_entry false st i p = (hie_mid st i, p) := by
  have h' : (st.store[i]?.getD default).ce_hashed = false := by
    rw [← List.getD_eq_getElem?_getD]
    exact h
  simp [hash_index_entry, h', hie_mid]

theorem hie_eq_ic (st : index_state) (i : Nat) (p : Option Nat)
    (h : (st.store.getD i default).ce_hashed = false) :
    hash_index_entry true st i p =
      add_dir_entry (hie_mid st i) { st.store.getD i default with ce_hashed := true } p := by
  have h' : (st.store[i]?.getD default).ce_hashed = false := by
    rw [← List.getD_eq_getElem?_getD]
    exact h
  simp [hash_index_entry, h', hie_mid]

theorem add_dir_entry_bi {stA stB : index_state} {ce1 ce2 : cache_entry} (p : Option Nat)
    (hca : stA.cache = stB.cache) (hnh : stA.name_hash = stB.name_hash)
    (hdh : stA.dir_hash = stB.dir_hash) (hnx : stA.dir_next_id = stB.dir_next_id)
    (hin : stA.name_hash_initialized = stB.name_hash_initialized)
    (hname : ce1.name = ce2.name) (hwf1 : wf_entry ce1) (hwf2 : wf_entry ce2) :
    (add_dir_entry stA ce1 p).1.store = stA.store ∧
    (add_dir_entry stB ce2 p).1.store = stB.store ∧
    (add_dir_entry stA ce1 p).1.cache = (add_dir_entry stB ce2 p).1.cache ∧
    (add_dir_entry stA ce1 p).1.name_hash = (add_dir_entry stB ce2 p).1.name_hash ∧
    (add_dir_entry stA ce1 p).1.dir_hash = (add_dir_entry stB ce2 p).1.dir_hash ∧
    (add_dir_entry stA ce1 p).1.dir_next_id = (add_dir_entry stB ce2 p).1.dir_next_id ∧
    (add_dir_entry stA ce1 p).1.name_hash_initialized =
      (add_dir_entry stB ce2 p).1.name_hash_initialized ∧
    (add_dir_entry stA ce1 p).2 = (add_dir_entry stB ce2 p).2 := by
  have hlen : ce2.name.length = ce1.name.length := by
    rw [hname]
  have hgo := hde_go_bi (ce1.name.length + 1) stA stB ce1 ce2 ce1.name.length p hdh hnx hname
    hwf1 hwf2 (Nat.le_refl _)
  have f1 := hde_go_frame (ce1.name.length + 1) stA ce1 ce1.name.length p
  have f2 := hde_go_frame (ce1.name.length + 1) stB ce2 ce1.name.length p
  simp only [add_dir_entry, hash_dir_entry]
  rw [hlen]
  have w1 := add_dir_refs_frame
    ((hash_dir_entry_go (ce1.name.length + 1) stA ce1 ce1.name.length p).2.dir_hash.length + 1)
    (hash_dir_entry_go (ce1.name.length + 1) stA ce1 ce1.name.length p).2
    (hash_dir_entry_go (ce1.name.length + 1) stA ce1 ce1.name.length p).1
  have w2 := add_dir_refs_frame
    ((hash_dir_entry_go (ce1.name.length + 1) stB ce2 ce1.name.length p).2.dir_hash.length + 1)
    (hash_dir_entry_go (ce1.name.length + 1) stB ce2 ce1.name.length p).2
    (hash_dir_entry_go (ce1.name.length + 1) stB ce2 ce1.name.length p).1
  refine ⟨?_, ?_, ?_, ?_, ?_, ?_, ?_, ?_⟩
  · rw [w1.1, f1.1]
  · rw [w2.1, f2.1]
  · rw [w1.2.1, f1.2.1, w2.2.1, f2.2.1, hca]
  · rw [w1.2.2.1, f1.2.2.1, w2.2.2.1, f2.2.2.1, hnh]
  · rw [hgo.2.1, hgo.1]
    exact add_dir_refs_bi _ _ _ _ hgo.2.1
  · rw [w1.2.2.2.2, w2.2.2.2.2]
    exact hgo.2.2
  · rw [w1.2.2.2.1, f1.2.2.2, w2.2.2.2.1, f2.2.2.2, hin]
  · rw [hgo.1]

theorem hie_bi (ic : Bool) {st1 st2 : index_state} (i : Nat) (p : Option Nat)
    (heq : eqUpToPre st1 st2) (hwf1 : storeWf st1) (hwf2 : storeWf st2) :
    eqUpToPre (hash_index_entry ic st1 i p).1 (hash_index_entry ic st2 i p).1 ∧
    (hash_index_entry ic st1 i p).2 = (hash_index_entry ic st2 i p).2 := by
  by_cases hflag : (st1.store.getD i default).ce_hashed = true
  · have hflag2 : (st2.store.getD i default).ce_hashed = true := by
      rw [← heq.flag_eq i]
      exact hflag
    rw [hie_eq_hashed ic st1 i p hflag, hie_eq_hashed ic st2 i p hflag2]
    exact ⟨heq, rfl⟩
  · have hf1 : (st1.store.getD i default).ce_hashed = false := by
      simpa using hflag
    have hf2 : (st2.store.getD i default).ce_hashed = false := by
      rw [← heq.flag_eq i]
      exact hf1
    have hh1 : (if (st1.store.getD i default).precompute_hash_set
        then (st1.store.getD i default).precompute_hash_name
        else memihash (st1.store.getD i default).name) =
        memihash (st1.store.getD i default).name := by
      split
      · exact wf_entry_hash_name (storeWf_getD hwf1 i) (by assumption)
      · rfl
    have hh2 : (if (st2.store.getD i default).precompute_hash_set
        then (st2.store.getD i default).precompute_hash_name
        else memihash (st2.store.getD i default).name) =
        memihash (st2.store.getD i default).name := by
      split
      · exact wf_entry_hash_name (storeWf_getD hwf2 i) (by assumption)
      · rfl
    have hmideq : eqUpToPre (hie_mid st1 i) (hie_mid st2 i) := by
      refine ⟨heq.cache_eq, ?_, heq.dh_eq, heq.next_eq, heq.init_eq, ?_, ?_, ?_⟩
      · show st1.name_hash ++ _ = st2.name_hash ++ _
        rw [heq.nh_eq, hh1, hh2, heq.name_eq i]
      · show (st1.store.set i _).length = (st2.store.set i _).length
        simp [heq.len_eq]
      · intro j
        show ((st1.store.set i _).getD j default).name = ((st2.store.set i _).getD j default).name
        by_cases hij : j = i
        · subst hij
          by_cases hlt : j < st1.store.length
          · rw [getD_set_self _ _ _ _ hlt, getD_set_self _ _ _ _ (by rw [← heq.len_eq]; exact hlt)]
            exact heq.name_eq j
          · rw [list_set_of_length_le _ (by omega),
              list_set_of_length_le _ (by rw [← heq.len_eq]; omega)]
            exact heq.name_eq j
        · rw [getD_set_ne _ _ _ (Ne.symm hij), getD_set_ne _ _ _ (Ne.symm hij)]
          exact heq.name_eq j
      · intro j
        show ((st1.store.set i _).getD j default).ce_hashed
            = ((st2.store.set i _).getD j default).ce_hashed
        by_cases hij : j = i
        · subst hij
          by_cases hlt : j < st1.store.length
          · rw [getD_set_self _ _ _ _ hlt, getD_set_self _ _ _ _ (by rw [← heq.len_eq]; exact hlt)]
          · rw [list_set_of_length_le _ (by omega),
              list_set_of_length_le _ (by rw [← heq.len_eq]; omega)]
            exact heq.flag_eq j
        · rw [getD_set_ne _ _ _ (Ne.symm hij), getD_set_ne _ _ _ (Ne.symm hij)]
          exact heq.flag_eq j
    cases ic with
    | false =>
      rw [hie_eq_cs st1 i p hf1, hie_eq_cs st2 i p hf2]
      exact ⟨hmideq, rfl⟩
    | true =>
      rw [hie_eq_ic st1 i p hf1, hie_eq_ic st2 i p hf2]
      have hwfce1 : wf_entry { st1.store.getD i default with ce_hashed := true } :=
        wf_entry_with_hashed (storeWf_getD hwf1 i) true
      have hwfce2 : wf_entry { st2.store.getD i default with ce_hashed := true } :=
        wf_entry_with_hashed (storeWf_getD hwf2 i) true
      have hnamece : ({ st1.store.getD i default with ce_hashed := true } : cache_entry).name =
          ({ st2.store.getD i default with ce_hashed := true } : cache_entry).name :=
        heq.name_eq i
      have hadd := add_dir_entry_bi p hmideq.cache_eq hmideq.nh_eq hmideq.dh_eq hmideq.next_eq
        hmideq.init_eq hnamece hwfce1 hwfce2
      constructor
      · refine ⟨hadd.2.2.1, hadd.2.2.2.1, hadd.2.2.2.2.1, hadd.2.2.2.2.2.1,
          hadd.2.2.2.2.2.2.1, ?_, ?_, ?_⟩
        · rw [hadd.1, hadd.2.1]
          exact hmideq.len_eq
        · intro j
          rw [hadd.1, hadd.2.1]
          exact hmideq.name_eq j
        · intro j
          rw [hadd.1, hadd.2.1]
          exact hmideq.flag_eq j
      · exact hadd.2.2.2.2.2.2.2

/-- The state after `remove_name_hash` has cleared `CE_HASHED` and
removed the entry from its chain, before the `ignore_case` directory
work. -/
def rnh_mid (st : index_state) (i : Nat) : index_state :=
  { st with store := st.store.set i { st.store.getD i default with ce_hashed := false },
            name_hash := st.name_hash.eraseP (fun p => p.2 == i) }

theorem rnh_eq_cs (st : index_state) (i : Nat)
    (h : (!st.name_hash_initialized || !(st.store.getD i default).ce_hashed) = false) :
    remove_name_hash false st i = rnh_mid st i := by
  simp only [remove_name_hash, h, Bool.false_eq_true, if_false, rnh_mid]

theorem rnh_eq_ic (st : index_state) (i : Nat)
    (h : (!st.name_hash_initialized || !(st.store.getD i default).ce_hashed) = false) :
    remove_name_hash true st i =
      remove_dir_entry (rnh_mid st i) { st.store.getD i default with ce_hashed := false } := by
  simp only [remove_name_hash, h, Bool.false_eq_true, if_false, rnh_mid, if_true]

theorem remove_dir_entry_bi {stA stB : index_state} {ce1 ce2 : cache_entry}
    (hca : stA.cache = stB.cache) (hnh : stA.name_hash = stB.name_hash)
    (hdh : stA.dir_hash = stB.dir_hash) (hnx : stA.dir_next_id = stB.dir_next_id)
    (hin : stA.name_hash_initialized = stB.name_hash_initialized)
    (hname : ce1.name = ce2.name) (hwf1 : wf_entry ce1) (hwf2 : wf_entry ce2) :
    (remove_dir_entry stA ce1).store = stA.store ∧
    (remove_dir_entry stB ce2).store = stB.store ∧
    (remove_dir_entry stA ce1).cache = (remove_dir_entry stB ce2).cache ∧
    (remove_dir_entry stA ce1).name_hash = (remove_dir_entry stB ce2).name_hash ∧
    (remove_dir_entry stA ce1).dir_hash = (remove_dir_entry stB ce2).dir_hash ∧
    (remove_dir_entry stA ce1).dir_next_id = (remove_dir_entry stB ce2).dir_next_id ∧
    (remove_dir_entry stA ce1).name_hash_initialized =
      (remove_dir_entry stB ce2).name_hash_initialized := by
  have hlen : ce2.name.length = ce1.name.length := by
    rw [hname]
  have hgo := hde_go_bi (ce1.name.length + 1) stA stB ce1 ce2 ce1.name.length none hdh hnx hname
    hwf1 hwf2 (Nat.le_refl _)
  have f1 := hde_go_frame (ce1.name.length + 1) stA ce1 ce1.name.length none
  have f2 := hde_go_frame (ce1.name.length + 1) stB ce2 ce1.name.length none
  simp only [remove_dir_entry, hash_dir_entry]
  rw [hlen]
  have w1 := remove_dir_refs_frame
    ((hash_dir_entry_go (ce1.name.length + 1) stA ce1 ce1.name.length none).2.dir_hash.length + 1)
    (hash_dir_entry_go (ce1.name.length + 1) stA ce1 ce1.name.length none).2
    (hash_dir_entry_go (ce1.name.length + 1) stA ce1 ce1.name.length none).1
  have w2 := remove_dir_refs_frame
    ((hash_dir_entry_go (ce1.name.length + 1) stB ce2 ce1.name.length none).2.dir_hash.length + 1)
    (hash_dir_entry_go (ce1.name.length + 1) stB ce2 ce1.name.length none).2
    (hash_dir_entry_go (ce1.name.length + 1) stB ce2 ce1.name.length none).1
  refine ⟨?_, ?_, ?_, ?_, ?_, ?_, ?_⟩
  · rw [w1.1, f1.1]
  · rw [w2.1, f2.1]
  · rw [w1.2.1, f1.2.1, w2.2.1, f2.2.1, hca]
  · rw [w1.2.2.1, f1.2.2.1, w2.2.2.1, f2.2.2.1, hnh]
  · rw [hgo.2.1, hgo.1]
    exact remove_dir_refs_bi _ _ _ _ hgo.2.1
  · rw [w1.2.2.2.2, w2.2.2.2.2]
    exact hgo.2.2
  · rw [w1.2.2.2.1, f1.2.2.2, w2.2.2.2.1, f2.2.2.2, hin]

theorem rnh_mid_bi {st1 st2 : index_state} (i : Nat) (heq : eqUpToPre st1 st2) :
    eqUpToPre (rnh_mid st1 i) (rnh_mid st2 i) := by
  refine ⟨heq.cache_eq, ?_, heq.dh_eq, heq.next_eq, heq.init_eq, ?_, ?_, ?_⟩
  · show st1.name_hash.eraseP _ = st2.name_hash.eraseP _
    rw [heq.nh_eq]
  · show (st1.store.set i _).length = (st2.store.set i _).length
    simp [heq.len_eq]
  · intro j
    show ((st1.store.set i _).getD j default).name = ((st2.store.set i _).getD j default).name
    by_cases hij : j = i
    · subst hij
      by_cases hlt : j < st1.store.length
      · rw [getD_set_self _ _ _ _ hlt, getD_set_self _ _ _ _ (by rw [← heq.len_eq]; exact hlt)]
        exact heq.name_eq j
      · rw [list_set_of_length_le _ (by omega),
          list_set_of_length_le _ (by rw [← heq.len_eq]; omega)]
        exact heq.name_eq j
    · rw [getD_set_ne _ _ _ (Ne.symm hij), getD_set_ne _ _ _ (Ne.symm hij)]
      exact heq.name_eq j
  · intro j
    show ((st1.store.set i _).getD j default).ce_hashed
        = ((st2.store.set i _).getD j default).ce_hashed
    by_cases hij : j = i
    · subst hij
      by_cases hlt : j < st1.store.length
      · rw [getD_set_self _ _ _ _ hlt, getD_set_self _ _ _ _ (by rw [← heq.len_eq]; exact hlt)]
      · rw [list_set_of_length_le _ (by omega),
          list_set_of_length_le _ (by rw [← heq.len_eq]; omega)]
        exact heq.flag_eq j
    · rw [getD_set_ne _ _ _ (Ne.symm hij), getD_set_ne _ _ _ (Ne.symm hij)]
      exact heq.flag_eq j

theorem remove_bi (ic : Bool) {st1 st2 : index_state} (i : Nat)
    (heq : eqUpToPre st1 st2) (hwf1 : storeWf st1) (hwf2 : storeWf st2) :
    eqUpToPre (remove_name_hash ic st1 i) (remove_name_hash ic st2 i) := by
  have hguard : (!st1.name_hash_initialized || !(st1.store.getD i default).ce_hashed)
      = (!st2.name_hash_initialized || !(st2.store.getD i default).ce_hashed) := by
    rw [heq.init_eq, heq.flag_eq i]
  by_cases hg : (!st1.name_hash_initialized || !(st1.store.getD i default).ce_hashed) = true
  · rw [remove_guard_noop ic st1 i hg, remove_guard_noop ic st2 i (by rw [← hguard]; exact hg)]
    exact heq
  · have hg1 : (!st1.name_hash_initialized || !(st1.store.getD i default).ce_hashed) = false := by
      simpa using hg
    have hg2 : (!st2.name_hash_initialized || !(st2.store.getD i default).ce_hashed) = false := by
      rw [← hguard]
      exact hg1
    have hmideq := rnh_mid_bi i heq
    cases ic with
    | false =>
      rw [rnh_eq_cs st1 i hg1, rnh_eq_cs st2 i hg2]
      exact hmideq
    | true =>
      rw [rnh_eq_ic st1 i hg1, rnh_eq_ic st2 i hg2]
      have hwfce1 : wf_entry { st1.store.getD i default with ce_hashed := false } :=
        wf_entry_with_hashed (storeWf_getD hwf1 i) false
      have hwfce2 : wf_entry { st2.store.getD i default with ce_hashed := false } :=
        wf_entry_with_hashed (storeWf_getD hwf2 i) false
      have hnamece : ({ st1.store.getD i default with ce_hashed := false } : cache_entry).name =
          ({ st2.store.getD i default with ce_hashed := false } : cache_entry).name :=
        heq.name_eq i
      have hrem := remove_dir_entry_bi hmideq.cache_eq hmideq.nh_eq hmideq.dh_eq hmideq.next_eq
        hmideq.init_eq hnamece hwfce1 hwfce2
      refine ⟨hrem.2.2.1, hrem.2.2.2.1, hrem.2.2.2.2.1, hrem.2.2.2.2.2.1,
        hrem.2.2.2.2.2.2, ?_, ?_, ?_⟩
      · rw [hrem.1, hrem.2.1]
        exact hmideq.len_eq
      · intro j
        rw [hrem.1, hrem.2.1]
        exact hmideq.name_eq j
      · intro j
        rw [hrem.1, hrem.2.1]
        exact hmideq.flag_eq j

theorem storeWf_set {st : index_state} (h : storeWf st) {i : Nat} {ce : cache_entry}
    (hce : wf_entry ce) : ∀ e ∈ st.store.set i ce, wf_entry e := by
  intro e he
  rcases List.mem_or_eq_of_mem_set he with he' | rfl
  · exact h e he'
  · exact hce

theorem storeWf_hie (ic : Bool) {st : index_state} (i : Nat) (p : Option Nat)
    (h : storeWf st) : storeWf (hash_index_entry ic st i p).1 := by
  unfold storeWf
  rw [hie_store]
  split
  · exact h
  · exact storeWf_set h (wf_entry_with_hashed (storeWf_getD h i) true)

theorem storeWf_remove (ic : Bool) {st : index_state} (i : Nat) (h : storeWf st) :
    storeWf (remove_name_hash ic st i) := by
  by_cases hg : (!st.name_hash_initialized || !(st.store.getD i default).ce_hashed) = true
  · rw [remove_guard_noop ic st i hg]
    exact h
  · unfold storeWf
    rw [(remove_store ic st i (by simpa using hg)).1]
    exact storeWf_set h (wf_entry_with_hashed (storeWf_getD h i) false)

theorem storeWf_foldl_hie (ic : Bool) : ∀ (l : List Nat) (acc : index_state × Option Nat),
    storeWf acc.1 →
    storeWf ((l.foldl (fun a j => hash_index_entry ic a.1 j a.2) acc)).1 := by
  intro l
  induction l with
  | nil => intro acc h; exact h
  | cons j t ih =>
    intro acc h
    exact ih _ (storeWf_hie ic j acc.2 h)

theorem lazy_noop (ic : Bool) {st : index_state} (h : st.name_hash_initialized = true) :
    lazy_init_name_hash ic st = st := by
  simp [lazy_init_name_hash, h]

theorem storeWf_lazy (ic : Bool) {st : index_state} (h : storeWf st) :
    storeWf (lazy_init_name_hash ic st) := by
  by_cases hi : st.name_hash_initialized = true
  · rw [lazy_noop ic hi]
    exact h
  · have hi' : st.name_hash_initialized = false := by simpa using hi
    unfold storeWf
    simp only [lazy_init_name_hash, hi', Bool.false_eq_true, if_false]
    exact storeWf_foldl_hie ic _ _ h

theorem storeWf_pre {st : index_state} (i : Nat) (h : storeWf st) :
    storeWf (precompute_at st i) :=
  storeWf_set h (wf_entry_precompute _)

theorem add_name_eq_init (ic : Bool) (st : index_state) (i : Nat)
    (h : st.name_hash_initialized = true) :
    add_name_hash ic st i = (hash_index_entry ic st i none).1 := by
  simp [add_name_hash, h]

theorem add_name_eq_uninit (ic : Bool) (st : index_state) (i : Nat)
    (h : st.name_hash_initialized = false) :
    add_name_hash ic st i = st := by
  simp [add_name_hash, h]

theorem storeWf_applyOp (ic : Bool) {st : index_state} (op : IndexOp) (h : storeWf st) :
    storeWf (applyOp ic st op) := by
  cases op with
  | opInit => exact storeWf_lazy ic h
  | opAdd i =>
    show storeWf (add_name_hash ic st i)
    by_cases hinit : st.name_hash_initialized = true
    · rw [add_name_eq_init ic st i hinit]
      exact storeWf_hie ic i none h
    · rw [add_name_eq_uninit ic st i (by simpa using hinit)]
      exact h
  | opRemove i => exact storeWf_remove ic i h
  | opPre i => exact storeWf_pre i h

theorem storeWf_applyOps (ic : Bool) : ∀ (ops : List IndexOp) (st : index_state),
    storeWf st → storeWf (applyOps ic st ops) := by
  intro ops
  induction ops with
  | nil => intro st h; exact h
  | cons op t ih =>
    intro st h
    exact ih _ (storeWf_applyOp ic op h)

theorem foldl_hie_bi (ic : Bool) : ∀ (l : List Nat) (a1 a2 : index_state × Option Nat),
    eqUpToPre a1.1 a2.1 → a1.2 = a2.2 → storeWf a1.1 → storeWf a2.1 →
    eqUpToPre (l.foldl (fun a j => hash_index_entry ic a.1 j a.2) a1).1
      (l.foldl (fun a j => hash_index_entry ic a.1 j a.2) a2).1 ∧
    (l.foldl (fun a j => hash_index_entry ic a.1 j a.2) a1).2 =
      (l.foldl (fun a j => hash_index_entry ic a.1 j a.2) a2).2 := by
  intro l
  induction l with
  | nil => intro a1 a2 heq hp _ _; exact ⟨heq, hp⟩
  | cons j t ih =>
    intro a1 a2 heq hp hw1 hw2
    simp only [List.foldl_cons]
    rw [← hp]
    have hstep := hie_bi ic j a1.2 heq hw1 hw2
    exact ih _ _ hstep.1 hstep.2 (storeWf_hie ic j a1.2 hw1) (storeWf_hie ic j a1.2 hw2)

theorem lazy_init_bi (ic : Bool) {st1 st2 : index_state} (heq : eqUpToPre st1 st2)
    (hwf1 : storeWf st1) (hwf2 : storeWf st2) :
    eqUpToPre (lazy_init_name_hash ic st1) (lazy_init_name_hash ic st2) := by
  by_cases hi : st1.name_hash_initialized = true
  · rw [lazy_noop ic hi, lazy_noop ic (by rw [← heq.init_eq]; exact hi)]
    exact heq
  · have hi1 : st1.name_hash_initialized = false := by simpa using hi
    have hi2 : st2.name_hash_initialized = false := by rw [← heq.init_eq]; exact hi1
    simp only [lazy_init_name_hash, hi1, hi2, Bool.false_eq_true, if_false]
    rw [show st2.cache = st1.cache from heq.cache_eq.symm]
    have h0 : eqUpToPre
        { store := st1.store, cache := st1.cache, name_hash := [], dir_hash := [],
          dir_next_id := 0, name_hash_initialized := false }
        { store := st2.store, cache := st1.cache, name_hash := [], dir_hash := [],
          dir_next_id := 0, name_hash_initialized := false } :=
      ⟨rfl, rfl, rfl, rfl, rfl, heq.len_eq, heq.name_eq, heq.flag_eq⟩
    have hf := foldl_hie_bi ic st1.cache
      (({ store := st1.store, cache := st1.cache, name_hash := [], dir_hash := [],
          dir_next_id := 0, name_hash_initialized := false } : index_state), none)
      (({ store := st2.store, cache := st1.cache, name_hash := [], dir_hash := [],
          dir_next_id := 0, name_hash_initialized := false } : index_state), none)
      h0 rfl hwf1 hwf2
    exact ⟨hf.1.cache_eq, hf.1.nh_eq, hf.1.dh_eq, hf.1.next_eq, rfl, hf.1.len_eq,
      hf.1.name_eq, hf.1.flag_eq⟩

theorem pre_bi {st1 st2 : index_state} (i : Nat) (heq : eqUpToPre st1 st2) :
    eqUpToPre (precompute_at st1 i) (precompute_at st2 i) := by
  refine ⟨heq.cache_eq, heq.nh_eq, heq.dh_eq, heq.next_eq, heq.init_eq, ?_, ?_, ?_⟩
  · show (st1.store.set i _).length = (st2.store.set i _).length
    simp [heq.len_eq]
  · intro j
    show ((st1.store.set i _).getD j default).name = ((st2.store.set i _).getD j default).name
    by_cases hij : j = i
    · subst hij
      by_cases hlt : j < st1.store.length
      · rw [getD_set_self _ _ _ _ hlt, getD_set_self _ _ _ _ (by rw [← heq.len_eq]; exact hlt)]
        rw [precompute_name, precompute_name]
        exact heq.name_eq j
      · rw [list_set_of_length_le _ (by omega),
          list_set_of_length_le _ (by rw [← heq.len_eq]; omega)]
        exact heq.name_eq j
    · rw [getD_set_ne _ _ _ (Ne.symm hij), getD_set_ne _ _ _ (Ne.symm hij)]
      exact heq.name_eq j
  · intro j
    show ((st1.store.set i _).getD j default).ce_hashed
        = ((st2.store.set i _).getD j default).ce_hashed
    by_cases hij : j = i
    · subst hij
      by_cases hlt : j < st1.store.length
      · rw [getD_set_self _ _ _ _ hlt, getD_set_self _ _ _ _ (by rw [← heq.len_eq]; exact hlt)]
        rw [precompute_hashed, precompute_hashed]
        exact heq.flag_eq j
      · rw [list_set_of_length_le _ (by omega),
          list_set_of_length_le _ (by rw [← heq.len_eq]; omega)]
        exact heq.flag_eq j
    · rw [getD_set_ne _ _ _ (Ne.symm hij), getD_set_ne _ _ _ (Ne.symm hij)]
      exact heq.flag_eq j

theorem applyOp_bi (ic : Bool) {st1 st2 : index_state} (op : IndexOp)
    (heq : eqUpToPre st1 st2) (hwf1 : storeWf st1) (hwf2 : storeWf st2) :
    eqUpToPre (applyOp ic st1 op) (applyOp ic st2 op) := by
  cases op with
  | opInit => exact lazy_init_bi ic heq hwf1 hwf2
  | opAdd i =>
    show eqUpToPre (add_name_hash ic st1 i) (add_name_hash ic st2 i)
    by_cases hi : st1.name_hash_initialized = true
    · rw [add_name_eq_init ic st1 i hi, add_name_eq_init ic st2 i (by rw [← heq.init_eq]; exact hi)]
      exact (hie_bi ic i none heq hwf1 hwf2).1
    · have hi1 : st1.name_hash_initialized = false := by simpa using hi
      rw [add_name_eq_uninit ic st1 i hi1,
        add_name_eq_uninit ic st2 i (by rw [← heq.init_eq]; exact hi1)]
      exact heq
  | opRemove i => exact remove_bi ic i heq hwf1 hwf2
  | opPre i => exact pre_bi i heq

theorem applyOps_bi (ic : Bool) : ∀ (ops : List IndexOp) {st1 st2 : index_state},
    eqUpToPre st1 st2 → storeWf st1 → storeWf st2 →
    eqUpToPre (applyOps ic st1 ops) (applyOps ic st2 ops) := by
  intro ops
  induction ops with
  | nil => intro st1 st2 heq _ _; exact heq
  | cons op t ih =>
    intro st1 st2 heq hwf1 hwf2
    exact ih (applyOp_bi ic op heq hwf1 hwf2) (storeWf_applyOp ic op hwf1)
      (storeWf_applyOp ic op hwf2)

theorem find?_congr {α : Type} {p q : α → Bool} : ∀ l : List α,
    (∀ x ∈ l, p x = q x) → l.find? p = l.find? q := by
  intro l
  induction l with
  | nil => intro _; rfl
  | cons c t ih =>
    intro h
    by_cases hc : p c = true
    · rw [List.find?_cons_of_pos _ hc, List.find?_cons_of_pos _ (by rw [← h c (by simp)]; exact hc)]
    · have hc' : p c = false := by simpa using hc
      rw [List.find?_cons_of_neg _ (by simp [hc']),
        List.find?_cons_of_neg _ (by simp [← h c (by simp), hc']), ih]
      intro x hx
      exact h x (List.mem_cons_of_mem _ hx)

theorem same_name_congr {ce1 ce2 : cache_entry} (h : ce1.name = ce2.name)
    (name : List Nat) (namelen : Nat) (icase : Bool) :
    same_name ce1 name namelen icase = same_name ce2 name namelen icase := by
  unfold same_name
  rw [h]

theorem index_file_exists_bi (ic : Bool) {st1 st2 : index_state} (heq : eqUpToPre st1 st2)
    (hwf1 : storeWf st1) (hwf2 : storeWf st2) (name : List Nat) (namelen : Nat) (icase : Bool) :
    index_file_exists ic st1 name namelen icase = index_file_exists ic st2 name namelen icase := by
  have hl := lazy_init_bi ic heq hwf1 hwf2
  simp only [index_file_exists]
  rw [hl.nh_eq,
    find?_congr _ (fun x _ => same_name_congr (hl.name_eq x.2) name namelen icase)]

theorem index_dir_exists_bi (ic : Bool) {st1 st2 : index_state} (heq : eqUpToPre st1 st2)
    (hwf1 : storeWf st1) (hwf2 : storeWf st2) (name : List Nat) (namelen : Nat) :
    index_dir_exists ic st1 name namelen = index_dir_exists ic st2 name namelen := by
  have hl := lazy_init_bi ic heq hwf1 hwf2
  simp only [index_dir_exists, find_dir_entry]
  rw [find_dir_entry__hash_congr hl.dh_eq]

theorem pre_at_eq (st : index_state) (i : Nat) : eqUpToPre st (precompute_at st i) := by
  refine ⟨rfl, rfl, rfl, rfl, rfl, ?_, ?_, ?_⟩
  · show st.store.length = (st.store.set i _).length
    simp
  · intro j
    show (st.store.getD j default).name = ((st.store.set i _).getD j default).name
    by_cases hij : j = i
    · subst hij
      by_cases hlt : j < st.store.length
      · rw [getD_set_self _ _ _ _ hlt, precompute_name]
      · rw [list_set_of_length_le _ (by omega)]
    · rw [getD_set_ne _ _ _ (Ne.symm hij)]
  · intro j
    show (st.store.getD j default).ce_hashed = ((st.store.set i _).getD j default).ce_hashed
    by_cases hij : j = i
    · subst hij
      by_cases hlt : j < st.store.length
      · rw [getD_set_self _ _ _ _ hlt, precompute_hashed]
      · rw [list_set_of_length_le _ (by omega)]
    · rw [getD_set_ne _ _ _ (Ne.symm hij)]

/-- C3: precomputing an entry's hash record before indexing never
changes any observable result.  For an entry whose record is Unset,
running any sequence of index operations (lazy build, single add, single
remove, further precomputes) after `precompute_istate_hashes` yields a
state identical in both hash tables, the collection, the lazy flag and
every entry's path and "present" flag, and both path lookups and
directory-existence queries answer identically; only the cached hash
record fields themselves can differ. -/
theorem C3_precompute_transparent (ic : Bool) (st : index_state) (i : Nat) (ops : List IndexOp)
    (hwf : storeWf st) (hunset : (st.store.getD i default).precompute_hash_set = false) :
    eqUpToPre (applyOps ic st ops) (applyOps ic (precompute_at st i) ops) ∧
    (∀ (name : List Nat) (namelen : Nat) (icase : Bool),
      index_file_exists ic (applyOps ic st ops) name namelen icase =
        index_file_exists ic (applyOps ic (precompute_at st i) ops) name namelen icase) ∧
    (∀ (name : List Nat) (namelen : Nat),
      index_dir_exists ic (applyOps ic st ops) name namelen =
        index_dir_exists ic (applyOps ic (precompute_at st i) ops) name namelen) := by
  have hbase := pre_at_eq st i
  have hwf2 := storeWf_pre i hwf
  have h := applyOps_bi ic ops hbase hwf hwf2
  have hwfA := storeWf_applyOps ic ops st hwf
  have hwfB := storeWf_applyOps ic ops _ hwf2
  exact ⟨h, fun name namelen icase => index_file_exists_bi ic h hwfA hwfB name namelen icase,
    fun name namelen => index_dir_exists_bi ic h hwfA hwfB name namelen⟩

/-- Witness for C3 at a concrete index and operation sequence. -/
theorem C3_precompute_transparent_witness :
    storeWf (mkState ["a/b", "c"]) ∧
    ((mkState ["a/b", "c"]).store.getD 0 default).precompute_hash_set = false ∧
    eqUpToPre (applyOps true (mkState ["a/b", "c"]) [IndexOp.opInit, IndexOp.opRemove 0])
      (applyOps true (precompute_at (mkState ["a/b", "c"]) 0)
        [IndexOp.opInit, IndexOp.opRemove 0]) :=
  ⟨by decide, by decide,
    (C3_precompute_transparent true (mkState ["a/b", "c"]) 0
      [IndexOp.opInit, IndexOp.opRemove 0] (by decide) (by decide)).1⟩


/-- Structural sanity of the directory table: distinct node addresses
below the allocation counter, pairwise distinct case-folded names, and
every stored hash is the case-fold hash of the stored name. -/
structure DirShape (st : index_state) : Prop where
  ids_nodup : (st.dir_hash.map dir_entry.id).Nodup
  ids_lt : ∀ d ∈ st.dir_hash, d.id < st.dir_next_id
  names_nodup : (st.dir_hash.map (fun d => foldName d.name)).Nodup
  hash_ok : ∀ d ∈ st.dir_hash, d.ent_hash = memihash d.name

/-- The flag-independent core invariant of the hashing machinery: the
table contents are consistent with the store (hashed flags, hash values,
reference counts, parent links).  It also holds for the intermediate
states inside `lazy_init_name_hash`'s loop, where the initialization
flag is still clear. -/
structure NHCore (ic : Bool) (st : index_state) : Prop where
  swf : storeWf st
  cache_lt : ∀ i ∈ st.cache, i < st.store.length
  nh_mem : ∀ p ∈ st.name_hash, p.2 < st.store.length ∧
    p.1 = memihash (st.store.getD p.2 default).name ∧
    (st.store.getD p.2 default).ce_hashed = true
  nh_nodup : (st.name_hash.map Prod.snd).Nodup
  nh_complete : ∀ i, i < st.store.length → (st.store.getD i default).ce_hashed = true →
    ∃ p ∈ st.name_hash, p.2 = i
  dh_cs : ic = false → st.dir_hash = []
  shape : DirShape st
  parent_none : ∀ d ∈ st.dir_hash, dirSpanLen d.name d.name.length = none → d.parent = none
  parent_some : ∀ d ∈ st.dir_hash, ∀ s, dirSpanLen d.name d.name.length = some s →
    ∃ q ∈ st.dir_hash, d.parent = some q.id ∧ foldName q.name = foldName (d.name.take s)
  nr_eq : ∀ d ∈ st.dir_hash, d.nr = ((entryRefs st d + childRefs st d : Nat) : Int)
  nr_pos : ∀ d ∈ st.dir_hash, 0 < d.nr
  dh_complete : ic = true → ∀ e ∈ st.store, e.ce_hashed = true →
    ∀ s, dirSpanLen e.name e.name.length = some s →
    ∃ d ∈ st.dir_hash, foldName d.name = foldName (e.name.take s)

/-- The state invariant maintained by the public operations (for the
case-sensitivity policy `ic`): the core invariant plus the fact that
before the lazy build both tables are empty and no entry carries the
`CE_HASHED` flag. -/
structure NHInv (ic : Bool) (st : index_state) : Prop where
  core : NHCore ic st
  uninit : st.name_hash_initialized = false →
    st.name_hash = [] ∧ st.dir_hash = [] ∧ ∀ e ∈ st.store, e.ce_hashed = false

/-- The freshly created suffix of the directory table forms a parent
chain: each node's parent is the next node of the chain (or an
already-present node, or nothing) and always case-fold-matches the
node's own parent span. -/
def chainOk (base : List dir_entry) : List dir_entry → Prop
  | [] => True
  | c :: rest =>
    (match dirSpanLen c.name c.name.length with
     | none => c.parent = none ∧ rest = []
     | some s =>
       match rest with
       | [] => ∃ q ∈ base, c.parent = some q.id ∧ foldName q.name = foldName (c.name.take s)
       | c2 :: _ => c.parent = some c2.id ∧ foldName c2.name = foldName (c.name.take s)) ∧
    chainOk base rest

/-- Full characterization of one `hash_dir_entry` call starting from
state `st0` on the first `n` bytes of `ce`'s path: the tables other than
`dir_hash` are untouched, `dir_hash` grows by a chain of fresh zero-count
nodes (possibly empty), and the result is nothing (no parent directory),
an existing node (state unchanged), or the head of the new chain. -/
def HdeOut (st0 : index_state) (ce : cache_entry) (n : Nat)
    (res : Option Nat × index_state) : Prop :=
  res.2.store = st0.store ∧ res.2.cache = st0.cache ∧ res.2.name_hash = st0.name_hash ∧
  res.2.name_hash_initialized = st0.name_hash_initialized ∧
  st0.dir_next_id ≤ res.2.dir_next_id ∧
  ∃ news : List dir_entry,
    res.2.dir_hash = st0.dir_hash ++ news ∧
    (∀ c ∈ news, st0.dir_next_id ≤ c.id ∧ c.id < res.2.dir_next_id ∧ c.nr = 0 ∧
      c.ent_hash = memihash c.name ∧
      (∀ d ∈ st0.dir_hash, foldName c.name ≠ foldName d.name) ∧
      (∃ m, m < n ∧ c.name = ce.name.take m)) ∧
    (news.map dir_entry.id).Nodup ∧
    (news.map (fun c => foldName c.name)).Nodup ∧
    chainOk st0.dir_hash news ∧
    ((res.1 = none ∧ news = [] ∧ res.2 = st0 ∧ dirSpanLen ce.name n = none) ∨
     (∃ dlen, dirSpanLen ce.name n = some dlen ∧
       ((∃ d ∈ st0.dir_hash, res.1 = some d.id ∧ news = [] ∧ res.2 = st0 ∧
          foldName d.name = foldName (ce.name.take dlen)) ∨
        (∃ c cs, news = c :: cs ∧ res.1 = some c.id ∧
          foldName c.name = foldName (ce.name.take dlen)))))

theorem map_noop {α : Type} {f : α → α} : ∀ {l : List α}, (∀ x ∈ l, f x = x) → l.map f = l := by
  intro l
  induction l with
  | nil => intro _; rfl
  | cons c t ih =>
    intro h
    simp only [List.map]
    rw [h c (by simp), ih (fun x hx => h x (List.mem_cons_of_mem _ hx))]

theorem map_setParent_split {A B : List dir_entry} {node : dir_entry} {i : Nat}
    (p : Option Nat) (hA : ∀ d ∈ A, d.id ≠ i) (hB : ∀ d ∈ B, d.id ≠ i) (hn : node.id = i) :
    (A ++ node :: B).map (fun d => if d.id == i then { d with parent := p } else d) =
      A ++ { node with parent := p } :: B := by
  rw [List.map_append]
  congr 1
  · exact map_noop (fun d hd => by simp [hA d hd])
  · simp only [List.map]
    congr 1
    · simp [hn]
    · exact map_noop (fun d hd => by simp [hB d hd])

theorem find?_id_of_mem : ∀ {l : List dir_entry} {d : dir_entry},
    (l.map dir_entry.id).Nodup → d ∈ l → l.find? (fun c => c.id == d.id) = some d := by
  intro l
  induction l with
  | nil => intro d _ hd; cases hd
  | cons c t ih =>
    intro d hnodup hd
    rcases List.mem_cons.mp hd with rfl | hd'
    · rw [List.find?_cons_of_pos _ (by simp)]
    · rw [List.map_cons] at hnodup
      have hnd := List.nodup_cons.mp hnodup
      have hne : c.id ≠ d.id := by
        intro hEq
        exact hnd.1 (by rw [hEq]; exact List.mem_map_of_mem _ hd')
      rw [List.find?_cons_of_neg _ (by simp [hne])]
      exact ih hnd.2 hd'

theorem findId_of_mem {st : index_state} {d : dir_entry}
    (hnodup : (st.dir_hash.map dir_entry.id).Nodup) (hd : d ∈ st.dir_hash) :
    findId st d.id = some d :=
  find?_id_of_mem hnodup hd

theorem find_some_facts {st0 : index_state} {ce : cache_entry} {dlen h : Nat} {d : dir_entry}
    (hlook : find_dir_entry__hash st0 ce.name dlen h = some d) :
    d ∈ st0.dir_hash ∧ d.name.length = dlen ∧
      foldName d.name = foldName (ce.name.take dlen) := by
  have hmem := List.mem_of_find?_eq_some hlook
  have hpred := List.find?_some hlook
  simp only [Bool.and_eq_true, Bool.not_eq_true', dir_entry_cmp, Bool.or_eq_false_iff,
    bne_eq_false_iff_eq, beq_iff_eq] at hpred
  obtain ⟨-, hlen, hfold⟩ := hpred
  rw [hlen] at hfold
  exact ⟨hmem, hlen, hfold⟩

theorem find_none_facts {st0 : index_state} {ce : cache_entry} {n dlen : Nat}
    (hshape : DirShape st0) (hwf : wf_entry ce) (hd : dirSpanLen ce.name n = some dlen)
    (hn : n ≤ ce.name.length)
    (hlook : find_dir_entry__hash st0 ce.name dlen (hde_hash ce n dlen) = none) :
    ∀ d ∈ st0.dir_hash, foldName d.name ≠ foldName (ce.name.take dlen) := by
  intro d hdm hfold
  have hlen : d.name.length = dlen := by
    have := foldName_eq_length hfold
    rw [this, List.length_take]
    have : dlen < n := dirSpanLen_lt hd
    omega
  have hpred : (fun c => c.ent_hash == hde_hash ce n dlen && !dir_entry_cmp c dlen ce.name) d
      = true := by
    simp only [Bool.and_eq_true, Bool.not_eq_true', beq_iff_eq]
    constructor
    · rw [hshape.hash_ok d hdm, hde_hash_eq_memihash hwf hd]
      exact memihash_congr hfold
    · simp only [dir_entry_cmp, Bool.or_eq_false_iff, bne_eq_false_iff_eq]
      exact ⟨hlen, by rw [hlen]; exact hfold⟩
  rw [find_dir_entry__hash, List.find?_eq_none] at hlook
  exact hlook d hdm hpred

theorem prev_hit_facts {st : index_state} {ce : cache_entry} {dlen : Nat} {p : Option Nat}
    {did : Nat} (h : previous_dir_hit st ce dlen p = some did) :
    ∃ prev ∈ st.dir_hash, did = prev.id ∧ prev.name.length = dlen ∧
      prev.name = ce.name.take dlen := by
  unfold previous_dir_hit at h
  cases p with
  | none => cases h
  | some pid =>
    have h' : (match findId st pid with
      | some q =>
        if dlen == q.name.length && ce.name.take dlen == q.name then some q.id
        else none
      | none => none) = some did := h
    clear h
    cases hfi : findId st pid with
    | none =>
      rw [hfi] at h'
      cases h'
    | some q =>
      rw [hfi] at h'
      have h'' : (if dlen == q.name.length && ce.name.take dlen == q.name then some q.id
          else none) = some did := h'
      clear h'
      by_cases hcond : (dlen == q.name.length && ce.name.take dlen == q.name) = true
      · rw [if_pos hcond] at h''
        have hc : dlen = q.name.length ∧ ce.name.take dlen = q.name := by
          simpa using hcond
        exact ⟨q, List.mem_of_find?_eq_some hfi, (Option.some.inj h'').symm, hc.1.symm,
          hc.2.symm⟩
      · rw [if_neg hcond] at h''
        cases h''

theorem chainOk_shrink {b : List dir_entry} {x : dir_entry} : ∀ {l : List dir_entry},
    chainOk (b ++ [x]) l →
    (∀ c ∈ l, ∀ s, dirSpanLen c.name c.name.length = some s →
      foldName x.name ≠ foldName (c.name.take s)) →
    chainOk b l := by
  intro l
  induction l with
  | nil => intro _ _; trivial
  | cons c rest ih =>
    intro hco hno
    obtain ⟨hhead, htail⟩ := hco
    refine ⟨?_, ih htail (fun c' hc' => hno c' (List.mem_cons_of_mem _ hc'))⟩
    cases hs : dirSpanLen c.name c.name.length with
    | none =>
      rw [hs] at hhead
      exact hhead
    | some s =>
      rw [hs] at hhead
      cases rest with
      | nil =>
        have hhead' : ∃ q ∈ b ++ [x], c.parent = some q.id ∧
            foldName q.name = foldName (c.name.take s) := hhead
        obtain ⟨q, hqmem, hqpar, hqfold⟩ := hhead'
        rcases List.mem_append.mp hqmem with hq | hq
        · exact ⟨q, hq, hqpar, hqfold⟩
        · simp only [List.mem_singleton] at hq
          subst hq
          exact absurd hqfold (hno c (by simp) s hs)
      | cons c2 rest' => exact hhead

theorem chainOk_head_none {base : List dir_entry} {c : dir_entry} {rest : List dir_entry}
    (h : dirSpanLen c.name c.name.length = none) (hp : c.parent = none) (hr : rest = [])
    (ht : chainOk base rest) : chainOk base (c :: rest) := by
  unfold chainOk
  rw [h]
  exact ⟨⟨hp, hr⟩, ht⟩

theorem chainOk_head_last {base : List dir_entry} {c : dir_entry} {rest : List dir_entry}
    {s : Nat} (h : dirSpanLen c.name c.name.length = some s) (hr : rest = []) (q : dir_entry)
    (hq : q ∈ base) (hp : c.parent = some q.id)
    (hf : foldName q.name = foldName (c.name.take s)) : chainOk base (c :: rest) := by
  subst hr
  unfold chainOk
  rw [h]
  exact ⟨⟨q, hq, hp, hf⟩, trivial⟩

theorem chainOk_head_cons {base : List dir_entry} {c c2 : dir_entry} {rest' : List dir_entry}
    {s : Nat} (h : dirSpanLen c.name c.name.length = some s) (hp : c.parent = some c2.id)
    (hf : foldName c2.name = foldName (c.name.take s)) (ht : chainOk base (c2 :: rest')) :
    chainOk base (c :: c2 :: rest') := by
  refine ⟨?_, ht⟩
  rw [h]
  exact ⟨hp, hf⟩

theorem length_take_of_le {l : List Nat} {m : Nat} (h : m ≤ l.length) :
    (l.take m).length = m := by
  rw [List.length_take]
  omega

theorem fold_ne_of_length {a b : List Nat} (h : a.length ≠ b.length) :
    foldName a ≠ foldName b :=
  fun he => h (foldName_eq_length he)

theorem hdeout_trivial (st0 : index_state) (ce : cache_entry) (n : Nat)
    (hdn : dirSpanLen ce.name n = none) : HdeOut st0 ce n (none, st0) := by
  refine ⟨rfl, rfl, rfl, rfl, Nat.le_refl _, [], by simp, ?_, by simp, by simp, trivial,
    Or.inl ⟨rfl, rfl, rfl, hdn⟩⟩
  intro c hc
  cases hc

theorem hdeout_found (st0 : index_state) (ce : cache_entry) (n dlen : Nat) (d : dir_entry)
    (hdn : dirSpanLen ce.name n = some dlen) (hmem : d ∈ st0.dir_hash)
    (hfold : foldName d.name = foldName (ce.name.take dlen)) :
    HdeOut st0 ce n (some d.id, st0) := by
  refine ⟨rfl, rfl, rfl, rfl, Nat.le_refl _, [], by simp, ?_, by simp, by simp, trivial,
    Or.inr ⟨dlen, hdn, Or.inl ⟨d, hmem, rfl, rfl, rfl, hfold⟩⟩⟩
  intro c hc
  cases hc

theorem hde_spec : ∀ (fuel : Nat) (st0 : index_state) (ce : cache_entry) (n : Nat)
    (p : Option Nat), DirShape st0 → wf_entry ce → n ≤ ce.name.length → n < fuel →
    HdeOut st0 ce n (hash_dir_entry_go fuel st0 ce n p) := by
  intro fuel
  induction fuel with
  | zero =>
    intro st0 ce n p _ _ _ hf
    omega
  | succ fuel ih =>
    intro st0 ce n p hshape hwf hn hf
    cases hfull : dirSpanLen ce.name ce.name.length with
    | none =>
      have hnone : dirSpanLen ce.name n = none := dirSpanLen_none_mono hfull hn
      have e1 : hash_dir_entry_go (fuel + 1) st0 ce n p = (none, st0) := by
        cases hne : (ce.precompute_hash_set && !ce.precompute_hash_dir_bit) with
        | true => exact hde_go_early fuel st0 ce n p hne
        | false => exact hde_go_nospan fuel st0 ce n p hne hnone
      rw [e1]
      exact hdeout_trivial st0 ce n hnone
    | some sfull =>
      have hne := hde_no_early_of_span hwf hfull
      cases hdn : dirSpanLen ce.name n with
      | none =>
        rw [hde_go_nospan fuel st0 ce n p hne hdn]
        exact hdeout_trivial st0 ce n hdn
      | some dlen =>
        have hdlt : dlen < n := dirSpanLen_lt hdn
        have hdle : dlen ≤ ce.name.length := by omega
        cases hfast : previous_dir_hit st0 ce dlen p with
        | some did =>
          rw [hde_go_fast fuel st0 ce n p dlen did hne hdn hfast]
          obtain ⟨prev, hmem, rfl, hplen, hpname⟩ := prev_hit_facts hfast
          exact hdeout_found st0 ce n dlen prev hdn hmem (by rw [hpname])
        | none =>
          cases hlook : find_dir_entry__hash st0 ce.name dlen (hde_hash ce n dlen) with
          | some d =>
            rw [hde_go_found fuel st0 ce n p dlen d hne hdn hfast hlook]
            obtain ⟨hmem, hdlen, hfold⟩ := find_some_facts hlook
            exact hdeout_found st0 ce n dlen d hdn hmem hfold
          | none =>
            rw [hde_go_create fuel st0 ce n p dlen hne hdn hfast hlook]
            have hnomatch := find_none_facts hshape hwf hdn hn hlook
            have hhash : hde_hash ce n dlen = memihash (ce.name.take dlen) :=
              hde_hash_eq_memihash hwf hdn
            have hnodelen : (ce.name.take dlen).length = dlen := length_take_of_le hdle
            -- the fresh node and pushed state
            have hshape1 : DirShape (hde_push st0 ce n dlen) := by
              refine ⟨?_, ?_, ?_, ?_⟩
              · show ((st0.dir_hash ++ [hde_newnode st0 ce n dlen]).map dir_entry.id).Nodup
                rw [List.map_append]
                rw [List.nodup_append]
                refine ⟨hshape.ids_nodup, by simp, ?_⟩
                intro x hx hx'
                simp only [List.map_cons, List.map_nil, List.mem_singleton, hde_newnode] at hx'
                rcases List.mem_map.mp hx with ⟨d, hd, rfl⟩
                have hlt := hshape.ids_lt d hd
                rw [hx'] at hlt
                omega
              · intro d hd
                show d.id < st0.dir_next_id + 1
                rcases List.mem_append.mp hd with hd' | hd'
                · exact Nat.lt_succ_of_lt (hshape.ids_lt d hd')
                · simp only [List.mem_singleton] at hd'
                  subst hd'
                  simp [hde_newnode]
              · show ((st0.dir_hash ++ [hde_newnode st0 ce n dlen]).map
                    (fun d => foldName d.name)).Nodup
                rw [List.map_append, List.nodup_append]
                refine ⟨hshape.names_nodup, by simp, ?_⟩
                intro x hx hx'
                simp only [List.map, List.mem_singleton, hde_newnode] at hx'
                rcases List.mem_map.mp hx with ⟨d, hd, rfl⟩
                exact hnomatch d hd (by rw [← hx'])
              · intro d hd
                rcases List.mem_append.mp hd with hd' | hd'
                · exact hshape.hash_ok d hd'
                · simp only [List.mem_singleton] at hd'
                  subst hd'
                  show hde_hash ce n dlen = memihash (ce.name.take dlen)
                  exact hhash
            have hrec := ih (hde_push st0 ce n dlen) ce dlen none hshape1 hwf hdle (by omega)
            set R := hash_dir_entry_go fuel (hde_push st0 ce n dlen) ce dlen none
            obtain ⟨hfs, hfc, hfn, hfi, hfnext, rnews, hrdh, hrfacts, hrids, hrfolds,
              hrchain, hrres⟩ := hrec
            have hfs' : R.2.store = st0.store := hfs
            have hfc' : R.2.cache = st0.cache := hfc
            have hfn' : R.2.name_hash = st0.name_hash := hfn
            have hfi' : R.2.name_hash_initialized = st0.name_hash_initialized := hfi
            have hfnext' : st0.dir_next_id + 1 ≤ R.2.dir_next_id := hfnext
            have hdh2 : R.2.dir_hash = st0.dir_hash ++ hde_newnode st0 ce n dlen :: rnews := by
              have hrdh' : R.2.dir_hash =
                  (st0.dir_hash ++ [hde_newnode st0 ce n dlen]) ++ rnews := hrdh
              rw [hrdh', List.append_assoc, List.singleton_append]
            have hA : ∀ d ∈ st0.dir_hash, d.id ≠ st0.dir_next_id := by
              intro d hd
              have := hshape.ids_lt d hd
              omega
            have hB : ∀ d ∈ rnews, d.id ≠ st0.dir_next_id := by
              intro d hd
              have h1 : st0.dir_next_id + 1 ≤ d.id := (hrfacts d hd).1
              omega
            have hnodeid : (hde_newnode st0 ce n dlen).id = st0.dir_next_id := rfl
            have hsplit : (setParentOf R.2 st0.dir_next_id R.1).dir_hash =
                st0.dir_hash ++
                  ({ hde_newnode st0 ce n dlen with parent := R.1 } : dir_entry) :: rnews := by
              simp only [setParentOf]
              rw [hdh2]
              exact map_setParent_split R.1 hA hB hnodeid
            refine ⟨hfs', hfc', hfn', hfi', ?_,
              ({ hde_newnode st0 ce n dlen with parent := R.1 } : dir_entry) :: rnews,
              hsplit, ?_, ?_, ?_, ?_, ?_⟩
            · show st0.dir_next_id ≤ R.2.dir_next_id
              omega
            · -- facts for every fresh node
              intro c hc
              rcases List.mem_cons.mp hc with rfl | hc'
              · refine ⟨Nat.le_refl _, ?_, rfl, hhash, ?_, dlen, hdlt, rfl⟩
                · show st0.dir_next_id < R.2.dir_next_id
                  omega
                · intro d hd heq
                  exact hnomatch d hd heq.symm
              · obtain ⟨h1, h2, h3, h4, h5c, m, hm, hcm⟩ := hrfacts c hc'
                have h1' : st0.dir_next_id + 1 ≤ c.id := h1
                refine ⟨by omega, h2, h3, h4, ?_, m, by omega, hcm⟩
                intro d hd
                have hd' : d ∈ (hde_push st0 ce n dlen).dir_hash :=
                  List.mem_append.mpr (Or.inl hd)
                exact h5c d hd'
            · -- fresh ids are distinct
              rw [List.map_cons]
              refine List.nodup_cons.mpr ⟨?_, hrids⟩
              intro hmem
              rcases List.mem_map.mp hmem with ⟨d, hd, hid⟩
              have h1 : st0.dir_next_id + 1 ≤ d.id := (hrfacts d hd).1
              have h2 : d.id = st0.dir_next_id := hid
              omega
            · -- fresh fold-names are distinct
              rw [List.map_cons]
              refine List.nodup_cons.mpr ⟨?_, hrfolds⟩
              intro hmem
              rcases List.mem_map.mp hmem with ⟨d, hd, hfd⟩
              have h5c := (hrfacts d hd).2.2.2.2.1
              have hnode_mem : hde_newnode st0 ce n dlen ∈ (hde_push st0 ce n dlen).dir_hash :=
                List.mem_append.mpr (Or.inr (List.mem_singleton.mpr rfl))
              exact h5c (hde_newnode st0 ce n dlen) hnode_mem hfd
            · -- the new nodes form a parent chain
              have hspan' : dirSpanLen
                  ({ hde_newnode st0 ce n dlen with parent := R.1 } : dir_entry).name
                  ({ hde_newnode st0 ce n dlen with parent := R.1 } : dir_entry).name.length =
                  dirSpanLen ce.name dlen := by
                show dirSpanLen (ce.name.take dlen) (ce.name.take dlen).length = _
                rw [hnodelen, dirSpanLen_take (Nat.le_refl dlen)]
              rcases hrres with ⟨hr1, hrnil, hr2, hrspan⟩ | ⟨dlen₂, hspan₂, hsub⟩
              · exact chainOk_head_none (hspan'.trans hrspan) hr1 hrnil
                  (by rw [hrnil]; trivial)
              · have hdlen2 : dlen₂ < dlen := dirSpanLen_lt hspan₂
                have htt : (ce.name.take dlen).take dlen₂ = ce.name.take dlen₂ := by
                  rw [List.take_take]
                  congr 1
                  omega
                rcases hsub with ⟨d, hd, hr1, hrnil, hr2, hfold⟩ | ⟨c₂, cs, hrc, hr1, hfold₂⟩
                · have hd0 : d ∈ st0.dir_hash := by
                    have hd' : d ∈ st0.dir_hash ++ [hde_newnode st0 ce n dlen] := hd
                    rcases List.mem_append.mp hd' with h | h
                    · exact h
                    · exfalso
                      simp only [List.mem_singleton] at h
                      subst h
                      have hlen := foldName_eq_length hfold
                      have h1 : (ce.name.take dlen).length = (ce.name.take dlen₂).length := hlen
                      rw [hnodelen, length_take_of_le (by omega)] at h1
                      omega
                  refine chainOk_head_last (hspan'.trans hspan₂) hrnil d hd0 hr1 ?_
                  show foldName d.name = foldName ((ce.name.take dlen).take dlen₂)
                  rw [htt]
                  exact hfold
                · subst hrc
                  refine chainOk_head_cons (hspan'.trans hspan₂) hr1 ?_ ?_
                  · show foldName c₂.name = foldName ((ce.name.take dlen).take dlen₂)
                    rw [htt]
                    exact hfold₂
                  · have hrchain' : chainOk (st0.dir_hash ++ [hde_newnode st0 ce n dlen])
                        (c₂ :: cs) := hrchain
                    refine chainOk_shrink hrchain' ?_
                    intro c hcm2 s hs hcontra
                    obtain ⟨-, -, -, -, -, m, hm, hcm⟩ := hrfacts c hcm2
                    have hclen : c.name.length = m := by
                      rw [hcm]
                      exact length_take_of_le (by omega)
                    have hslt : s < c.name.length := dirSpanLen_lt hs
                    have hts : (c.name.take s).length = s :=
                      length_take_of_le (Nat.le_of_lt hslt)
                    have hlen' : (ce.name.take dlen).length = (c.name.take s).length :=
                      foldName_eq_length hcontra
                    rw [hnodelen, hts] at hlen'
                    omega
            · -- result disjunction: head of the fresh chain
              exact Or.inr ⟨dlen, hdn, Or.inr
                ⟨({ hde_newnode st0 ce n dlen with parent := R.1 } : dir_entry), rnews,
                  rfl, rfl, rfl⟩⟩

theorem nodup_map_inj {α β : Type} {f : α → β} : ∀ {l : List α}, (l.map f).Nodup →
    ∀ a ∈ l, ∀ b ∈ l, f a = f b → a = b := by
  intro l
  induction l with
  | nil => intro _ a ha; cases ha
  | cons c t ih =>
    intro hnd a ha b hb hf
    rw [List.map_cons] at hnd
    have hnd' := List.nodup_cons.mp hnd
    rcases List.mem_cons.mp ha with rfl | ha' <;> rcases List.mem_cons.mp hb with rfl | hb'
    · rfl
    · exact absurd (hf ▸ List.mem_map_of_mem f hb') hnd'.1
    · exact absurd (hf ▸ List.mem_map_of_mem f ha') hnd'.1
    · exact ih hnd'.2 a ha' b hb' hf

theorem filter_length_set_exact {α : Type} (p : α → Bool) :
    ∀ (l : List α) (i : Nat) (e' d : α), i < l.length →
    ((l.set i e').filter p).length + (if p (l.getD i d) then 1 else 0) =
      (l.filter p).length + (if p e' then 1 else 0) := by
  intro l
  induction l with
  | nil => intro i e' d hi; cases hi
  | cons c t ih =>
    intro i e' d hi
    cases i with
    | zero =>
      simp only [List.set, List.getD, List.getElem?_cons_zero, Option.getD_some, List.filter]
      cases hp : p e' <;> cases hc : p c <;> simp [hp, hc] <;> omega
    | succ j =>
      have hj : j < t.length := by simpa using hi
      have hrec := ih j e' d hj
      simp only [List.set, List.filter, List.getD_eq_getElem?_getD,
        List.getElem?_cons_succ] at hrec ⊢
      cases hc : p c <;> simp [hc] <;> omega

theorem getD_append_left {α : Type} (l l' : List α) (i : Nat) (d : α) (h : i < l.length) :
    (l ++ l').getD i d = l.getD i d := by
  rw [List.getD_eq_getElem?_getD, List.getD_eq_getElem?_getD, List.getElem?_append_left h]

theorem getD_append_full {α : Type} (l : List α) (e d : α) :
    (l ++ [e]).getD l.length d = e := by
  rw [List.getD_eq_getElem?_getD, List.getElem?_append_right (Nat.le_refl _)]
  simp

theorem set_getD_self {α : Type} : ∀ (l : List α) (i : Nat) (d : α),
    l.set i (l.getD i d) = l := by
  intro l
  induction l with
  | nil => intro i d; rfl
  | cons c t ih =>
    intro i d
    cases i with
    | zero => simp [List.set, List.getD]
    | succ j =>
      simp only [List.set, List.getD, List.getElem?_cons_succ]
      rw [List.cons.injEq]
      exact ⟨rfl, ih j d⟩

theorem eraseP_eq_filter_of_unique {α : Type} (p : α → Bool) :
    ∀ l : List α, (∀ a ∈ l, ∀ b ∈ l, p a = true → p b = true → a = b) → l.Nodup →
    l.eraseP p = l.filter (fun a => !p a) := by
  intro l
  induction l with
  | nil => intro _ _; rfl
  | cons c t ih =>
    intro huniq hnd
    have hnd' := List.nodup_cons.mp hnd
    cases hc : p c with
    | true =>
      rw [List.eraseP_cons_of_pos hc, List.filter_cons_of_neg (by simp [hc])]
      have : t.filter (fun a => !p a) = t := by
        rw [List.filter_eq_self]
        intro a ha
        cases hpa : p a with
        | true =>
          exact absurd (huniq a (List.mem_cons_of_mem _ ha) c (List.mem_cons_self _ _) hpa hc)
            (fun he => hnd'.1 (he ▸ ha))
        | false => simp
      rw [this]
    | false =>
      rw [List.eraseP_cons_of_neg (by simp [hc]), List.filter_cons_of_pos (by simp [hc])]
      rw [ih (fun a ha b hb => huniq a (List.mem_cons_of_mem _ ha) b (List.mem_cons_of_mem _ hb))
        hnd'.2]

/-- Increment the reference count of every node whose id is listed (the
aggregate effect of one `while (dir && !(dir->nr++))` walk). -/
def bumpAll (st : index_state) (ids : List Nat) : index_state :=
  { st with dir_hash :=
      st.dir_hash.map (fun d => if d.id ∈ ids then { d with nr := d.nr + 1 } else d) }

/-- The parent pointers of a node list form one chain ending in `tl`. -/
def Links : List dir_entry → Option Nat → Prop
  | [], _ => True
  | [c], tl => c.parent = tl
  | c :: c2 :: rest, tl => c.parent = some c2.id ∧ Links (c2 :: rest) tl

/-- Where the reference walk starts: the head of the fresh chain, or
directly the terminal when the chain is empty. -/
def startOf : List dir_entry → Option Nat → Option Nat
  | [], tl => tl
  | c :: _, _ => some c.id

theorem chainOk_to_links {base : List dir_entry} : ∀ l, chainOk base l →
    ∃ tl, Links l tl ∧ (tl = none ∨ ∃ q ∈ base, tl = some q.id) := by
  intro l
  induction l with
  | nil => intro _; exact ⟨none, trivial, Or.inl rfl⟩
  | cons c rest ih =>
    intro h
    obtain ⟨hhead, htail⟩ := h
    cases rest with
    | nil =>
      cases hs : dirSpanLen c.name c.name.length with
      | none =>
        rw [hs] at hhead
        exact ⟨none, hhead.1, Or.inl rfl⟩
      | some s =>
        rw [hs] at hhead
        obtain ⟨q, hq, hp, hf⟩ := hhead
        exact ⟨some q.id, hp, Or.inr ⟨q, hq, rfl⟩⟩
    | cons c2 r2 =>
      obtain ⟨tl, hl, hcase⟩ := ih htail
      cases hs : dirSpanLen c.name c.name.length with
      | none =>
        rw [hs] at hhead
        cases hhead.2
      | some s =>
        rw [hs] at hhead
        exact ⟨tl, ⟨hhead.1, hl⟩, hcase⟩

theorem chain_members_parent {base : List dir_entry} : ∀ l, chainOk base l → ∀ c ∈ l,
    (dirSpanLen c.name c.name.length = none → c.parent = none) ∧
    (∀ s, dirSpanLen c.name c.name.length = some s →
      ∃ q, (q ∈ base ∨ q ∈ l) ∧ c.parent = some q.id ∧
        foldName q.name = foldName (c.name.take s)) := by
  intro l
  induction l with
  | nil => intro _ c hc; cases hc
  | cons c0 rest ih =>
    intro h c hc
    obtain ⟨hhead, htail⟩ := h
    rcases List.mem_cons.mp hc with rfl | hc'
    · constructor
      · intro hs
        rw [hs] at hhead
        exact hhead.1
      · intro s hs
        rw [hs] at hhead
        cases rest with
        | nil =>
          obtain ⟨q, hq, hp, hf⟩ := hhead
          exact ⟨q, Or.inl hq, hp, hf⟩
        | cons c2 r2 =>
          exact ⟨c2, Or.inr (List.mem_cons_of_mem _ (List.mem_cons_self _ _)), hhead.1, hhead.2⟩
    · have := ih htail c hc'
      refine ⟨this.1, ?_⟩
      intro s hs
      obtain ⟨q, hq, hp, hf⟩ := this.2 s hs
      refine ⟨q, ?_, hp, hf⟩
      rcases hq with hq | hq
      · exact Or.inl hq
      · exact Or.inr (List.mem_cons_of_mem _ hq)

theorem links_count_zero : ∀ (l : List dir_entry) (tl : Option Nat) (y : Nat), Links l tl →
    y ∉ l.map dir_entry.id → some y ≠ tl →
    (l.filter (fun c => c.parent == some y)).length = 0 := by
  intro l
  induction l with
  | nil => intro tl y _ _ _; rfl
  | cons c rest ih =>
    intro tl y hL hy hne
    have hyc : y ∉ rest.map dir_entry.id := by
      intro hmem
      exact hy (by rw [List.map_cons]; exact List.mem_cons_of_mem _ hmem)
    cases rest with
    | nil =>
      have hp : c.parent = tl := hL
      have : (c.parent == some y) = false := by
        rw [hp]
        exact beq_false_of_ne (fun he => hne (he.symm))
      simp [List.filter, this]
    | cons c2 r2 =>
      obtain ⟨hp, hL'⟩ := hL
      have hne2 : c2.id ≠ y := by
        intro he
        exact hyc (by rw [← he, List.map_cons]; exact List.mem_cons_self _ _)
      have : (c.parent == some y) = false := by
        rw [hp]
        exact beq_false_of_ne (by simpa using hne2)
      rw [List.filter_cons_of_neg (by simp [this])]
      exact ih tl y hL' hyc hne

theorem links_count_head (c : dir_entry) (rest : List dir_entry) (tl : Option Nat)
    (hL : Links (c :: rest) tl) (hnd : ((c :: rest).map dir_entry.id).Nodup)
    (hne : some c.id ≠ tl) :
    ((c :: rest).filter (fun x => x.parent == some c.id)).length = 0 := by
  rw [List.map_cons] at hnd
  have hnd' := List.nodup_cons.mp hnd
  cases rest with
  | nil =>
    have hp : c.parent = tl := hL
    have : (c.parent == some c.id) = false := by
      rw [hp]
      exact beq_false_of_ne (fun he => hne (he.symm))
    simp [List.filter, this]
  | cons c2 r2 =>
    obtain ⟨hp, hL'⟩ := hL
    have hne2 : c2.id ≠ c.id := by
      intro he
      exact hnd'.1 (by rw [← he, List.map_cons]; exact List.mem_cons_self _ _)
    have hpred : (c.parent == some c.id) = false := by
      rw [hp]
      exact beq_false_of_ne (by simpa using hne2)
    rw [List.filter_cons_of_neg (by simp [hpred])]
    exact links_count_zero _ tl c.id hL' hnd'.1 hne

theorem links_count_tail : ∀ (rest : List dir_entry) (c : dir_entry) (tl : Option Nat) (y : Nat),
    Links (c :: rest) tl → (((c :: rest)).map dir_entry.id).Nodup → some y ≠ tl →
    y ∈ rest.map dir_entry.id →
    ((c :: rest).filter (fun x => x.parent == some y)).length = 1 := by
  intro rest
  induction rest with
  | nil => intro c tl y _ _ _ hy; cases hy
  | cons c2 r2 ih =>
    intro c tl y hL hnd hne hy
    obtain ⟨hp, hL'⟩ := hL
    rw [List.map_cons] at hnd
    have hnd' := List.nodup_cons.mp hnd
    by_cases hyc2 : y = c2.id
    · subst hyc2
      rw [List.filter_cons_of_pos (by simp [hp])]
      rw [List.length_cons, links_count_head c2 r2 tl hL' hnd'.2 hne]
    · have hpred : (c.parent == some y) = false := by
        rw [hp]
        exact beq_false_of_ne (by simpa using fun he => hyc2 he.symm)
      rw [List.filter_cons_of_neg (by simp [hpred])]
      have hy' : y ∈ r2.map dir_entry.id := by
        rw [List.map_cons] at hy
        rcases List.mem_cons.mp hy with he | hy'
        · exact absurd he hyc2
        · exact hy'
      exact ih c2 tl y hL' hnd'.2 hne hy'

theorem add_dir_refs_none : ∀ (fuel : Nat) (S : index_state), add_dir_refs fuel S none = S := by
  intro fuel S
  cases fuel <;> rfl

theorem bumpAll_nil (S : index_state) : bumpAll S [] = S := by
  simp only [bumpAll]
  rw [map_noop (fun d _ => by simp)]

theorem bumpNr_eq_bumpAll (S : index_state) (x : Nat) : bumpNr S x = bumpAll S [x] := by
  simp only [bumpNr, bumpAll]
  congr 1
  apply List.map_congr_left
  intro d _
  by_cases h : d.id = x
  · simp [h]
  · simp [h]

theorem bumpAll_bumpNr (S : index_state) (x : Nat) (ids : List Nat) (h : x ∉ ids) :
    bumpAll (bumpNr S x) ids = bumpAll S (x :: ids) := by
  simp only [bumpNr, bumpAll, List.map_map]
  congr 1
  apply List.map_congr_left
  intro d _
  by_cases hdx : d.id = x
  · simp [Function.comp, hdx, h]
  · by_cases hdi : d.id ∈ ids
    · simp [Function.comp, hdx, hdi]
    · have : ¬ (d.id = x ∨ d.id ∈ ids) := by
        intro hc
        rcases hc with hc | hc
        · exact hdx hc
        · exact hdi hc
      simp [Function.comp, hdx, hdi]

theorem bumpNr_map_id (S : index_state) (x : Nat) :
    (bumpNr S x).dir_hash.map dir_entry.id = S.dir_hash.map dir_entry.id := by
  simp only [bumpNr, List.map_map]
  apply List.map_congr_left
  intro d _
  by_cases h : d.id = x <;> simp [Function.comp, h]

theorem bumpNr_mem_of_ne {S : index_state} {x : Nat} {c : dir_entry}
    (hmem : c ∈ S.dir_hash) (hne : c.id ≠ x) : c ∈ (bumpNr S x).dir_hash := by
  have : (fun d => if d.id == x then { d with nr := d.nr + 1 } else d) c = c := by
    simp [hne]
  rw [← this]
  exact List.mem_map_of_mem _ hmem

theorem add_walk : ∀ (chain : List dir_entry) (S : index_state) (fuel : Nat) (tl : Option Nat)
    (tll : List Nat),
    (S.dir_hash.map dir_entry.id).Nodup →
    (∀ c ∈ chain, c ∈ S.dir_hash ∧ c.nr = 0) →
    Links chain tl →
    ((tl = none ∧ tll = []) ∨
      (∃ q ∈ S.dir_hash, tl = some q.id ∧ tll = [q.id] ∧ q.nr ≠ 0)) →
    (chain.map dir_entry.id ++ tll).Nodup →
    chain.length < fuel →
    add_dir_refs fuel S (startOf chain tl) = bumpAll S (chain.map dir_entry.id ++ tll) := by
  intro chain
  induction chain with
  | nil =>
    intro S fuel tl tll hnd _ _ hterm _ _
    rcases hterm with ⟨rfl, rfl⟩ | ⟨q, hq, rfl, rfl, hqnr⟩
    · exact (add_dir_refs_none fuel S).trans (bumpAll_nil S).symm
    · show add_dir_refs fuel S (some q.id) = _
      cases fuel with
      | zero => omega
      | succ f =>
        have hfind : findId S q.id = some q := findId_of_mem hnd hq
        show (match findId S q.id with
          | none => S
          | some d =>
            let st' := bumpNr S q.id
            if d.nr == 0 then add_dir_refs f st' d.parent else st') = _
        rw [hfind]
        have : (q.nr == 0) = false := beq_false_of_ne hqnr
        simp only [this, if_false]
        simp only [List.map_nil, List.nil_append]
        exact bumpNr_eq_bumpAll S q.id
  | cons c0 rest ih =>
    intro S fuel tl tll hnd hchain hL hterm hids hf
    cases fuel with
    | zero => omega
    | succ f =>
      obtain ⟨hc0mem, hc0nr⟩ := hchain c0 (List.mem_cons_self _ _)
      have hfind : findId S c0.id = some c0 := findId_of_mem hnd hc0mem
      show (match findId S c0.id with
        | none => S
        | some d =>
          let st' := bumpNr S c0.id
          if d.nr == 0 then add_dir_refs f st' d.parent else st') = _
      rw [hfind]
      have hz : (c0.nr == 0) = true := by rw [hc0nr]; rfl
      simp only [hz, if_true]
      rw [List.map_cons, List.cons_append] at hids
      have hids' := List.nodup_cons.mp hids
      have hpnext : c0.parent = startOf rest tl := by
        cases rest with
        | nil => exact hL
        | cons c2 r2 => exact hL.1
      rw [hpnext]
      have hstep := ih (bumpNr S c0.id) f tl tll
        (by rw [bumpNr_map_id]; exact hnd)
        (by
          intro c hc
          obtain ⟨hcm, hcnr⟩ := hchain c (List.mem_cons_of_mem _ hc)
          refine ⟨bumpNr_mem_of_ne hcm ?_, hcnr⟩
          intro he
          refine hids'.1 ?_
          rw [← he]
          exact List.mem_append_left _ (List.mem_map_of_mem _ hc))
        (by
          cases rest with
          | nil => trivial
          | cons c2 r2 => exact hL.2)
        (by
          rcases hterm with ⟨h1, h2⟩ | ⟨q, hq, h1, h2, hqnr⟩
          · exact Or.inl ⟨h1, h2⟩
          · refine Or.inr ⟨q, bumpNr_mem_of_ne hq ?_, h1, h2, hqnr⟩
            intro he
            exact hids'.1 (by rw [← he, h2]; exact List.mem_append_right _ (by simp)))
        hids'.2
        (by simpa using Nat.lt_of_succ_lt_succ hf)
      rw [hstep]
      exact bumpAll_bumpNr S c0.id _ hids'.1

/-- The reference count the invariant prescribes for a node. -/
def trueNr (st : index_state) (d : dir_entry) : Nat := entryRefs st d + childRefs st d

/-- The per-node function `bumpAll` maps over the table. -/
def bumpFun (ids : List Nat) (d : dir_entry) : dir_entry :=
  if d.id ∈ ids then { d with nr := d.nr + 1 } else d

theorem bumpAll_dh (S : index_state) (ids : List Nat) :
    (bumpAll S ids).dir_hash = S.dir_hash.map (bumpFun ids) := rfl

theorem bumpFun_id (ids : List Nat) (d : dir_entry) : (bumpFun ids d).id = d.id := by
  unfold bumpFun
  split <;> rfl

theorem bumpFun_name (ids : List Nat) (d : dir_entry) : (bumpFun ids d).name = d.name := by
  unfold bumpFun
  split <;> rfl

theorem bumpFun_parent (ids : List Nat) (d : dir_entry) : (bumpFun ids d).parent = d.parent := by
  unfold bumpFun
  split <;> rfl

theorem bumpFun_hash (ids : List Nat) (d : dir_entry) :
    (bumpFun ids d).ent_hash = d.ent_hash := by
  unfold bumpFun
  split <;> rfl

theorem bumpFun_nr_mem {ids : List Nat} {d : dir_entry} (h : d.id ∈ ids) :
    (bumpFun ids d).nr = d.nr + 1 := by
  unfold bumpFun
  rw [if_pos h]

theorem bumpFun_nr_not_mem {ids : List Nat} {d : dir_entry} (h : d.id ∉ ids) :
    bumpFun ids d = d := by
  unfold bumpFun
  rw [if_neg h]

theorem filter_length_map {α β : Type} (f : α → β) (p : β → Bool) :
    ∀ l : List α, ((l.map f).filter p).length = (l.filter (fun a => p (f a))).length := by
  intro l
  induction l with
  | nil => rfl
  | cons c t ih =>
    rw [List.map_cons]
    cases hc : p (f c)
    · rw [List.filter_cons_of_neg (by simp [hc]), List.filter_cons_of_neg (by simp [hc]), ih]
    · rw [List.filter_cons_of_pos (by simp [hc]), List.filter_cons_of_pos (by simp [hc])]
      simp [ih]

theorem filter_length_append {α : Type} (p : α → Bool) (A B : List α) :
    ((A ++ B).filter p).length = (A.filter p).length + (B.filter p).length := by
  rw [List.filter_append, List.length_append]

theorem filter_length_middle {α : Type} (p : α → Bool) (A B : List α) (m : α) :
    ((A ++ m :: B).filter p).length =
      ((A ++ B).filter p).length + (if p m then 1 else 0) := by
  rw [filter_length_append, filter_length_append]
  cases hm : p m
  · rw [List.filter_cons_of_neg (by simp [hm]), if_neg (by simp [hm])]
    omega
  · rw [List.filter_cons_of_pos (by simp [hm]), if_pos (by simp [hm]), List.length_cons]
    omega

theorem filter_length_pos_of_mem {α : Type} {p : α → Bool} {l : List α} {a : α}
    (ha : a ∈ l) (hpa : p a = true) : 0 < (l.filter p).length := by
  have : a ∈ l.filter p := List.mem_filter.mpr ⟨ha, hpa⟩
  exact List.length_pos.mpr (fun he => by rw [he] at this; cases this)

theorem fold_inj_of_shape {st : index_state} (hshape : DirShape st) {a b : dir_entry}
    (ha : a ∈ st.dir_hash) (hb : b ∈ st.dir_hash)
    (hf : foldName a.name = foldName b.name) : a = b :=
  nodup_map_inj hshape.names_nodup a ha b hb hf

theorem id_inj_of_shape {st : index_state} (hshape : DirShape st) {a b : dir_entry}
    (ha : a ∈ st.dir_hash) (hb : b ∈ st.dir_hash) (hf : a.id = b.id) : a = b :=
  nodup_map_inj hshape.ids_nodup a ha b hb hf

theorem entrySpanMatches_congr {d1 d2 : dir_entry} (h : foldName d1.name = foldName d2.name)
    (e : cache_entry) : entrySpanMatches d1 e = entrySpanMatches d2 e := by
  unfold entrySpanMatches
  rw [h]

theorem entrySpanMatches_unhashed {d : dir_entry} {e : cache_entry}
    (h : e.ce_hashed = false) : entrySpanMatches d e = false := by
  unfold entrySpanMatches
  rw [h]
  rfl

theorem entrySpanMatches_none {d : dir_entry} {e : cache_entry}
    (h : dirSpanLen e.name e.name.length = none) : entrySpanMatches d e = false := by
  unfold entrySpanMatches
  rw [h]
  simp

theorem entrySpanMatches_some {d : dir_entry} {e : cache_entry} {s : Nat}
    (hh : e.ce_hashed = true) (hs : dirSpanLen e.name e.name.length = some s) :
    entrySpanMatches d e = (foldName (e.name.take s) == foldName d.name) := by
  unfold entrySpanMatches
  rw [hh, hs]
  simp

/-- The store/name_hash half of the core invariant. -/
structure NHSide (st : index_state) : Prop where
  swf : storeWf st
  cache_lt : ∀ i ∈ st.cache, i < st.store.length
  nh_mem : ∀ p ∈ st.name_hash, p.2 < st.store.length ∧
    p.1 = memihash (st.store.getD p.2 default).name ∧
    (st.store.getD p.2 default).ce_hashed = true
  nh_nodup : (st.name_hash.map Prod.snd).Nodup
  nh_complete : ∀ i, i < st.store.length → (st.store.getD i default).ce_hashed = true →
    ∃ p ∈ st.name_hash, p.2 = i

/-- The directory-table half of the core invariant (as maintained under
`ignore_case`). -/
structure DirSide (st : index_state) : Prop where
  shape : DirShape st
  parent_none : ∀ d ∈ st.dir_hash, dirSpanLen d.name d.name.length = none → d.parent = none
  parent_some : ∀ d ∈ st.dir_hash, ∀ s, dirSpanLen d.name d.name.length = some s →
    ∃ q ∈ st.dir_hash, d.parent = some q.id ∧ foldName q.name = foldName (d.name.take s)
  nr_eq : ∀ d ∈ st.dir_hash, d.nr = ((entryRefs st d + childRefs st d : Nat) : Int)
  nr_pos : ∀ d ∈ st.dir_hash, 0 < d.nr
  dh_complete : ∀ e ∈ st.store, e.ce_hashed = true →
    ∀ s, dirSpanLen e.name e.name.length = some s →
    ∃ d ∈ st.dir_hash, foldName d.name = foldName (e.name.take s)

theorem NHSide_of_core {ic : Bool} {st : index_state} (h : NHCore ic st) : NHSide st :=
  ⟨h.swf, h.cache_lt, h.nh_mem, h.nh_nodup, h.nh_complete⟩

theorem DirSide_of_core {st : index_state} (h : NHCore true st) : DirSide st :=
  ⟨h.shape, h.parent_none, h.parent_some, h.nr_eq, h.nr_pos, h.dh_complete rfl⟩

theorem NHCore_true_intro {st : index_state} (h1 : NHSide st) (h2 : DirSide st) :
    NHCore true st :=
  ⟨h1.swf, h1.cache_lt, h1.nh_mem, h1.nh_nodup, h1.nh_complete,
   (fun h => by cases h), h2.shape, h2.parent_none, h2.parent_some, h2.nr_eq, h2.nr_pos,
   (fun _ => h2.dh_complete)⟩

theorem DirShape_empty {st : index_state} (h : st.dir_hash = []) : DirShape st := by
  refine ⟨?_, ?_, ?_, ?_⟩ <;> rw [h] <;> simp

theorem NHCore_false_intro {st : index_state} (h1 : NHSide st) (h2 : st.dir_hash = []) :
    NHCore false st := by
  refine ⟨h1.swf, h1.cache_lt, h1.nh_mem, h1.nh_nodup, h1.nh_complete, fun _ => h2,
    DirShape_empty h2, ?_, ?_, ?_, ?_, ?_⟩
  · intro d hd
    rw [h2] at hd
    cases hd
  · intro d hd
    rw [h2] at hd
    cases hd
  · intro d hd
    rw [h2] at hd
    cases hd
  · intro d hd
    rw [h2] at hd
    cases hd
  · intro h
    cases h

theorem entryRefs_congr_st {st1 st2 : index_state} (h : st1.store = st2.store)
    (d : dir_entry) : entryRefs st1 d = entryRefs st2 d := by
  unfold entryRefs
  rw [h]

theorem childRefs_congr_st {st1 st2 : index_state} (h : st1.dir_hash = st2.dir_hash)
    (d : dir_entry) : childRefs st1 d = childRefs st2 d := by
  unfold childRefs
  rw [h]

theorem childRefs_id_congr {st : index_state} {d1 d2 : dir_entry} (h : d1.id = d2.id) :
    childRefs st d1 = childRefs st d2 := by
  unfold childRefs
  rw [h]

theorem entryRefs_fold_congr {st : index_state} {d1 d2 : dir_entry}
    (h : foldName d1.name = foldName d2.name) : entryRefs st d1 = entryRefs st d2 := by
  unfold entryRefs
  congr 1
  apply List.filter_congr
  intro e _
  exact entrySpanMatches_congr h e

theorem childRefs_bumpAll (S : index_state) (ids : List Nat) (d : dir_entry) :
    childRefs (bumpAll S ids) d = childRefs S d := by
  unfold childRefs
  rw [bumpAll_dh, filter_length_map]
  congr 1
  apply List.filter_congr
  intro c _
  rw [bumpFun_parent]

theorem entryRefs_bumpAll (S : index_state) (ids : List Nat) (d : dir_entry) :
    entryRefs (bumpAll S ids) d = entryRefs S d := rfl

theorem DirSide_congr {st1 st2 : index_state} (hs : st2.store = st1.store)
    (hd : st2.dir_hash = st1.dir_hash) (hn : st2.dir_next_id = st1.dir_next_id)
    (h : DirSide st1) : DirSide st2 := by
  refine ⟨⟨?_, ?_, ?_, ?_⟩, ?_, ?_, ?_, ?_, ?_⟩
  · rw [hd]; exact h.shape.ids_nodup
  · intro d hdm
    rw [hd] at hdm
    rw [hn]
    exact h.shape.ids_lt d hdm
  · rw [hd]; exact h.shape.names_nodup
  · rw [hd]; exact h.shape.hash_ok
  · rw [hd]; exact h.parent_none
  · intro d hdm s hsp
    rw [hd] at hdm
    obtain ⟨q, hq, hp, hf⟩ := h.parent_some d hdm s hsp
    exact ⟨q, by rw [hd]; exact hq, hp, hf⟩
  · intro d hdm
    rw [hd] at hdm
    rw [entryRefs_congr_st hs d, childRefs_congr_st hd d]
    exact h.nr_eq d hdm
  · rw [hd]; exact h.nr_pos
  · intro e he hh s hsp
    rw [hs] at he
    obtain ⟨d, hdm, hf⟩ := h.dh_complete e he hh s hsp
    exact ⟨d, by rw [hd]; exact hdm, hf⟩

theorem NHSide_st1 (st : index_state) (i : Nat) (hv : Nat) (hside : NHSide st)
    (hi : i < st.store.length) (hunh : (st.store.getD i default).ce_hashed = false)
    (hhv : hv = memihash (st.store.getD i default).name) :
    NHSide { st with
      store := st.store.set i { st.store.getD i default with ce_hashed := true },
      name_hash := st.name_hash ++ [(hv, i)] } := by
  have hnotold : ∀ p ∈ st.name_hash, p.2 ≠ i := by
    intro p hp he
    have := (hside.nh_mem p hp).2.2
    rw [he] at this
    rw [hunh] at this
    cases this
  refine ⟨?_, ?_, ?_, ?_, ?_⟩
  · intro e he
    rcases List.mem_or_eq_of_mem_set he with he' | rfl
    · exact hside.swf e he'
    · exact wf_entry_with_hashed (storeWf_getD hside.swf i) true
  · intro j hj
    show j < (st.store.set i _).length
    rw [List.length_set]
    exact hside.cache_lt j hj
  · intro p hp
    rcases List.mem_append.mp hp with hp' | hp'
    · obtain ⟨h1, h2, h3⟩ := hside.nh_mem p hp'
      have hne : i ≠ p.2 := fun he => hnotold p hp' he.symm
      refine ⟨by rw [List.length_set]; exact h1, ?_, ?_⟩
      · show p.1 = memihash ((st.store.set i _).getD p.2 default).name
        rw [getD_set_ne _ _ _ hne]
        exact h2
      · show ((st.store.set i _).getD p.2 default).ce_hashed = true
        rw [getD_set_ne _ _ _ hne]
        exact h3
    · simp only [List.mem_singleton] at hp'
      subst hp'
      refine ⟨by rw [List.length_set]; exact hi, ?_, ?_⟩
      · show hv = memihash ((st.store.set i _).getD i default).name
        rw [getD_set_self _ _ _ _ hi]
        exact hhv
      · show ((st.store.set i _).getD i default).ce_hashed = true
        rw [getD_set_self _ _ _ _ hi]
  · rw [List.map_append]
    rw [List.nodup_append]
    refine ⟨hside.nh_nodup, by simp, ?_⟩
    intro x hx hx'
    simp only [List.map_cons, List.map_nil, List.mem_singleton] at hx'
    rcases List.mem_map.mp hx with ⟨p, hp, rfl⟩
    exact hnotold p hp hx'
  · intro j hj hh
    rw [List.length_set] at hj
    by_cases hji : j = i
    · subst hji
      exact ⟨(hv, j), List.mem_append_right _ (by simp), rfl⟩
    · rw [getD_set_ne _ _ _ (fun he => hji he.symm)] at hh
      obtain ⟨p, hp, hpe⟩ := hside.nh_complete j hj hh
      exact ⟨p, List.mem_append_left _ hp, hpe⟩

theorem map_id_bumpFun (l : List dir_entry) (ids : List Nat) :
    (l.map (bumpFun ids)).map dir_entry.id = l.map dir_entry.id := by
  rw [List.map_map]
  apply List.map_congr_left
  intro d _
  simp [Function.comp, bumpFun_id]

theorem map_fold_bumpFun (l : List dir_entry) (ids : List Nat) :
    (l.map (bumpFun ids)).map (fun d => foldName d.name) = l.map (fun d => foldName d.name) := by
  rw [List.map_map]
  apply List.map_congr_left
  intro d _
  simp [Function.comp, bumpFun_name]

theorem entryRefs_eq_of_store {st : index_state} {d : dir_entry} {l : List cache_entry}
    (h : st.store = l) : entryRefs st d = (l.filter (entrySpanMatches d)).length := by
  unfold entryRefs
  rw [h]

theorem childRefs_eq_of_dh {st : index_state} {d : dir_entry} {l : List dir_entry}
    (h : st.dir_hash = l) :
    childRefs st d = (l.filter (fun c => c.parent == some d.id)).length := by
  unfold childRefs
  rw [h]

theorem filter_length_set_ff {α : Type} (p : α → Bool) (l : List α) (i : Nat) (e' d : α)
    (hi : i < l.length) (h1 : p (l.getD i d) = false) (h2 : p e' = false) :
    ((l.set i e').filter p).length = (l.filter p).length := by
  have hx := filter_length_set_exact p l i e' d hi
  rw [h1, h2] at hx
  simpa using hx

theorem filter_length_set_ft {α : Type} (p : α → Bool) (l : List α) (i : Nat) (e' d : α)
    (hi : i < l.length) (h1 : p (l.getD i d) = false) (h2 : p e' = true) :
    ((l.set i e').filter p).length = (l.filter p).length + 1 := by
  have hx := filter_length_set_exact p l i e' d hi
  rw [h1, h2] at hx
  simpa using hx

theorem filter_length_set_tf {α : Type} (p : α → Bool) (l : List α) (i : Nat) (e' d : α)
    (hi : i < l.length) (h1 : p (l.getD i d) = true) (h2 : p e' = false) :
    ((l.set i e').filter p).length + 1 = (l.filter p).length := by
  have hx := filter_length_set_exact p l i e' d hi
  rw [h1, h2] at hx
  simpa using hx

theorem DirSide_nospan (st st1 : index_state) (i : Nat)
    (hdir : DirSide st)
    (hi : i < st.store.length)
    (hunh : (st.store.getD i default).ce_hashed = false)
    (hst1s : st1.store = st.store.set i { st.store.getD i default with ce_hashed := true })
    (hst1d : st1.dir_hash = st.dir_hash)
    (hst1n : st1.dir_next_id = st.dir_next_id)
    (hspan : dirSpanLen (st.store.getD i default).name
      (st.store.getD i default).name.length = none) :
    DirSide st1 := by
  have hsm : ∀ d : dir_entry,
      entrySpanMatches d { st.store.getD i default with ce_hashed := true } = false := by
    intro d
    exact entrySpanMatches_none hspan
  have hrefs : ∀ d : dir_entry, entryRefs st1 d = entryRefs st d := by
    intro d
    rw [entryRefs_eq_of_store hst1s, entryRefs_eq_of_store (rfl : st.store = st.store)]
    have := filter_length_set_exact (entrySpanMatches d) st.store i
      { st.store.getD i default with ce_hashed := true } default hi
    rw [entrySpanMatches_unhashed hunh, hsm d] at this
    simpa using this
  refine ⟨⟨?_, ?_, ?_, ?_⟩, ?_, ?_, ?_, ?_, ?_⟩
  · rw [hst1d]; exact hdir.shape.ids_nodup
  · intro d hd
    rw [hst1d] at hd
    rw [hst1n]
    exact hdir.shape.ids_lt d hd
  · rw [hst1d]; exact hdir.shape.names_nodup
  · rw [hst1d]; exact hdir.shape.hash_ok
  · rw [hst1d]; exact hdir.parent_none
  · intro d hd s hs
    rw [hst1d] at hd
    obtain ⟨q, hq, hp, hf⟩ := hdir.parent_some d hd s hs
    exact ⟨q, by rw [hst1d]; exact hq, hp, hf⟩
  · intro d hd
    rw [hst1d] at hd
    rw [hrefs d, childRefs_congr_st hst1d d]
    exact hdir.nr_eq d hd
  · rw [hst1d]; exact hdir.nr_pos
  · intro e he hh s hs
    rw [hst1s] at he
    rcases List.mem_or_eq_of_mem_set he with he' | rfl
    · obtain ⟨d, hd, hf⟩ := hdir.dh_complete e he' hh s hs
      exact ⟨d, by rw [hst1d]; exact hd, hf⟩
    · exact absurd hs (by rw [hspan]; simp)

theorem DirSide_found (st st1 : index_state) (i : Nat) (d0 : dir_entry)
    (hdir : DirSide st)
    (hi : i < st.store.length)
    (hunh : (st.store.getD i default).ce_hashed = false)
    (hst1s : st1.store = st.store.set i { st.store.getD i default with ce_hashed := true })
    (hst1d : st1.dir_hash = st.dir_hash)
    (hst1n : st1.dir_next_id = st.dir_next_id)
    {dlen : Nat}
    (hspan : dirSpanLen (st.store.getD i default).name
       (st.store.getD i default).name.length = some dlen)
    (hd0 : d0 ∈ st.dir_hash)
    (hfold : foldName d0.name = foldName ((st.store.getD i default).name.take dlen)) :
    DirSide (bumpAll st1 [d0.id]) := by
  have hdh2 : (bumpAll st1 [d0.id]).dir_hash = st.dir_hash.map (bumpFun [d0.id]) := by
    rw [bumpAll_dh, hst1d]
  have hstore2 : (bumpAll st1 [d0.id]).store =
      st.store.set i { st.store.getD i default with ce_hashed := true } := hst1s
  have hnext2 : (bumpAll st1 [d0.id]).dir_next_id = st.dir_next_id := hst1n
  -- how entrySpanMatches behaves on the flipped entry
  have hsm : ∀ d : dir_entry,
      entrySpanMatches d { st.store.getD i default with ce_hashed := true } =
        (foldName ((st.store.getD i default).name.take dlen) == foldName d.name) := by
    intro d
    exact entrySpanMatches_some rfl hspan
  have hrefs : ∀ d : dir_entry, d ∈ st.dir_hash →
      entryRefs (bumpAll st1 [d0.id]) (bumpFun [d0.id] d) =
        entryRefs st d + (if d = d0 then 1 else 0) := by
    intro d hd
    have h1 : entryRefs (bumpAll st1 [d0.id]) (bumpFun [d0.id] d) =
        entryRefs (bumpAll st1 [d0.id]) d :=
      entryRefs_fold_congr (by rw [bumpFun_name])
    rw [h1, entryRefs_eq_of_store hstore2, entryRefs_eq_of_store (rfl : st.store = st.store)]
    by_cases hdd : d = d0
    · subst hdd
      have hbq : entrySpanMatches d { st.store.getD i default with ce_hashed := true }
          = true := by
        rw [hsm d, ← hfold]
        simp
      rw [filter_length_set_ft (entrySpanMatches d) st.store i _ default hi
        (entrySpanMatches_unhashed hunh) hbq]
      simp
    · have hne : foldName ((st.store.getD i default).name.take dlen) ≠ foldName d.name := by
        intro he
        exact hdd (fold_inj_of_shape hdir.shape hd hd0 (by rw [← he, hfold]))
      have hbq : entrySpanMatches d { st.store.getD i default with ce_hashed := true }
          = false := by
        rw [hsm d]
        exact beq_false_of_ne hne
      rw [filter_length_set_ff (entrySpanMatches d) st.store i _ default hi
        (entrySpanMatches_unhashed hunh) hbq]
      simp [hdd]
  have hcrefs : ∀ d : dir_entry,
      childRefs (bumpAll st1 [d0.id]) (bumpFun [d0.id] d) = childRefs st d := by
    intro d
    rw [childRefs_bumpAll, childRefs_congr_st hst1d, childRefs_id_congr (bumpFun_id [d0.id] d)]
  refine ⟨⟨?_, ?_, ?_, ?_⟩, ?_, ?_, ?_, ?_, ?_⟩
  · rw [hdh2, map_id_bumpFun]
    exact hdir.shape.ids_nodup
  · intro d hd
    rw [hdh2] at hd
    rcases List.mem_map.mp hd with ⟨c, hc, rfl⟩
    rw [hnext2, bumpFun_id]
    exact hdir.shape.ids_lt c hc
  · rw [hdh2, map_fold_bumpFun]
    exact hdir.shape.names_nodup
  · intro d hd
    rw [hdh2] at hd
    rcases List.mem_map.mp hd with ⟨c, hc, rfl⟩
    rw [bumpFun_hash, bumpFun_name]
    exact hdir.shape.hash_ok c hc
  · intro d hd hs
    rw [hdh2] at hd
    rcases List.mem_map.mp hd with ⟨c, hc, rfl⟩
    rw [bumpFun_name] at hs
    rw [bumpFun_parent]
    exact hdir.parent_none c hc hs
  · intro d hd s hs
    rw [hdh2] at hd
    rcases List.mem_map.mp hd with ⟨c, hc, rfl⟩
    rw [bumpFun_name] at hs
    obtain ⟨q, hq, hp, hf⟩ := hdir.parent_some c hc s hs
    refine ⟨bumpFun [d0.id] q, by rw [hdh2]; exact List.mem_map_of_mem _ hq, ?_, ?_⟩
    · rw [bumpFun_parent, bumpFun_id]
      exact hp
    · rw [bumpFun_name, bumpFun_name]
      exact hf
  · intro d hd
    rw [hdh2] at hd
    rcases List.mem_map.mp hd with ⟨c, hc, rfl⟩
    rw [hrefs c hc, hcrefs c]
    by_cases hcd : c = d0
    · subst hcd
      have hcid : c.id ∈ [c.id] := by simp
      rw [bumpFun_nr_mem hcid]
      rw [hdir.nr_eq c hc]
      simp only [if_pos rfl]
      push_cast
      ring
    · have hcid : c.id ∉ [d0.id] := by
        simp only [List.mem_singleton]
        intro he
        exact hcd (id_inj_of_shape hdir.shape hc hd0 he)
      rw [bumpFun_nr_not_mem hcid]
      rw [hdir.nr_eq c hc]
      simp only [if_neg hcd]
      push_cast
      ring
  · intro d hd
    rw [hdh2] at hd
    rcases List.mem_map.mp hd with ⟨c, hc, rfl⟩
    have := hdir.nr_pos c hc
    by_cases hcid : c.id ∈ [d0.id]
    · rw [bumpFun_nr_mem hcid]
      omega
    · rw [bumpFun_nr_not_mem hcid]
      exact this
  · intro e he hh s hs
    rw [hstore2] at he
    rcases List.mem_or_eq_of_mem_set he with he' | rfl
    · obtain ⟨d, hd, hf⟩ := hdir.dh_complete e he' hh s hs
      refine ⟨bumpFun [d0.id] d, by rw [hdh2]; exact List.mem_map_of_mem _ hd, ?_⟩
      rw [bumpFun_name]
      exact hf
    · have hsd : s = dlen := by
        have : some dlen = some s := by rw [← hspan]; exact hs
        exact (Option.some.inj this).symm
      subst hsd
      refine ⟨bumpFun [d0.id] d0, by rw [hdh2]; exact List.mem_map_of_mem _ hd0, ?_⟩
      rw [bumpFun_name]
      exact hfold

theorem filter_length_zero {α : Type} {p : α → Bool} : ∀ {l : List α},
    (∀ a ∈ l, p a = false) → (l.filter p).length = 0 := by
  intro l
  induction l with
  | nil => intro _; rfl
  | cons c t ih =>
    intro h
    rw [List.filter_cons_of_neg (by simp [h c (List.mem_cons_self _ _)])]
    exact ih (fun a ha => h a (List.mem_cons_of_mem _ ha))

theorem links_count_tl : ∀ (l : List dir_entry) (y : Nat), Links l (some y) →
    y ∉ l.map dir_entry.id → l ≠ [] →
    (l.filter (fun c => c.parent == some y)).length = 1 := by
  intro l
  induction l with
  | nil => intro y _ _ hne; exact absurd rfl hne
  | cons c rest ih =>
    intro y hL hy _
    have hyc : y ∉ rest.map dir_entry.id := by
      intro hmem
      exact hy (by rw [List.map_cons]; exact List.mem_cons_of_mem _ hmem)
    cases rest with
    | nil =>
      have hp : c.parent = some y := hL
      simp [List.filter, hp]
    | cons c2 r2 =>
      obtain ⟨hp, hL'⟩ := hL
      have hne2 : c2.id ≠ y := by
        intro he
        exact hyc (by rw [← he, List.map_cons]; exact List.mem_cons_self _ _)
      have hpred : (c.parent == some y) = false := by
        rw [hp]
        exact beq_false_of_ne (by simpa using hne2)
      rw [List.filter_cons_of_neg (by simp [hpred])]
      exact ih y hL' hyc (by simp)

theorem DirSide_create
    (st st1 S : index_state) (i : Nat) (news : List dir_entry) (tl : Option Nat)
    (tll : List Nat)
    (hdir : DirSide st)
    (hi : i < st.store.length)
    (hunh : (st.store.getD i default).ce_hashed = false)
    (hst1s : st1.store = st.store.set i { st.store.getD i default with ce_hashed := true })
    (hSs : S.store = st1.store)
    (hSd : S.dir_hash = st.dir_hash ++ news)
    (hSnext : st.dir_next_id ≤ S.dir_next_id)
    {dlen : Nat}
    (hspan : dirSpanLen (st.store.getD i default).name
      (st.store.getD i default).name.length = some dlen)
    (hfacts : ∀ c ∈ news, st.dir_next_id ≤ c.id ∧ c.id < S.dir_next_id ∧ c.nr = 0 ∧
      c.ent_hash = memihash c.name ∧
      (∀ d ∈ st.dir_hash, foldName c.name ≠ foldName d.name) ∧
      (∃ m, m < (st.store.getD i default).name.length ∧
        c.name = (st.store.getD i default).name.take m))
    (hids : (news.map dir_entry.id).Nodup)
    (hfolds : (news.map (fun c => foldName c.name)).Nodup)
    (hchain : chainOk st.dir_hash news)
    (hL : Links news tl)
    (htll : (tl = none ∧ tll = []) ∨ (∃ q ∈ st.dir_hash, tl = some q.id ∧ tll = [q.id]))
    (c0 : dir_entry) (cs : List dir_entry) (hnews : news = c0 :: cs)
    (hc0fold : foldName c0.name = foldName ((st.store.getD i default).name.take dlen)) :
    DirSide (bumpAll S (news.map dir_entry.id ++ tll)) := by
  have hgetlt : ∀ d ∈ st.dir_hash, d.id < st.dir_next_id := hdir.shape.ids_lt
  have hdisj : ∀ c ∈ news, ∀ d ∈ st.dir_hash, d.id ≠ c.id := by
    intro c hc d hd he
    have h1 := (hfacts c hc).1
    have h2 := hgetlt d hd
    omega
  have hfresh : ∀ c ∈ news, ∀ d ∈ st.dir_hash, foldName c.name ≠ foldName d.name :=
    fun c hc => (hfacts c hc).2.2.2.2.1
  have hSids : (S.dir_hash.map dir_entry.id).Nodup := by
    rw [hSd, List.map_append, List.nodup_append]
    refine ⟨hdir.shape.ids_nodup, hids, ?_⟩
    intro x hx hx'
    rcases List.mem_map.mp hx with ⟨d, hd, rfl⟩
    rcases List.mem_map.mp hx' with ⟨c, hc, he⟩
    exact hdisj c hc d hd he.symm
  have hSfolds : (S.dir_hash.map (fun d => foldName d.name)).Nodup := by
    rw [hSd, List.map_append, List.nodup_append]
    refine ⟨hdir.shape.names_nodup, hfolds, ?_⟩
    intro x hx hx'
    rcases List.mem_map.mp hx with ⟨d, hd, rfl⟩
    rcases List.mem_map.mp hx' with ⟨c, hc, he⟩
    exact hfresh c hc d hd he
  have hShash : ∀ d ∈ S.dir_hash, d.ent_hash = memihash d.name := by
    intro d hd
    rw [hSd] at hd
    rcases List.mem_append.mp hd with hd' | hd'
    · exact hdir.shape.hash_ok d hd'
    · exact (hfacts d hd').2.2.2.1
  have hSlt : ∀ d ∈ S.dir_hash, d.id < S.dir_next_id := by
    intro d hd
    rw [hSd] at hd
    rcases List.mem_append.mp hd with hd' | hd'
    · have := hgetlt d hd'
      omega
    · exact (hfacts d hd').2.1
  have hSshape : DirShape S := ⟨hSids, hSlt, hSfolds, hShash⟩
  have hc0mem : c0 ∈ news := by rw [hnews]; exact List.mem_cons_self _ _
  have htlne : ∀ c ∈ news, some c.id ≠ tl := by
    intro c hc he
    rcases htll with ⟨rfl, _⟩ | ⟨q, hq, rfl, _⟩
    · cases he
    · have h1 := (hfacts c hc).1
      have h2 := hgetlt q hq
      have : c.id = q.id := Option.some.inj he
      omega
  have hAIold : ∀ d ∈ st.dir_hash,
      (d.id ∈ news.map dir_entry.id ++ tll ↔ some d.id = tl) := by
    intro d hd
    constructor
    · intro h
      rcases List.mem_append.mp h with h' | h'
      · rcases List.mem_map.mp h' with ⟨c, hc, he⟩
        exact absurd he.symm (hdisj c hc d hd)
      · rcases htll with ⟨rfl, rfl⟩ | ⟨q, hq, rfl, rfl⟩
        · cases h'
        · rw [List.mem_singleton] at h'
          rw [h']
    · intro h
      rcases htll with ⟨rfl, rfl⟩ | ⟨q, hq, rfl, rfl⟩
      · cases h
      · exact List.mem_append_right _ (by
          rw [List.mem_singleton]
          exact Option.some.inj h)
  have hAInews : ∀ c ∈ news, c.id ∈ news.map dir_entry.id ++ tll := by
    intro c hc
    exact List.mem_append_left _ (List.mem_map_of_mem _ hc)
  have hnewsE0 : ∀ c ∈ news, (st.store.filter (entrySpanMatches c)).length = 0 := by
    intro c hc
    apply filter_length_zero
    intro e he
    cases hh : e.ce_hashed with
    | false => exact entrySpanMatches_unhashed hh
    | true =>
      cases hsp : dirSpanLen e.name e.name.length with
      | none => exact entrySpanMatches_none hsp
      | some s =>
        rw [entrySpanMatches_some hh hsp]
        obtain ⟨d, hd, hf⟩ := hdir.dh_complete e he hh s hsp
        apply beq_false_of_ne
        intro heq
        exact hfresh c hc d hd (by rw [hf]; exact heq.symm)
  have hST2d : (bumpAll S (news.map dir_entry.id ++ tll)).dir_hash =
      (st.dir_hash ++ news).map (bumpFun (news.map dir_entry.id ++ tll)) := by
    rw [bumpAll_dh, hSd]
  have hST2s : (bumpAll S (news.map dir_entry.id ++ tll)).store =
      st.store.set i { st.store.getD i default with ce_hashed := true } := by
    show S.store = _
    rw [hSs, hst1s]
  have hsm : ∀ d : dir_entry,
      entrySpanMatches d { st.store.getD i default with ce_hashed := true } =
        (foldName ((st.store.getD i default).name.take dlen) == foldName d.name) := by
    intro d
    exact entrySpanMatches_some rfl hspan
  -- entryRefs of the result, per member kind
  have hEold : ∀ x ∈ st.dir_hash,
      entryRefs (bumpAll S (news.map dir_entry.id ++ tll)) x = entryRefs st x := by
    intro x hx
    rw [entryRefs_eq_of_store hST2s, entryRefs_eq_of_store (rfl : st.store = st.store)]
    apply filter_length_set_ff _ _ _ _ _ hi (entrySpanMatches_unhashed hunh)
    rw [hsm x]
    apply beq_false_of_ne
    intro he
    exact hfresh c0 hc0mem x hx (by rw [hc0fold]; exact he)
  have hEc0 : entryRefs (bumpAll S (news.map dir_entry.id ++ tll)) c0 = 1 := by
    rw [entryRefs_eq_of_store hST2s]
    have := filter_length_set_ft (entrySpanMatches c0) st.store i
      { st.store.getD i default with ce_hashed := true } default hi
      (entrySpanMatches_unhashed hunh)
      (by rw [hsm c0, ← hc0fold]; simp)
    rw [this, hnewsE0 c0 hc0mem]
  have hEcs : ∀ c ∈ cs, entryRefs (bumpAll S (news.map dir_entry.id ++ tll)) c = 0 := by
    intro c hc
    have hcnews : c ∈ news := by rw [hnews]; exact List.mem_cons_of_mem _ hc
    rw [entryRefs_eq_of_store hST2s]
    have hne : foldName ((st.store.getD i default).name.take dlen) ≠ foldName c.name := by
      intro he
      rw [hnews, List.map_cons] at hfolds
      have hnd := List.nodup_cons.mp hfolds
      exact hnd.1 (by
        rw [hc0fold, he]
        exact List.mem_map_of_mem _ hc)
    have := filter_length_set_ff (entrySpanMatches c) st.store i
      { st.store.getD i default with ce_hashed := true } default hi
      (entrySpanMatches_unhashed hunh)
      (by rw [hsm c]; exact beq_false_of_ne hne)
    rw [this, hnewsE0 c hcnews]
  -- childRefs of the result: the old part plus the fresh-chain part
  have hCsplit : ∀ x : dir_entry, childRefs (bumpAll S (news.map dir_entry.id ++ tll)) x =
      (st.dir_hash.filter (fun c => c.parent == some x.id)).length +
      (news.filter (fun c => c.parent == some x.id)).length := by
    intro x
    rw [childRefs_eq_of_dh hST2d, filter_length_map]
    have : (st.dir_hash ++ news).filter
        (fun a => (bumpFun (news.map dir_entry.id ++ tll) a).parent == some x.id) =
        (st.dir_hash ++ news).filter (fun a => a.parent == some x.id) :=
      List.filter_congr (fun a _ => by rw [bumpFun_parent])
    rw [this, filter_length_append]
  have hColdz : ∀ y : Nat, st.dir_next_id ≤ y →
      (st.dir_hash.filter (fun c => c.parent == some y)).length = 0 := by
    intro y hy
    apply filter_length_zero
    intro d hd
    cases hsp : dirSpanLen d.name d.name.length with
    | none =>
      rw [hdir.parent_none d hd hsp]
      rfl
    | some s =>
      obtain ⟨q, hq, hp, _⟩ := hdir.parent_some d hd s hsp
      rw [hp]
      apply beq_false_of_ne
      intro he
      have h1 := hgetlt q hq
      have h2 : q.id = y := Option.some.inj he
      omega
  have hCnews_old : ∀ x ∈ st.dir_hash,
      (news.filter (fun c => c.parent == some x.id)).length =
        (if some x.id = tl then 1 else 0) := by
    intro x hx
    by_cases hxt : some x.id = tl
    · rw [if_pos hxt]
      refine links_count_tl news x.id (by rw [hxt]; exact hL) ?_ (by rw [hnews]; simp)
      intro hmem
      rcases List.mem_map.mp hmem with ⟨c, hc, he⟩
      exact hdisj c hc x hx he.symm
    · rw [if_neg hxt]
      refine links_count_zero news tl x.id hL ?_ hxt
      intro hmem
      rcases List.mem_map.mp hmem with ⟨c, hc, he⟩
      exact hdisj c hc x hx he.symm
  have hCc0 : (news.filter (fun c => c.parent == some c0.id)).length = 0 := by
    rw [hnews]
    exact links_count_head c0 cs tl (by rw [← hnews]; exact hL) (by rw [← hnews]; exact hids)
      (htlne c0 hc0mem)
  have hCcs : ∀ c ∈ cs, (news.filter (fun x => x.parent == some c.id)).length = 1 := by
    intro c hc
    rw [hnews]
    exact links_count_tail cs c0 tl c.id (by rw [← hnews]; exact hL)
      (by rw [← hnews]; exact hids) (htlne c (by rw [hnews]; exact List.mem_cons_of_mem _ hc))
      (List.mem_map_of_mem _ hc)
  -- assemble DirSide
  refine ⟨⟨?_, ?_, ?_, ?_⟩, ?_, ?_, ?_, ?_, ?_⟩
  · rw [bumpAll_dh, map_id_bumpFun]
    exact hSids
  · intro d hd
    rw [bumpAll_dh] at hd
    rcases List.mem_map.mp hd with ⟨c, hc, rfl⟩
    rw [bumpFun_id]
    exact hSlt c hc
  · rw [bumpAll_dh, map_fold_bumpFun]
    exact hSfolds
  · intro d hd
    rw [bumpAll_dh] at hd
    rcases List.mem_map.mp hd with ⟨c, hc, rfl⟩
    rw [bumpFun_hash, bumpFun_name]
    exact hShash c hc
  · intro d hd hsp
    rw [hST2d] at hd
    rcases List.mem_map.mp hd with ⟨c, hc, rfl⟩
    rw [bumpFun_name] at hsp
    rw [bumpFun_parent]
    rcases List.mem_append.mp hc with hc' | hc'
    · exact hdir.parent_none c hc' hsp
    · exact (chain_members_parent news hchain c hc').1 hsp
  · intro d hd s hsp
    rw [hST2d] at hd
    rcases List.mem_map.mp hd with ⟨c, hc, rfl⟩
    rw [bumpFun_name] at hsp
    rcases List.mem_append.mp hc with hc' | hc'
    · obtain ⟨q, hq, hp, hf⟩ := hdir.parent_some c hc' s hsp
      refine ⟨bumpFun (news.map dir_entry.id ++ tll) q, ?_, ?_, ?_⟩
      · rw [hST2d]
        exact List.mem_map_of_mem _ (List.mem_append_left _ hq)
      · rw [bumpFun_parent, bumpFun_id]
        exact hp
      · rw [bumpFun_name, bumpFun_name]
        exact hf
    · obtain ⟨q, hq, hp, hf⟩ := (chain_members_parent news hchain c hc').2 s hsp
      have hqS : q ∈ st.dir_hash ++ news := by
        rcases hq with hq | hq
        · exact List.mem_append_left _ hq
        · exact List.mem_append_right _ hq
      refine ⟨bumpFun (news.map dir_entry.id ++ tll) q, ?_, ?_, ?_⟩
      · rw [hST2d]
        exact List.mem_map_of_mem _ hqS
      · rw [bumpFun_parent, bumpFun_id]
        exact hp
      · rw [bumpFun_name, bumpFun_name]
        exact hf
  · -- reference-count equation
    intro d hd
    rw [hST2d] at hd
    rcases List.mem_map.mp hd with ⟨c, hc, rfl⟩
    have hEfold : entryRefs (bumpAll S (news.map dir_entry.id ++ tll))
        (bumpFun (news.map dir_entry.id ++ tll) c) =
        entryRefs (bumpAll S (news.map dir_entry.id ++ tll)) c :=
      entryRefs_fold_congr (by rw [bumpFun_name])
    have hCfold : childRefs (bumpAll S (news.map dir_entry.id ++ tll))
        (bumpFun (news.map dir_entry.id ++ tll) c) =
        childRefs (bumpAll S (news.map dir_entry.id ++ tll)) c :=
      childRefs_id_congr (bumpFun_id _ _)
    rw [hEfold, hCfold, hCsplit c]
    rcases List.mem_append.mp hc with hc' | hc'
    · -- pre-existing node: bumped exactly when it is the chain's hook
      rw [hEold c hc', hCnews_old c hc']
      by_cases hxt : some c.id = tl
      · rw [if_pos hxt, bumpFun_nr_mem ((hAIold c hc').mpr hxt)]
        rw [hdir.nr_eq c hc']
        have : (st.dir_hash.filter (fun x => x.parent == some c.id)).length =
            childRefs st c := rfl
        rw [this]
        push_cast
        ring
      · rw [if_neg hxt, bumpFun_nr_not_mem (fun h => hxt ((hAIold c hc').mp h))]
        rw [hdir.nr_eq c hc']
        have : (st.dir_hash.filter (fun x => x.parent == some c.id)).length =
            childRefs st c := rfl
        rw [this]
        push_cast
        ring
    · -- fresh node: count becomes exactly one
      rw [bumpFun_nr_mem (hAInews c hc'), (hfacts c hc').2.2.1]
      have hcoldz : (st.dir_hash.filter (fun x => x.parent == some c.id)).length = 0 :=
        hColdz c.id (hfacts c hc').1
      rw [hcoldz]
      rcases (by rw [hnews] at hc'; exact List.mem_cons.mp hc' :
          c = c0 ∨ c ∈ cs) with rfl | hcs
      · rw [hEc0, hCc0]
        rfl
      · rw [hEcs c hcs, hCcs c hcs]
        rfl
  · -- positivity
    intro d hd
    rw [hST2d] at hd
    rcases List.mem_map.mp hd with ⟨c, hc, rfl⟩
    rcases List.mem_append.mp hc with hc' | hc'
    · have := hdir.nr_pos c hc'
      by_cases hm : c.id ∈ news.map dir_entry.id ++ tll
      · rw [bumpFun_nr_mem hm]
        omega
      · rw [bumpFun_nr_not_mem hm]
        exact this
    · rw [bumpFun_nr_mem (hAInews c hc'), (hfacts c hc').2.2.1]
      omega
  · -- completeness
    intro e he hh s hsp
    rw [hST2s] at he
    rcases List.mem_or_eq_of_mem_set he with he' | rfl
    · obtain ⟨d, hd, hf⟩ := hdir.dh_complete e he' hh s hsp
      refine ⟨bumpFun (news.map dir_entry.id ++ tll) d, ?_, ?_⟩
      · rw [hST2d]
        exact List.mem_map_of_mem _ (List.mem_append_left _ hd)
      · rw [bumpFun_name]
        exact hf
    · have hsd : s = dlen := by
        have : some dlen = some s := by rw [← hspan]; exact hsp
        exact (Option.some.inj this).symm
      subst hsd
      refine ⟨bumpFun (news.map dir_entry.id ++ tll) c0, ?_, ?_⟩
      · rw [hST2d]
        exact List.mem_map_of_mem _ (List.mem_append_right _ hc0mem)
      · rw [bumpFun_name]
        exact hc0fold

theorem NHSide_congr (st1 st2 : index_state) (hs : st2.store = st1.store)
    (hc : st2.cache = st1.cache) (hn : st2.name_hash = st1.name_hash)
    (h : NHSide st1) : NHSide st2 := by
  refine ⟨?_, ?_, ?_, ?_, ?_⟩
  · intro e he
    rw [hs] at he
    exact h.swf e he
  · rw [hs, hc]; exact h.cache_lt
  · rw [hs, hn]; exact h.nh_mem
  · rw [hn]; exact h.nh_nodup
  · rw [hs, hn]; exact h.nh_complete

theorem add_dir_entry_fst (st : index_state) (ce : cache_entry) (p : Option Nat) :
    (add_dir_entry st ce p).1 = add_dir_refs
      ((hash_dir_entry st ce ce.name.length p).2.dir_hash.length + 1)
      (hash_dir_entry st ce ce.name.length p).2
      (hash_dir_entry st ce ce.name.length p).1 := rfl

theorem NHCore_add_dir (st : index_state) (i : Nat) (p : Option Nat)
    (hcore : NHCore true st) (hi : i < st.store.length)
    (hunh : (st.store.getD i default).ce_hashed = false) :
    NHCore true (add_dir_entry (hie_mid st i)
      { st.store.getD i default with ce_hashed := true } p).1 := by
  have hdir : DirSide st := DirSide_of_core hcore
  have hwfce : wf_entry (st.store.getD i default) := storeWf_getD hcore.swf i
  have hwf' : wf_entry { st.store.getD i default with ce_hashed := true } :=
    wf_entry_with_hashed hwfce true
  have hveq : (if (st.store.getD i default).precompute_hash_set = true
      then (st.store.getD i default).precompute_hash_name
      else memihash (st.store.getD i default).name) =
      memihash (st.store.getD i default).name := by
    cases hset : (st.store.getD i default).precompute_hash_set with
    | false => rw [if_neg (by simp)]
    | true =>
      rw [if_pos rfl]
      exact wf_entry_hash_name hwfce hset
  have hside1 : NHSide (hie_mid st i) :=
    NHSide_st1 st i _ (NHSide_of_core hcore) hi hunh hveq
  have hshape1 : DirShape (hie_mid st i) :=
    ⟨hcore.shape.ids_nodup, hcore.shape.ids_lt, hcore.shape.names_nodup,
     hcore.shape.hash_ok⟩
  have hde := hde_spec ({ st.store.getD i default with ce_hashed := true }.name.length + 1)
    (hie_mid st i) { st.store.getD i default with ce_hashed := true }
    { st.store.getD i default with ce_hashed := true }.name.length p hshape1 hwf'
    (Nat.le_refl _) (Nat.lt_succ_self _)
  rw [add_dir_entry_fst]
  have hRdef : hash_dir_entry (hie_mid st i)
      { st.store.getD i default with ce_hashed := true }
      { st.store.getD i default with ce_hashed := true }.name.length p =
      hash_dir_entry_go ({ st.store.getD i default with ce_hashed := true }.name.length + 1)
        (hie_mid st i) { st.store.getD i default with ce_hashed := true }
        { st.store.getD i default with ce_hashed := true }.name.length p := rfl
  rw [hRdef]
  set R := hash_dir_entry_go
    ({ st.store.getD i default with ce_hashed := true }.name.length + 1)
    (hie_mid st i) { st.store.getD i default with ce_hashed := true }
    { st.store.getD i default with ce_hashed := true }.name.length p with hRs
  obtain ⟨hfs, hfc, hfn, hfi, hfnext, news, hrdh, hrfacts, hrids, hrfolds,
    hrchain, hrres⟩ := hde
  rcases hrres with ⟨hr1, hrnil, hr2, hrspan⟩ | ⟨dlen, hspan, hsub⟩
  · -- the entry has no parent directory: nothing happens
    rw [hr1, hr2, add_dir_refs_none]
    exact NHCore_true_intro hside1
      (DirSide_nospan st (hie_mid st i) i hdir hi hunh rfl rfl rfl hrspan)
  · rcases hsub with ⟨d0, hd0, hr1, hrnil, hr2, hfold⟩ | ⟨c0, cs, hcnews, hr1, hfoldc0⟩
    · -- the parent directory node already exists: bump it and stop
      rw [hr1, hr2]
      have hwalk : add_dir_refs ((hie_mid st i).dir_hash.length + 1) (hie_mid st i)
          (some d0.id) = bumpAll (hie_mid st i) [d0.id] :=
        add_walk [] (hie_mid st i) ((hie_mid st i).dir_hash.length + 1) (some d0.id) [d0.id]
          hshape1.ids_nodup (fun c hc => absurd hc (List.not_mem_nil c)) trivial
          (Or.inr ⟨d0, hd0, rfl, rfl, (hcore.nr_pos d0 hd0).ne'⟩)
          (by simp) (Nat.succ_pos _)
      rw [hwalk]
      exact NHCore_true_intro
        (NHSide_congr (hie_mid st i) (bumpAll (hie_mid st i) [d0.id]) rfl rfl rfl hside1)
        (DirSide_found st (hie_mid st i) i d0 hdir hi hunh rfl rfl rfl hspan hd0 hfold)
    · -- fresh chain created: every chain node is bumped to one, plus the hook
      subst hcnews
      rw [hr1]
      obtain ⟨tl, hL, hterm⟩ := chainOk_to_links (c0 :: cs) hrchain
      have hterm' : (tl = none ∧ ([] : List Nat) = []) ∨
          (∃ q ∈ st.dir_hash, tl = some q.id ∧ (match tl with
            | some x => [x]
            | none => ([] : List Nat)) = [q.id]) := by
        rcases hterm with rfl | ⟨q, hq, rfl⟩
        · exact Or.inl ⟨rfl, rfl⟩
        · exact Or.inr ⟨q, hq, rfl, rfl⟩
      rcases hterm with rfl | ⟨q, hq, rfl⟩
      · -- chain reaches the root: no hook
        have hwalk := add_walk (c0 :: cs) R.2 (R.2.dir_hash.length + 1) none []
          (by
            rw [hrdh, List.map_append, List.nodup_append]
            refine ⟨hshape1.ids_nodup, hrids, ?_⟩
            intro x hx hx'
            rcases List.mem_map.mp hx with ⟨d, hd, rfl⟩
            rcases List.mem_map.mp hx' with ⟨c, hc, he⟩
            have h1 := (hrfacts c hc).1
            have h2 := hcore.shape.ids_lt d hd
            have h3 : (hie_mid st i).dir_next_id = st.dir_next_id := rfl
            rw [he] at h1
            omega)
          (by
            intro c hc
            refine ⟨by rw [hrdh]; exact List.mem_append_right _ hc, (hrfacts c hc).2.2.1⟩)
          hL
          (Or.inl ⟨rfl, rfl⟩)
          (by simpa using hrids)
          (by
            have : R.2.dir_hash.length = (hie_mid st i).dir_hash.length + (c0 :: cs).length := by
              rw [hrdh, List.length_append]
            omega)
        have hwalk' : add_dir_refs (R.2.dir_hash.length + 1) R.2 (some c0.id) =
            bumpAll R.2 ((c0 :: cs).map dir_entry.id ++ []) := hwalk
        rw [hwalk']
        refine NHCore_true_intro (NHSide_congr (hie_mid st i)
          (bumpAll R.2 ((c0 :: cs).map dir_entry.id ++ [])) hfs hfc hfn hside1) ?_
        exact DirSide_create st (hie_mid st i) R.2 i (c0 :: cs) none [] hdir hi hunh rfl
          hfs hrdh hfnext hspan hrfacts hrids hrfolds hrchain hL
          (Or.inl ⟨rfl, rfl⟩) c0 cs rfl hfoldc0
      · -- chain hooks onto a pre-existing node
        have hwalk := add_walk (c0 :: cs) R.2 (R.2.dir_hash.length + 1) (some q.id) [q.id]
          (by
            rw [hrdh, List.map_append, List.nodup_append]
            refine ⟨hshape1.ids_nodup, hrids, ?_⟩
            intro x hx hx'
            rcases List.mem_map.mp hx with ⟨d, hd, rfl⟩
            rcases List.mem_map.mp hx' with ⟨c, hc, he⟩
            have h1 := (hrfacts c hc).1
            have h2 := hcore.shape.ids_lt d hd
            have h3 : (hie_mid st i).dir_next_id = st.dir_next_id := rfl
            rw [he] at h1
            omega)
          (by
            intro c hc
            refine ⟨by rw [hrdh]; exact List.mem_append_right _ hc, (hrfacts c hc).2.2.1⟩)
          hL
          (Or.inr ⟨q, by rw [hrdh]; exact List.mem_append_left _ hq, rfl, rfl,
            (hcore.nr_pos q hq).ne'⟩)
          (by
            rw [List.nodup_append]
            refine ⟨hrids, by simp, ?_⟩
            intro x hx hx'
            rcases List.mem_map.mp hx with ⟨c, hc, rfl⟩
            rw [List.mem_singleton] at hx'
            have h1 := (hrfacts c hc).1
            have h2 := hcore.shape.ids_lt q hq
            have h3 : (hie_mid st i).dir_next_id = st.dir_next_id := rfl
            rw [hx'] at h1
            omega)
          (by
            have : R.2.dir_hash.length = (hie_mid st i).dir_hash.length + (c0 :: cs).length := by
              rw [hrdh, List.length_append]
            omega)
        have hwalk' : add_dir_refs (R.2.dir_hash.length + 1) R.2 (some c0.id) =
            bumpAll R.2 ((c0 :: cs).map dir_entry.id ++ [q.id]) := hwalk
        rw [hwalk']
        refine NHCore_true_intro (NHSide_congr (hie_mid st i)
          (bumpAll R.2 ((c0 :: cs).map dir_entry.id ++ [q.id])) hfs hfc hfn hside1) ?_
        exact DirSide_create st (hie_mid st i) R.2 i (c0 :: cs) (some q.id) [q.id] hdir hi
          hunh rfl hfs hrdh hfnext hspan hrfacts hrids hrfolds hrchain hL
          (Or.inr ⟨q, hq, rfl, rfl⟩) c0 cs rfl hfoldc0

theorem NHCore_hie (ic : Bool) (st : index_state) (i : Nat) (p : Option Nat)
    (hcore : NHCore ic st) (hi : i < st.store.length) :
    NHCore ic (hash_index_entry ic st i p).1 := by
  by_cases hh : (st.store.getD i default).ce_hashed = true
  · rw [hie_eq_hashed ic st i p hh]
    exact hcore
  · have hh' : (st.store.getD i default).ce_hashed = false := by
      simpa using hh
    have hveq : (if (st.store.getD i default).precompute_hash_set = true
        then (st.store.getD i default).precompute_hash_name
        else memihash (st.store.getD i default).name) =
        memihash (st.store.getD i default).name := by
      cases hset : (st.store.getD i default).precompute_hash_set with
      | false => rw [if_neg (by simp)]
      | true =>
        rw [if_pos rfl]
        exact wf_entry_hash_name (storeWf_getD hcore.swf i) hset
    cases ic with
    | false =>
      rw [hie_eq_cs st i p hh']
      exact NHCore_false_intro
        (NHSide_st1 st i _ (NHSide_of_core hcore) hi hh' hveq)
        (hcore.dh_cs rfl)
    | true =>
      rw [hie_eq_ic st i p hh']
      exact NHCore_add_dir st i p hcore hi hh'

theorem remove_dir_refs_none : ∀ (fuel : Nat) (S : index_state),
    remove_dir_refs fuel S none = S := by
  intro fuel S
  cases fuel <;> rfl

theorem remove_dir_entry_fst (st : index_state) (ce : cache_entry) :
    remove_dir_entry st ce = remove_dir_refs
      ((hash_dir_entry st ce ce.name.length none).2.dir_hash.length + 1)
      (hash_dir_entry st ce ce.name.length none).2
      (hash_dir_entry st ce ce.name.length none).1 := rfl

theorem getD_mem_of_lt {α : Type} {l : List α} {i : Nat} (d : α) (h : i < l.length) :
    l.getD i d ∈ l := by
  rw [List.getD_eq_getElem?_getD, List.getElem?_eq_getElem h]
  exact List.getElem_mem h

theorem erase_pred_iff {c d : dir_entry} (hch : c.ent_hash = memihash c.name)
    (hdh : d.ent_hash = memihash d.name) :
    ((c.ent_hash == d.ent_hash && !dir_entry_cmp c d.name.length d.name) = true) ↔
      foldName c.name = foldName d.name := by
  simp only [Bool.and_eq_true, Bool.not_eq_true', dir_entry_cmp, Bool.or_eq_false_iff,
    bne_eq_false_iff_eq, beq_iff_eq]
  constructor
  · intro ⟨h1, h2, h3⟩
    rw [h2, List.take_length] at h3
    exact h3
  · intro hf
    have hlen : c.name.length = d.name.length := foldName_eq_length hf
    refine ⟨?_, hlen, ?_⟩
    · rw [hch, hdh]
      exact memihash_congr hf
    · rw [hlen, List.take_length]
      exact hf

theorem NHSide_rnh_mid (st : index_state) (i : Nat) (hside : NHSide st)
    (hi : i < st.store.length) :
    NHSide (rnh_mid st i) := by
  have hbase : st.name_hash.Nodup := List.Nodup.of_map _ hside.nh_nodup
  have huniq : ∀ a ∈ st.name_hash, ∀ b ∈ st.name_hash,
      (a.2 == i) = true → (b.2 == i) = true → a = b := by
    intro a ha b hb hpa hpb
    have h1 : a.2 = i := by simpa using hpa
    have h2 : b.2 = i := by simpa using hpb
    exact nodup_map_inj hside.nh_nodup a ha b hb (by rw [h1, h2])
  have herase : st.name_hash.eraseP (fun p => p.2 == i) =
      st.name_hash.filter (fun p => !(p.2 == i)) :=
    eraseP_eq_filter_of_unique _ _ huniq hbase
  refine ⟨?_, ?_, ?_, ?_, ?_⟩
  · intro e he
    rcases List.mem_or_eq_of_mem_set he with he' | rfl
    · exact hside.swf e he'
    · exact wf_entry_with_hashed (storeWf_getD hside.swf i) false
  · intro j hj
    show j < (st.store.set i _).length
    rw [List.length_set]
    exact hside.cache_lt j hj
  · intro p hp
    have hp2 : p ∈ st.name_hash.eraseP (fun q => q.2 == i) := hp
    rw [herase] at hp2
    have hp' := List.mem_filter.mp hp2
    have hpne : p.2 ≠ i := by simpa using hp'.2
    obtain ⟨h1, h2, h3⟩ := hside.nh_mem p hp'.1
    refine ⟨?_, ?_, ?_⟩
    · show p.2 < (st.store.set i { st.store.getD i default with ce_hashed := false }).length
      rw [List.length_set]
      exact h1
    · show p.1 = memihash ((st.store.set i
        { st.store.getD i default with ce_hashed := false }).getD p.2 default).name
      rw [getD_set_ne _ _ _ (fun he => hpne he.symm)]
      exact h2
    · show ((st.store.set i
        { st.store.getD i default with ce_hashed := false }).getD p.2 default).ce_hashed = true
      rw [getD_set_ne _ _ _ (fun he => hpne he.symm)]
      exact h3
  · show ((st.name_hash.eraseP (fun p => p.2 == i)).map Prod.snd).Nodup
    rw [herase]
    exact List.Nodup.sublist (List.Sublist.map _ (List.filter_sublist _)) hside.nh_nodup
  · intro j hj hh
    have hj2 : j < (st.store.set i
        { st.store.getD i default with ce_hashed := false }).length := hj
    rw [List.length_set] at hj2
    have hh2 : ((st.store.set i
        { st.store.getD i default with ce_hashed := false }).getD j default).ce_hashed
        = true := hh
    by_cases hji : j = i
    · subst hji
      rw [getD_set_self _ _ _ _ hi] at hh2
      cases hh2
    · rw [getD_set_ne _ _ _ (fun he => hji he.symm)] at hh2
      obtain ⟨p, hp, hpe⟩ := hside.nh_complete j hj2 hh2
      refine ⟨p, ?_, hpe⟩
      show p ∈ st.name_hash.eraseP (fun q => q.2 == i)
      rw [herase]
      exact List.mem_filter.mpr ⟨hp, by simp [hpe, hji]⟩

/-- The per-node function `decNr` maps over the table. -/
def decFun (xid : Nat) (d : dir_entry) : dir_entry :=
  if d.id == xid then { d with nr := d.nr - 1 } else d

theorem decNr_dh (T : index_state) (xid : Nat) :
    (decNr T xid).dir_hash = T.dir_hash.map (decFun xid) := rfl

theorem decFun_id (xid : Nat) (d : dir_entry) : (decFun xid d).id = d.id := by
  unfold decFun
  split <;> rfl

theorem decFun_name (xid : Nat) (d : dir_entry) : (decFun xid d).name = d.name := by
  unfold decFun
  split <;> rfl

theorem decFun_parent (xid : Nat) (d : dir_entry) : (decFun xid d).parent = d.parent := by
  unfold decFun
  split <;> rfl

theorem decFun_hash (xid : Nat) (d : dir_entry) : (decFun xid d).ent_hash = d.ent_hash := by
  unfold decFun
  split <;> rfl

theorem decFun_eq_self {xid : Nat} {d : dir_entry} (h : d.id ≠ xid) : decFun xid d = d := by
  unfold decFun
  rw [if_neg (by simpa using h)]

theorem map_id_decFun (l : List dir_entry) (xid : Nat) :
    (l.map (decFun xid)).map dir_entry.id = l.map dir_entry.id := by
  rw [List.map_map]
  apply List.map_congr_left
  intro d _
  simp [Function.comp, decFun_id]

theorem map_fold_decFun (l : List dir_entry) (xid : Nat) :
    (l.map (decFun xid)).map (fun d => foldName d.name) = l.map (fun d => foldName d.name) := by
  rw [List.map_map]
  apply List.map_congr_left
  intro d _
  simp [Function.comp, decFun_name]

theorem if_beq_true {b : Bool} (h : b = true) : (if b then (1 : Nat) else 0) = 1 := by
  rw [h]
  rfl

theorem if_beq_false {b : Bool} (h : b = false) : (if b then (1 : Nat) else 0) = 0 := by
  rw [h]
  rfl

/-- Splitting a list at the (unique) element `eraseP` removes. -/
theorem exists_of_eraseP_split {α : Type} {p : α → Bool} : ∀ {l : List α} {a : α},
    a ∈ l → p a = true →
    ∃ b l₁ l₂, (∀ x ∈ l₁, p x = false) ∧ p b = true ∧ l = l₁ ++ b :: l₂ ∧
      l.eraseP p = l₁ ++ l₂ := by
  intro l
  induction l with
  | nil => intro a ha _; cases ha
  | cons c t ih =>
    intro a ha hpa
    cases hc : p c with
    | true =>
      refine ⟨c, [], t, ?_, hc, rfl, ?_⟩
      · intro x hx
        cases hx
      · rw [List.eraseP_cons_of_pos hc]
        rfl
    | false =>
      have ha' : a ∈ t := by
        rcases List.mem_cons.mp ha with rfl | h
        · rw [hpa] at hc
          cases hc
        · exact h
      obtain ⟨b, l₁, l₂, h1, h2, h3, h4⟩ := ih ha' hpa
      refine ⟨b, c :: l₁, l₂, ?_, h2, ?_, ?_⟩
      · intro x hx
        rcases List.mem_cons.mp hx with rfl | hx'
        · exact hc
        · exact h1 x hx'
      · rw [h3]
        rfl
      · rw [List.eraseP_cons_of_neg (by simp [hc]), h4]
        rfl

/-- The reference-count bookkeeping mid-way through the removal walk:
either every count is exact (walk finished) or the current target holds
exactly one surplus reference. -/
def remTarget (T : index_state) : Option Nat → Prop
  | none => ∀ d ∈ T.dir_hash, d.nr = ((entryRefs T d + childRefs T d : Nat) : Int) ∧ 0 < d.nr
  | some xid => ∃ dx ∈ T.dir_hash, dx.id = xid ∧
      dx.nr = ((entryRefs T dx + childRefs T dx : Nat) : Int) + 1 ∧
      ∀ d ∈ T.dir_hash, d ≠ dx →
        d.nr = ((entryRefs T d + childRefs T d : Nat) : Int) ∧ 0 < d.nr

/-- Everything the removal walk preserves. -/
structure RemState (T : index_state) (x : Option Nat) : Prop where
  side : NHSide T
  shape : DirShape T
  parent_none : ∀ d ∈ T.dir_hash, dirSpanLen d.name d.name.length = none → d.parent = none
  parent_some : ∀ d ∈ T.dir_hash, ∀ s, dirSpanLen d.name d.name.length = some s →
    ∃ q ∈ T.dir_hash, d.parent = some q.id ∧ foldName q.name = foldName (d.name.take s)
  dh_complete : ∀ e ∈ T.store, e.ce_hashed = true →
    ∀ s, dirSpanLen e.name e.name.length = some s →
    ∃ d ∈ T.dir_hash, foldName d.name = foldName (e.name.take s)
  pend : remTarget T x

theorem rem_walk : ∀ (fuel : Nat) (T : index_state) (x : Option Nat),
    RemState T x → T.dir_hash.length < fuel →
    RemState (remove_dir_refs fuel T x) none := by
  intro fuel
  induction fuel with
  | zero =>
    intro T x _ hf
    omega
  | succ f ih =>
    intro T x hR hf
    cases x with
    | none =>
      rw [remove_dir_refs_none]
      exact hR
    | some xid =>
      obtain ⟨dx, hdx, hdxid, hdxnr, hothers⟩ := hR.pend
      have hfind : findId T xid = some dx := by
        rw [← hdxid]
        exact findId_of_mem hR.shape.ids_nodup hdx
      have hstep : remove_dir_refs (f + 1) T (some xid) =
          (if dx.nr - 1 == 0
           then remove_dir_refs f (eraseDirNode (decNr T xid) dx) dx.parent
           else decNr T xid) := by
        show (match findId T xid with
          | none => T
          | some d =>
            let st' := decNr T xid
            if d.nr - 1 == 0 then remove_dir_refs f (eraseDirNode st' d) d.parent
            else st') = _
        rw [hfind]
      rw [hstep]
      have hTid : ∀ a ∈ T.dir_hash, ∀ b ∈ T.dir_hash, a.id = b.id → a = b :=
        fun a ha b hb => nodup_map_inj hR.shape.ids_nodup a ha b hb
      have hTfold : ∀ a ∈ T.dir_hash, ∀ b ∈ T.dir_hash,
          foldName a.name = foldName b.name → a = b :=
        fun a ha b hb => nodup_map_inj hR.shape.names_nodup a ha b hb
      have hidxid : ∀ c ∈ T.dir_hash, c ≠ dx → c.id ≠ xid := by
        intro c hc hne he
        exact hne (hTid c hc dx hdx (by rw [he, hdxid]))
      have hdximg : decFun xid dx = { dx with nr := dx.nr - 1 } := by
        unfold decFun
        rw [if_pos (by simp [hdxid])]
      have hErefs : ∀ d : dir_entry, entryRefs (decNr T xid) d = entryRefs T d := fun d => rfl
      have hCrefs : ∀ d : dir_entry, childRefs (decNr T xid) d = childRefs T d := by
        intro d
        rw [childRefs_eq_of_dh (decNr_dh T xid), filter_length_map,
          childRefs_eq_of_dh (rfl : T.dir_hash = T.dir_hash)]
        congr 1
        apply List.filter_congr
        intro c _
        rw [decFun_parent]
      by_cases hz : dx.nr - 1 = 0
      · -- the count reaches zero: detach the node and continue with the parent
        rw [if_pos (by simp [hz])]
        have hrefs0 : entryRefs T dx = 0 ∧ childRefs T dx = 0 := by
          constructor <;> omega
        have hchild0 : ∀ c ∈ T.dir_hash, (c.parent == some dx.id) = false := by
          intro c hc
          cases hcp : (c.parent == some dx.id) with
          | false => rfl
          | true =>
            exfalso
            have : 0 < (T.dir_hash.filter (fun c => c.parent == some dx.id)).length :=
              filter_length_pos_of_mem hc hcp
            have : childRefs T dx =
                (T.dir_hash.filter (fun c => c.parent == some dx.id)).length := rfl
            omega
        have hentry0 : ∀ e ∈ T.store, entrySpanMatches dx e = false := by
          intro e he
          cases hse : entrySpanMatches dx e with
          | false => rfl
          | true =>
            exfalso
            have : 0 < (T.store.filter (entrySpanMatches dx)).length :=
              filter_length_pos_of_mem he hse
            have : entryRefs T dx = (T.store.filter (entrySpanMatches dx)).length := rfl
            omega
        -- identify the erased element
        have hdximem : ({ dx with nr := dx.nr - 1 } : dir_entry) ∈ (decNr T xid).dir_hash := by
          rw [decNr_dh, ← hdximg]
          exact List.mem_map_of_mem _ hdx
        have hhashok' : ∀ c ∈ (decNr T xid).dir_hash, c.ent_hash = memihash c.name := by
          intro c hc
          rw [decNr_dh] at hc
          rcases List.mem_map.mp hc with ⟨a, ha, rfl⟩
          rw [decFun_hash, decFun_name]
          exact hR.shape.hash_ok a ha
        have hfoldnodup' : ((decNr T xid).dir_hash.map (fun d => foldName d.name)).Nodup := by
          rw [decNr_dh, map_fold_decFun]
          exact hR.shape.names_nodup
        have hpredtrue : ((fun c => c.ent_hash == dx.ent_hash &&
            !dir_entry_cmp c dx.name.length dx.name) ({ dx with nr := dx.nr - 1 } : dir_entry))
            = true := by
          apply (erase_pred_iff ?_ ?_).mpr rfl
          · exact hR.shape.hash_ok dx hdx
          · exact hR.shape.hash_ok dx hdx
        obtain ⟨a, l₁, l₂, hl₁, hpa, hsplit, herase⟩ :=
          @exists_of_eraseP_split dir_entry
            (fun c => c.ent_hash == dx.ent_hash && !dir_entry_cmp c dx.name.length dx.name)
            (decNr T xid).dir_hash ({ dx with nr := dx.nr - 1 } : dir_entry)
            hdximem hpredtrue
        have haimg : a = ({ dx with nr := dx.nr - 1 } : dir_entry) := by
          have hamem : a ∈ (decNr T xid).dir_hash := by
            rw [hsplit]
            exact List.mem_append_right _ (List.mem_cons_self _ _)
          have hafold : foldName a.name = foldName dx.name :=
            (erase_pred_iff (hhashok' a hamem) (hR.shape.hash_ok dx hdx)).mp hpa
          exact nodup_map_inj hfoldnodup' a hamem _ hdximem hafold
        subst haimg
        have hT'dh : (eraseDirNode (decNr T xid) dx).dir_hash = l₁ ++ l₂ := herase
        have hbasenodup : (decNr T xid).dir_hash.Nodup := by
          apply List.Nodup.of_map dir_entry.id
          rw [decNr_dh, map_id_decFun]
          exact hR.shape.ids_nodup
        have hmidout : ({ dx with nr := dx.nr - 1 } : dir_entry) ∉ l₁ ++ l₂ := by
          rw [hsplit] at hbasenodup
          exact (List.nodup_cons.mp (List.nodup_middle.mp hbasenodup)).1
        have hTsub : ∀ d ∈ l₁ ++ l₂, d ∈ (decNr T xid).dir_hash := by
          intro d hd
          rw [hsplit]
          rcases List.mem_append.mp hd with hd' | hd'
          · exact List.mem_append_left _ hd'
          · exact List.mem_append_right _ (List.mem_cons_of_mem _ hd')
        have hmemT' : ∀ d ∈ l₁ ++ l₂, d ∈ T.dir_hash ∧ d ≠ dx := by
          intro d hd
          have hd2 : d ∈ (decNr T xid).dir_hash := hTsub d hd
          rw [decNr_dh] at hd2
          rcases List.mem_map.mp hd2 with ⟨c, hc, hceq⟩
          have hne : d ≠ ({ dx with nr := dx.nr - 1 } : dir_entry) :=
            fun he => hmidout (he ▸ hd)
          by_cases hcdx : c = dx
          · subst hcdx
            rw [hdximg] at hceq
            exact absurd hceq.symm hne
          · rw [decFun_eq_self (hidxid c hc hcdx)] at hceq
            subst hceq
            refine ⟨hc, hcdx⟩
        have hmemT'2 : ∀ c ∈ T.dir_hash, c ≠ dx → c ∈ l₁ ++ l₂ := by
          intro c hc hcdx
          have hcs : c ∈ (decNr T xid).dir_hash := by
            rw [decNr_dh, ← decFun_eq_self (hidxid c hc hcdx)]
            exact List.mem_map_of_mem _ hc
          rw [hsplit] at hcs
          rcases List.mem_append.mp hcs with h' | h'
          · exact List.mem_append_left _ h'
          · rcases List.mem_cons.mp h' with he | h''
            · exfalso
              apply hcdx
              apply hTid c hc dx hdx
              rw [he]
            · exact List.mem_append_right _ h''
        have hcount : ∀ p : dir_entry → Bool,
            ((l₁ ++ l₂).filter p).length +
              (if p ({ dx with nr := dx.nr - 1 } : dir_entry) then 1 else 0) =
            ((decNr T xid).dir_hash.filter p).length := by
          intro p
          rw [hsplit, filter_length_middle]
        have hcountT : ∀ d : dir_entry,
            ((decNr T xid).dir_hash.filter (fun c => c.parent == some d.id)).length =
            childRefs T d := by
          intro d
          rw [decNr_dh, filter_length_map]
          have : T.dir_hash.filter (fun a => (decFun xid a).parent == some d.id) =
              T.dir_hash.filter (fun a => a.parent == some d.id) :=
            List.filter_congr (fun a _ => by rw [decFun_parent])
          rw [this]
          rfl
        have hchildT' : ∀ d : dir_entry,
            childRefs (eraseDirNode (decNr T xid) dx) d +
              (if (dx.parent == some d.id) then 1 else 0) = childRefs T d := by
          intro d
          rw [childRefs_eq_of_dh hT'dh, ← hcountT d, ← hcount (fun c => c.parent == some d.id)]
        have hentryT' : ∀ d : dir_entry,
            entryRefs (eraseDirNode (decNr T xid) dx) d = entryRefs T d := fun d => rfl
        -- the shared RemState fields of the shrunk state
        have hsub : (l₁ ++ l₂).Sublist (l₁ ++ ({ dx with nr := dx.nr - 1 } : dir_entry) :: l₂) :=
          (List.sublist_cons_self _ _).append_left l₁
        have hshape' : DirShape (eraseDirNode (decNr T xid) dx) := by
          refine ⟨?_, ?_, ?_, ?_⟩
          · rw [hT'dh]
            refine List.Nodup.sublist (List.Sublist.map _ hsub) ?_
            rw [← hsplit, decNr_dh, map_id_decFun]
            exact hR.shape.ids_nodup
          · intro d hd
            rw [hT'dh] at hd
            obtain ⟨hdT, _⟩ := hmemT' d hd
            exact hR.shape.ids_lt d hdT
          · rw [hT'dh]
            refine List.Nodup.sublist (List.Sublist.map _ hsub) ?_
            rw [← hsplit]
            exact hfoldnodup'
          · intro d hd
            rw [hT'dh] at hd
            obtain ⟨hdT, _⟩ := hmemT' d hd
            exact hR.shape.hash_ok d hdT
        have hpn' : ∀ d ∈ (eraseDirNode (decNr T xid) dx).dir_hash,
            dirSpanLen d.name d.name.length = none → d.parent = none := by
          intro d hd hs
          rw [hT'dh] at hd
          obtain ⟨hdT, _⟩ := hmemT' d hd
          exact hR.parent_none d hdT hs
        have hps' : ∀ d ∈ (eraseDirNode (decNr T xid) dx).dir_hash, ∀ s,
            dirSpanLen d.name d.name.length = some s →
            ∃ q ∈ (eraseDirNode (decNr T xid) dx).dir_hash, d.parent = some q.id ∧
              foldName q.name = foldName (d.name.take s) := by
          intro d hd s hs
          rw [hT'dh] at hd
          obtain ⟨hdT, hddx⟩ := hmemT' d hd
          obtain ⟨q, hq, hp, hfq⟩ := hR.parent_some d hdT s hs
          have hqdx : q ≠ dx := by
            intro he
            subst he
            have : (d.parent == some q.id) = true := by simp [hp]
            rw [hchild0 d hdT] at this
            cases this
          refine ⟨q, ?_, hp, hfq⟩
          rw [hT'dh]
          exact hmemT'2 q hq hqdx
        have hdc' : ∀ e ∈ (eraseDirNode (decNr T xid) dx).store, e.ce_hashed = true →
            ∀ s, dirSpanLen e.name e.name.length = some s →
            ∃ d ∈ (eraseDirNode (decNr T xid) dx).dir_hash,
              foldName d.name = foldName (e.name.take s) := by
          intro e he hh s hs
          obtain ⟨d1, hd1, hf1⟩ := hR.dh_complete e he hh s hs
          have hd1dx : d1 ≠ dx := by
            intro heq
            subst heq
            have : entrySpanMatches d1 e = true := by
              rw [entrySpanMatches_some hh hs]
              simp [hf1.symm]
            rw [hentry0 e he] at this
            cases this
          refine ⟨d1, ?_, hf1⟩
          rw [hT'dh]
          exact hmemT'2 d1 hd1 hd1dx
        have hside' : NHSide (eraseDirNode (decNr T xid) dx) :=
          NHSide_congr T _ rfl rfl rfl hR.side
        have hlen' : (eraseDirNode (decNr T xid) dx).dir_hash.length < f := by
          have h1 : (decNr T xid).dir_hash.length = T.dir_hash.length := by
            rw [decNr_dh, List.length_map]
          have h2 : (l₁ ++ ({ dx with nr := dx.nr - 1 } : dir_entry) :: l₂).length =
              (l₁ ++ l₂).length + 1 := by
            rw [List.length_append, List.length_append, List.length_cons]
            omega
          have h3 : (eraseDirNode (decNr T xid) dx).dir_hash.length = (l₁ ++ l₂).length := by
            rw [hT'dh]
          rw [← hsplit] at h2
          omega
        -- pending propagation, by whether the removed node had a parent
        cases hsp : dirSpanLen dx.name dx.name.length with
        | none =>
          have hpnone : dx.parent = none := hR.parent_none dx hdx hsp
          refine ih (eraseDirNode (decNr T xid) dx) dx.parent
            ⟨hside', hshape', hpn', hps', hdc', ?_⟩ hlen'
          rw [hpnone]
          show ∀ d ∈ (eraseDirNode (decNr T xid) dx).dir_hash, _
          intro d hd
          rw [hT'dh] at hd
          obtain ⟨hdT, hddx⟩ := hmemT' d hd
          obtain ⟨hnr, hpos⟩ := hothers d hdT hddx
          have hcr := hchildT' d
          rw [hpnone,
            if_beq_false (rfl : ((none : Option Nat) == some d.id) = false)] at hcr
          have her := hentryT' d
          refine ⟨?_, hpos⟩
          rw [her]
          omega
        | some s =>
          obtain ⟨q, hq, hp, hfq⟩ := hR.parent_some dx hdx s hsp
          have hqdx : q ≠ dx := by
            intro he
            subst he
            have hqq : (q.parent == some q.id) = true := by simp [hp]
            rw [hchild0 q hdx] at hqq
            cases hqq
          have hqT' : q ∈ l₁ ++ l₂ := hmemT'2 q hq hqdx
          have hchildq : childRefs T q =
              childRefs (eraseDirNode (decNr T xid) dx) q + 1 := by
            have hcr := hchildT' q
            rw [hp, if_beq_true (by simp : ((some q.id : Option Nat) == some q.id) = true)]
              at hcr
            exact hcr.symm
          refine ih (eraseDirNode (decNr T xid) dx) dx.parent
            ⟨hside', hshape', hpn', hps', hdc', ?_⟩ hlen'
          rw [hp]
          show ∃ dq ∈ (eraseDirNode (decNr T xid) dx).dir_hash, dq.id = q.id ∧ _
          refine ⟨q, by rw [hT'dh]; exact hqT', rfl, ?_, ?_⟩
          · obtain ⟨hnr, _⟩ := hothers q hq hqdx
            rw [hentryT' q]
            have := hchildq
            omega
          · intro d hd hdq
            rw [hT'dh] at hd
            obtain ⟨hdT, hddx⟩ := hmemT' d hd
            obtain ⟨hnr, hpos⟩ := hothers d hdT hddx
            have hcr := hchildT' d
            rw [hp] at hcr
            have hdqid : q.id ≠ d.id := by
              intro he
              exact hdq (hTid d hdT q hq he.symm)
            have hbq : ((some q.id : Option Nat) == some d.id) = false :=
              beq_false_of_ne (fun h => hdqid (Option.some.inj h))
            rw [if_beq_false hbq] at hcr
            refine ⟨?_, hpos⟩
            rw [hentryT' d]
            omega
      · -- the count stays positive: stop after the decrement
        rw [if_neg (by simp [hz])]
        have hpend' : remTarget (decNr T xid) none := by
          show ∀ d ∈ (decNr T xid).dir_hash, _
          intro d hd
          rw [decNr_dh] at hd
          rcases List.mem_map.mp hd with ⟨c, hc, rfl⟩
          have hE : entryRefs (decNr T xid) (decFun xid c) = entryRefs T c := by
            rw [hErefs]
            exact entryRefs_fold_congr (by rw [decFun_name])
          have hC : childRefs (decNr T xid) (decFun xid c) = childRefs T c := by
            rw [hCrefs]
            exact childRefs_id_congr (decFun_id xid c)
          by_cases hcdx : c = dx
          · subst hcdx
            rw [hdximg]
            have hproj : ({ c with nr := c.nr - 1 } : dir_entry).nr = c.nr - 1 := rfl
            have hE2 : entryRefs (decNr T xid) ({ c with nr := c.nr - 1 } : dir_entry) =
                entryRefs T c := by
              rw [hErefs]
              exact entryRefs_fold_congr rfl
            have hC2 : childRefs (decNr T xid) ({ c with nr := c.nr - 1 } : dir_entry) =
                childRefs T c := by
              rw [hCrefs]
              exact childRefs_id_congr rfl
            rw [hproj, hE2, hC2]
            constructor <;> omega
          · rw [decFun_eq_self (hidxid c hc hcdx)]
            obtain ⟨hnr, hpos⟩ := hothers c hc hcdx
            rw [hErefs c, hCrefs c]
            exact ⟨hnr, hpos⟩
        refine ⟨NHSide_congr T _ rfl rfl rfl hR.side, ?_, ?_, ?_, ?_, hpend'⟩
        · refine ⟨?_, ?_, ?_, ?_⟩
          · rw [decNr_dh, map_id_decFun]
            exact hR.shape.ids_nodup
          · intro d hd
            rw [decNr_dh] at hd
            rcases List.mem_map.mp hd with ⟨c, hc, rfl⟩
            rw [decFun_id]
            exact hR.shape.ids_lt c hc
          · rw [decNr_dh, map_fold_decFun]
            exact hR.shape.names_nodup
          · intro d hd
            rw [decNr_dh] at hd
            rcases List.mem_map.mp hd with ⟨c, hc, rfl⟩
            rw [decFun_hash, decFun_name]
            exact hR.shape.hash_ok c hc
        · intro d hd hs
          rw [decNr_dh] at hd
          rcases List.mem_map.mp hd with ⟨c, hc, rfl⟩
          rw [decFun_name] at hs
          rw [decFun_parent]
          exact hR.parent_none c hc hs
        · intro d hd s hs
          rw [decNr_dh] at hd
          rcases List.mem_map.mp hd with ⟨c, hc, rfl⟩
          rw [decFun_name] at hs
          obtain ⟨q, hq, hp, hfq⟩ := hR.parent_some c hc s hs
          refine ⟨decFun xid q, ?_, ?_, ?_⟩
          · rw [decNr_dh]
            exact List.mem_map_of_mem _ hq
          · rw [decFun_parent, decFun_id]
            exact hp
          · rw [decFun_name, decFun_name]
            exact hfq
        · intro e he hh s hs
          obtain ⟨d1, hd1, hf1⟩ := hR.dh_complete e he hh s hs
          refine ⟨decFun xid d1, ?_, ?_⟩
          · rw [decNr_dh]
            exact List.mem_map_of_mem _ hd1
          · rw [decFun_name]
            exact hf1

theorem DirSide_rm_nospan (st st1 : index_state) (i : Nat)
    (hdir : DirSide st)
    (hi : i < st.store.length)
    (hst1s : st1.store = st.store.set i { st.store.getD i default with ce_hashed := false })
    (hst1d : st1.dir_hash = st.dir_hash)
    (hst1n : st1.dir_next_id = st.dir_next_id)
    (hspan : dirSpanLen (st.store.getD i default).name
      (st.store.getD i default).name.length = none) :
    DirSide st1 := by
  have hrefs : ∀ d : dir_entry, entryRefs st1 d = entryRefs st d := by
    intro d
    rw [entryRefs_eq_of_store hst1s, entryRefs_eq_of_store (rfl : st.store = st.store)]
    exact filter_length_set_ff _ _ _ _ _ hi (entrySpanMatches_none hspan)
      (entrySpanMatches_none hspan)
  refine ⟨⟨?_, ?_, ?_, ?_⟩, ?_, ?_, ?_, ?_, ?_⟩
  · rw [hst1d]; exact hdir.shape.ids_nodup
  · intro d hd
    rw [hst1d] at hd
    rw [hst1n]
    exact hdir.shape.ids_lt d hd
  · rw [hst1d]; exact hdir.shape.names_nodup
  · rw [hst1d]; exact hdir.shape.hash_ok
  · rw [hst1d]; exact hdir.parent_none
  · intro d hd s hs
    rw [hst1d] at hd
    obtain ⟨q, hq, hp, hf⟩ := hdir.parent_some d hd s hs
    exact ⟨q, by rw [hst1d]; exact hq, hp, hf⟩
  · intro d hd
    rw [hst1d] at hd
    rw [hrefs d, childRefs_congr_st hst1d d]
    exact hdir.nr_eq d hd
  · rw [hst1d]; exact hdir.nr_pos
  · intro e he hh s hs
    rw [hst1s] at he
    rcases List.mem_or_eq_of_mem_set he with he' | rfl
    · obtain ⟨d, hd, hf⟩ := hdir.dh_complete e he' hh s hs
      exact ⟨d, by rw [hst1d]; exact hd, hf⟩
    · cases hh

theorem NHCore_of_RemState {T : index_state} (h : RemState T none) : NHCore true T :=
  NHCore_true_intro h.side
    ⟨h.shape, h.parent_none, h.parent_some, (fun d hd => (h.pend d hd).1),
     (fun d hd => (h.pend d hd).2), h.dh_complete⟩

theorem NHCore_remove_dir (st : index_state) (i : Nat)
    (hcore : NHCore true st) (hi : i < st.store.length)
    (hh : (st.store.getD i default).ce_hashed = true) :
    NHCore true (remove_dir_entry (rnh_mid st i)
      { st.store.getD i default with ce_hashed := false }) := by
  have hdir : DirSide st := DirSide_of_core hcore
  have hwfce : wf_entry (st.store.getD i default) := storeWf_getD hcore.swf i
  have hwf'' : wf_entry { st.store.getD i default with ce_hashed := false } :=
    wf_entry_with_hashed hwfce false
  have hside1 : NHSide (rnh_mid st i) := NHSide_rnh_mid st i (NHSide_of_core hcore) hi
  have hshape1 : DirShape (rnh_mid st i) :=
    ⟨hcore.shape.ids_nodup, hcore.shape.ids_lt, hcore.shape.names_nodup,
     hcore.shape.hash_ok⟩
  have hde := hde_spec ({ st.store.getD i default with ce_hashed := false }.name.length + 1)
    (rnh_mid st i) { st.store.getD i default with ce_hashed := false }
    { st.store.getD i default with ce_hashed := false }.name.length none hshape1 hwf''
    (Nat.le_refl _) (Nat.lt_succ_self _)
  rw [remove_dir_entry_fst]
  have hRdef : hash_dir_entry (rnh_mid st i)
      { st.store.getD i default with ce_hashed := false }
      { st.store.getD i default with ce_hashed := false }.name.length none =
      hash_dir_entry_go ({ st.store.getD i default with ce_hashed := false }.name.length + 1)
        (rnh_mid st i) { st.store.getD i default with ce_hashed := false }
        { st.store.getD i default with ce_hashed := false }.name.length none := rfl
  rw [hRdef]
  set R := hash_dir_entry_go
    ({ st.store.getD i default with ce_hashed := false }.name.length + 1)
    (rnh_mid st i) { st.store.getD i default with ce_hashed := false }
    { st.store.getD i default with ce_hashed := false }.name.length none with hRs
  obtain ⟨hfs, hfc, hfn, hfi, hfnext, news, hrdh, hrfacts, hrids, hrfolds,
    hrchain, hrres⟩ := hde
  rcases hrres with ⟨hr1, hrnil, hr2, hrspan⟩ | ⟨dlen, hspan, hsub⟩
  · -- no parent directory: the walk does nothing
    rw [hr1, hr2, remove_dir_refs_none]
    exact NHCore_true_intro hside1
      (DirSide_rm_nospan st (rnh_mid st i) i hdir hi rfl rfl rfl hrspan)
  · have hcespan : dirSpanLen (st.store.getD i default).name
        (st.store.getD i default).name.length = some dlen := hspan
    rcases hsub with ⟨d0, hd0, hr1, hrnil, hr2, hfold⟩ | ⟨c0, cs, hcnews, hr1, hfoldc0⟩
    · -- the parent node exists: plain lookup, then the decrement walk
      rw [hr1, hr2]
      have hfold' : foldName d0.name =
          foldName ((st.store.getD i default).name.take dlen) := hfold
      have hmatch : entrySpanMatches d0 (st.store.getD i default) = true := by
        rw [entrySpanMatches_some hh hcespan, ← hfold']
        simp
      have hE1 : entryRefs (rnh_mid st i) d0 + 1 = entryRefs st d0 := by
        rw [@entryRefs_eq_of_store (rnh_mid st i) d0
            (st.store.set i { st.store.getD i default with ce_hashed := false }) rfl,
          @entryRefs_eq_of_store st d0 st.store rfl]
        exact filter_length_set_tf _ _ _ _ _ hi hmatch
          (entrySpanMatches_unhashed rfl)
      have hpend : remTarget (rnh_mid st i) (some d0.id) := by
        refine ⟨d0, hd0, rfl, ?_, ?_⟩
        · have hnr := hcore.nr_eq d0 hd0
          have hC : childRefs (rnh_mid st i) d0 = childRefs st d0 := rfl
          rw [hC]
          omega
        · intro d hd hddx
          have hnr := hcore.nr_eq d hd
          have hpos := hcore.nr_pos d hd
          have hC : childRefs (rnh_mid st i) d = childRefs st d := rfl
          have hne : foldName ((st.store.getD i default).name.take dlen) ≠
              foldName d.name := by
            intro he
            exact hddx (fold_inj_of_shape hcore.shape hd hd0 (by rw [← he, hfold']))
          have hE : entryRefs (rnh_mid st i) d = entryRefs st d := by
            rw [@entryRefs_eq_of_store (rnh_mid st i) d
                (st.store.set i { st.store.getD i default with ce_hashed := false }) rfl,
              @entryRefs_eq_of_store st d st.store rfl]
            refine filter_length_set_ff _ _ _ _ default hi ?_ (entrySpanMatches_unhashed rfl)
            rw [entrySpanMatches_some hh hcespan]
            exact beq_false_of_ne hne
          rw [hE, hC]
          exact ⟨hnr, hpos⟩
      have hRm : RemState (rnh_mid st i) (some d0.id) := by
        refine ⟨hside1, hshape1, hcore.parent_none, hcore.parent_some, ?_, hpend⟩
        intro e he hhe s hs
        have he' : e ∈ st.store.set i
            { st.store.getD i default with ce_hashed := false } := he
        rcases List.mem_or_eq_of_mem_set he' with he'' | rfl
        · exact hcore.dh_complete rfl e he'' hhe s hs
        · cases hhe
      exact NHCore_of_RemState
        (rem_walk ((rnh_mid st i).dir_hash.length + 1) (rnh_mid st i) (some d0.id) hRm
          (Nat.lt_succ_self _))
    · -- creation is impossible: the indexed entry guarantees the node exists
      exfalso
      obtain ⟨d1, hd1, hf1⟩ := hcore.dh_complete rfl (st.store.getD i default)
        (getD_mem_of_lt default hi) hh dlen hcespan
      have hc0 : c0 ∈ news := by rw [hcnews]; exact List.mem_cons_self _ _
      exact (hrfacts c0 hc0).2.2.2.2.1 d1 hd1 (by rw [hfoldc0, ← hf1])

theorem NHCore_rnh (ic : Bool) (st : index_state) (i : Nat)
    (hcore : NHCore ic st) (hi : i < st.store.length) :
    NHCore ic (remove_name_hash ic st i) := by
  cases hguard : (!st.name_hash_initialized || !(st.store.getD i default).ce_hashed) with
  | true =>
    rw [remove_guard_noop ic st i hguard]
    exact hcore
  | false =>
    have hh : (st.store.getD i default).ce_hashed = true := by
      simp only [Bool.or_eq_false_iff, Bool.not_eq_false'] at hguard
      exact hguard.2
    cases ic with
    | false =>
      rw [rnh_eq_cs st i hguard]
      exact NHCore_false_intro (NHSide_rnh_mid st i (NHSide_of_core hcore) hi)
        (hcore.dh_cs rfl)
    | true =>
      rw [rnh_eq_ic st i hguard]
      exact NHCore_remove_dir st i hcore hi hh

theorem filter_length_set_eq {α : Type} (p : α → Bool) (l : List α) (i : Nat) (e' d : α)
    (hi : i < l.length) (h : p e' = p (l.getD i d)) :
    ((l.set i e').filter p).length = (l.filter p).length := by
  have hx := filter_length_set_exact p l i e' d hi
  rw [h] at hx
  omega

theorem entrySpanMatches_pre (d : dir_entry) (e : cache_entry) :
    entrySpanMatches d (precompute_istate_hashes e) = entrySpanMatches d e := by
  unfold entrySpanMatches
  rw [precompute_name, precompute_hashed]

theorem NHCore_congr (ic : Bool) (st1 st2 : index_state) (hs : st2.store = st1.store)
    (hc : st2.cache = st1.cache) (hn : st2.name_hash = st1.name_hash)
    (hd : st2.dir_hash = st1.dir_hash) (hnx : st2.dir_next_id = st1.dir_next_id)
    (h : NHCore ic st1) : NHCore ic st2 := by
  refine ⟨?_, ?_, ?_, ?_, ?_, ?_, ⟨?_, ?_, ?_, ?_⟩, ?_, ?_, ?_, ?_, ?_⟩
  · intro e he
    rw [hs] at he
    exact h.swf e he
  · rw [hs, hc]; exact h.cache_lt
  · rw [hs, hn]; exact h.nh_mem
  · rw [hn]; exact h.nh_nodup
  · rw [hs, hn]; exact h.nh_complete
  · rw [hd]; exact h.dh_cs
  · rw [hd]; exact h.shape.ids_nodup
  · intro d hd'
    rw [hd] at hd'
    rw [hnx]
    exact h.shape.ids_lt d hd'
  · rw [hd]; exact h.shape.names_nodup
  · rw [hd]; exact h.shape.hash_ok
  · rw [hd]; exact h.parent_none
  · intro d hd' s hsp
    rw [hd] at hd'
    obtain ⟨q, hq, hp, hf⟩ := h.parent_some d hd' s hsp
    exact ⟨q, by rw [hd]; exact hq, hp, hf⟩
  · intro d hd'
    rw [hd] at hd'
    rw [entryRefs_congr_st hs d, childRefs_congr_st hd d]
    exact h.nr_eq d hd'
  · rw [hd]; exact h.nr_pos
  · intro hic e he hh s hsp
    rw [hs] at he
    obtain ⟨d, hd', hf⟩ := h.dh_complete hic e he hh s hsp
    exact ⟨d, by rw [hd]; exact hd', hf⟩

theorem NHCore_pre (ic : Bool) (st : index_state) (i : Nat) (h : NHCore ic st) :
    NHCore ic (precompute_at st i) := by
  by_cases hi : i < st.store.length
  · have hpname : (precompute_istate_hashes (st.store.getD i default)).name =
        (st.store.getD i default).name := precompute_name _
    have hphash : (precompute_istate_hashes (st.store.getD i default)).ce_hashed =
        (st.store.getD i default).ce_hashed := precompute_hashed _
    refine ⟨?_, ?_, ?_, ?_, ?_, ?_, ⟨?_, ?_, ?_, ?_⟩, ?_, ?_, ?_, ?_, ?_⟩
    · exact storeWf_pre i h.swf
    · intro j hj
      show j < (st.store.set i _).length
      rw [List.length_set]
      exact h.cache_lt j hj
    · intro p hp
      obtain ⟨h1, h2, h3⟩ := h.nh_mem p hp
      by_cases hpi : p.2 = i
      · subst hpi
        refine ⟨by show p.2 < (st.store.set p.2 _).length; rw [List.length_set]; exact h1,
          ?_, ?_⟩
        · show p.1 = memihash ((st.store.set p.2 _).getD p.2 default).name
          rw [getD_set_self _ _ _ _ hi, hpname]
          exact h2
        · show ((st.store.set p.2 _).getD p.2 default).ce_hashed = true
          rw [getD_set_self _ _ _ _ hi, hphash]
          exact h3
      · refine ⟨by show p.2 < (st.store.set i _).length; rw [List.length_set]; exact h1,
          ?_, ?_⟩
        · show p.1 = memihash ((st.store.set i _).getD p.2 default).name
          rw [getD_set_ne _ _ _ (fun he => hpi he.symm)]
          exact h2
        · show ((st.store.set i _).getD p.2 default).ce_hashed = true
          rw [getD_set_ne _ _ _ (fun he => hpi he.symm)]
          exact h3
    · exact h.nh_nodup
    · intro j hj hh
      have hj2 : j < (st.store.set i
          (precompute_istate_hashes (st.store.getD i default))).length := hj
      rw [List.length_set] at hj2
      have hh2 : ((st.store.set i
          (precompute_istate_hashes (st.store.getD i default))).getD j default).ce_hashed
          = true := hh
      by_cases hji : j = i
      · subst hji
        rw [getD_set_self _ _ _ _ hi, hphash] at hh2
        exact h.nh_complete j hj2 hh2
      · rw [getD_set_ne _ _ _ (fun he => hji he.symm)] at hh2
        exact h.nh_complete j hj2 hh2
    · exact h.dh_cs
    · exact h.shape.ids_nodup
    · exact h.shape.ids_lt
    · exact h.shape.names_nodup
    · exact h.shape.hash_ok
    · exact h.parent_none
    · exact h.parent_some
    · intro d hd
      have he : entryRefs (precompute_at st i) d = entryRefs st d := by
        rw [@entryRefs_eq_of_store (precompute_at st i) d
            (st.store.set i (precompute_istate_hashes (st.store.getD i default))) rfl,
          @entryRefs_eq_of_store st d st.store rfl]
        exact filter_length_set_eq _ _ _ _ default hi (entrySpanMatches_pre d _)
      rw [he]
      exact h.nr_eq d hd
    · exact h.nr_pos
    · intro hic e he hh s hsp
      have he2 : e ∈ st.store.set i
          (precompute_istate_hashes (st.store.getD i default)) := he
      rcases List.mem_or_eq_of_mem_set he2 with he' | rfl
      · exact h.dh_complete hic e he' hh s hsp
      · rw [precompute_hashed] at hh
        obtain ⟨d, hd, hf⟩ := h.dh_complete hic (st.store.getD i default)
          (getD_mem_of_lt default hi) hh s (by
            rw [precompute_name] at hsp
            exact hsp)
        refine ⟨d, hd, ?_⟩
        rw [precompute_name]
        exact hf
  · have hset : st.store.set i (precompute_istate_hashes (st.store.getD i default)) =
        st.store := list_set_of_length_le _ (by omega)
    exact NHCore_congr ic st (precompute_at st i) hset rfl rfl rfl rfl h

theorem NHCore_alloc (ic : Bool) (st : index_state) (ce : cache_entry)
    (h : NHCore ic st) (hch : ce.ce_hashed = false) (hwf : wf_entry ce) :
    NHCore ic { st with store := st.store ++ [ce] } := by
  refine ⟨?_, ?_, ?_, ?_, ?_, ?_, ⟨?_, ?_, ?_, ?_⟩, ?_, ?_, ?_, ?_, ?_⟩
  · intro e he
    rcases List.mem_append.mp he with he' | he'
    · exact h.swf e he'
    · rw [List.mem_singleton] at he'
      subst he'
      exact hwf
  · intro j hj
    show j < (st.store ++ [ce]).length
    rw [List.length_append]
    have := h.cache_lt j hj
    omega
  · intro p hp
    obtain ⟨h1, h2, h3⟩ := h.nh_mem p hp
    refine ⟨?_, ?_, ?_⟩
    · show p.2 < (st.store ++ [ce]).length
      rw [List.length_append]
      omega
    · show p.1 = memihash ((st.store ++ [ce]).getD p.2 default).name
      rw [getD_append_left _ _ _ _ h1]
      exact h2
    · show ((st.store ++ [ce]).getD p.2 default).ce_hashed = true
      rw [getD_append_left _ _ _ _ h1]
      exact h3
  · exact h.nh_nodup
  · intro j hj hh
    have hj2 : j < (st.store ++ [ce]).length := hj
    rw [List.length_append] at hj2
    have hh2 : ((st.store ++ [ce]).getD j default).ce_hashed = true := hh
    by_cases hjl : j < st.store.length
    · rw [getD_append_left _ _ _ _ hjl] at hh2
      exact h.nh_complete j hjl hh2
    · have hl1 : ([ce] : List cache_entry).length = 1 := rfl
      have hje : j = st.store.length := by omega
      subst hje
      rw [getD_append_full] at hh2
      rw [hch] at hh2
      cases hh2
  · exact h.dh_cs
  · exact h.shape.ids_nodup
  · exact h.shape.ids_lt
  · exact h.shape.names_nodup
  · exact h.shape.hash_ok
  · exact h.parent_none
  · exact h.parent_some
  · intro d hd
    have he : entryRefs { st with store := st.store ++ [ce] } d = entryRefs st d := by
      rw [@entryRefs_eq_of_store { st with store := st.store ++ [ce] } d
          (st.store ++ [ce]) rfl, @entryRefs_eq_of_store st d st.store rfl,
        filter_length_append]
      rw [List.filter_cons_of_neg (by simp [entrySpanMatches_unhashed hch])]
      simp
    rw [he]
    exact h.nr_eq d hd
  · exact h.nr_pos
  · intro hic e he hh s hsp
    rcases List.mem_append.mp he with he' | he'
    · exact h.dh_complete hic e he' hh s hsp
    · rw [List.mem_singleton] at he'
      subst he'
      rw [hch] at hh
      cases hh

theorem NHCore_empty (ic : Bool) (st : index_state) (hswf : storeWf st)
    (hcl : ∀ i ∈ st.cache, i < st.store.length) (hnh : st.name_hash = [])
    (hdh : st.dir_hash = []) (hunh : ∀ e ∈ st.store, e.ce_hashed = false) :
    NHCore ic st := by
  refine ⟨hswf, hcl, ?_, ?_, ?_, fun _ => hdh, DirShape_empty hdh, ?_, ?_, ?_, ?_, ?_⟩
  · intro p hp
    rw [hnh] at hp
    cases hp
  · rw [hnh]
    simp
  · intro j hj hh
    have := hunh (st.store.getD j default) (getD_mem_of_lt default hj)
    rw [this] at hh
    cases hh
  · intro d hd
    rw [hdh] at hd
    cases hd
  · intro d hd
    rw [hdh] at hd
    cases hd
  · intro d hd
    rw [hdh] at hd
    cases hd
  · intro d hd
    rw [hdh] at hd
    cases hd
  · intro _ e he hh _ _
    have := hunh e he
    rw [this] at hh
    cases hh

theorem NHInv_start (ic : Bool) (st : index_state) (h0 : init0 st) : NHInv ic st := by
  obtain ⟨hnh, hdh, hflag, hent, hcl⟩ := h0
  refine ⟨NHCore_empty ic st (fun e he => (hent e he).2) hcl hnh hdh
    (fun e he => (hent e he).1), ?_⟩
  intro _
  exact ⟨hnh, hdh, fun e he => (hent e he).1⟩

theorem hie_init_flag (ic : Bool) (st : index_state) (i : Nat) (p : Option Nat) :
    (hash_index_entry ic st i p).1.name_hash_initialized = st.name_hash_initialized := by
  by_cases hh : (st.store.getD i default).ce_hashed = true
  · rw [hie_eq_hashed ic st i p hh]
  · have hh' : (st.store.getD i default).ce_hashed = false := by simpa using hh
    cases ic with
    | false =>
      rw [hie_eq_cs st i p hh']
      rfl
    | true =>
      rw [hie_eq_ic st i p hh']
      exact (add_dir_entry_frame _ _ _).2.2.2

theorem NHCore_foldl (ic : Bool) : ∀ (l : List Nat) (acc : index_state × Option Nat),
    NHCore ic acc.1 → (∀ j ∈ l, j < acc.1.store.length) →
    NHCore ic (l.foldl (fun a i => hash_index_entry ic a.1 i a.2) acc).1 := by
  intro l
  induction l with
  | nil => intro acc h _; exact h
  | cons j t ih =>
    intro acc h hlt
    simp only [List.foldl_cons]
    refine ih _ (NHCore_hie ic acc.1 j acc.2 h (hlt j (List.mem_cons_self _ _))) ?_
    intro k hk
    rw [hie_store_length]
    exact hlt k (List.mem_cons_of_mem _ hk)

theorem foldl_hie_init_flag (ic : Bool) : ∀ (l : List Nat) (acc : index_state × Option Nat),
    (l.foldl (fun a i => hash_index_entry ic a.1 i a.2) acc).1.name_hash_initialized =
      acc.1.name_hash_initialized := by
  intro l
  induction l with
  | nil => intro acc; rfl
  | cons j t ih =>
    intro acc
    simp only [List.foldl_cons]
    rw [ih]
    exact hie_init_flag ic acc.1 j acc.2

theorem lazy_eq_of_uninit (ic : Bool) (st : index_state)
    (h : st.name_hash_initialized = false) :
    lazy_init_name_hash ic st =
      { (st.cache.foldl (fun acc i => hash_index_entry ic acc.1 i acc.2)
          ({ st with name_hash := [], dir_hash := [], dir_next_id := 0 },
            (none : Option Nat))).1 with name_hash_initialized := true } := by
  simp only [lazy_init_name_hash, h, Bool.false_eq_true, if_false]

theorem NHInv_lazy (ic : Bool) (st : index_state) (hinv : NHInv ic st) :
    NHInv ic (lazy_init_name_hash ic st) := by
  cases hflag : st.name_hash_initialized with
  | true =>
    rw [lazy_noop ic hflag]
    exact hinv
  | false =>
    obtain ⟨hnh, hdh, hunh⟩ := hinv.uninit hflag
    rw [lazy_eq_of_uninit ic st hflag]
    have hcore0 : NHCore ic { st with name_hash := [], dir_hash := [], dir_next_id := 0 } := by
      refine NHCore_empty ic _ ?_ ?_ rfl rfl ?_
      · intro e he
        exact hinv.core.swf e he
      · intro j hj
        exact hinv.core.cache_lt j hj
      · intro e he
        exact hunh e he
    have hcoref := NHCore_foldl ic st.cache
      ({ st with name_hash := [], dir_hash := [], dir_next_id := 0 }, (none : Option Nat))
      hcore0 (fun j hj => hinv.core.cache_lt j hj)
    refine ⟨NHCore_congr ic
      (st.cache.foldl (fun acc i => hash_index_entry ic acc.1 i acc.2)
        ({ st with name_hash := [], dir_hash := [], dir_next_id := 0 },
          (none : Option Nat))).1
      _ rfl rfl rfl rfl rfl hcoref, ?_⟩
    intro hcontra
    cases hcontra

theorem add_flag (ic : Bool) (st : index_state) (i : Nat) :
    (add_name_hash ic st i).name_hash_initialized = st.name_hash_initialized := by
  unfold add_name_hash
  split
  · exact hie_init_flag ic st i none
  · rfl

theorem remove_flag (ic : Bool) (st : index_state) (i : Nat) :
    (remove_name_hash ic st i).name_hash_initialized = st.name_hash_initialized := by
  cases hguard : (!st.name_hash_initialized || !(st.store.getD i default).ce_hashed) with
  | true => rw [remove_guard_noop ic st i hguard]
  | false =>
    cases ic with
    | false =>
      rw [rnh_eq_cs st i hguard]
      rfl
    | true =>
      rw [rnh_eq_ic st i hguard]
      exact (remove_dir_entry_frame _ _).2.2.2

theorem Reachable_NHInv {ic : Bool} {st : index_state} (h : Reachable ic st) :
    NHInv ic st := by
  induction h with
  | start st h0 => exact NHInv_start ic st h0
  | stepInit st _ ih => exact NHInv_lazy ic st ih
  | stepAdd st i _ hi ih =>
    refine ⟨?_, ?_⟩
    · unfold add_name_hash
      split
      · exact NHCore_hie ic st i none ih.core hi
      · exact ih.core
    · intro hflag
      rw [add_flag] at hflag
      obtain ⟨h1, h2, h3⟩ := ih.uninit hflag
      rw [add_name_eq_uninit ic st i hflag]
      exact ⟨h1, h2, h3⟩
  | stepRemove st i _ hi ih =>
    refine ⟨NHCore_rnh ic st i ih.core hi, ?_⟩
    intro hflag
    rw [remove_flag] at hflag
    obtain ⟨h1, h2, h3⟩ := ih.uninit hflag
    have hguard : (!st.name_hash_initialized || !(st.store.getD i default).ce_hashed)
        = true := by
      rw [hflag]
      rfl
    rw [remove_guard_noop ic st i hguard]
    exact ⟨h1, h2, h3⟩
  | stepPre st i _ ih =>
    refine ⟨NHCore_pre ic st i ih.core, ?_⟩
    intro hflag
    have hflag' : st.name_hash_initialized = false := hflag
    obtain ⟨h1, h2, h3⟩ := ih.uninit hflag'
    refine ⟨h1, h2, ?_⟩
    intro e he
    have he2 : e ∈ st.store.set i (precompute_istate_hashes (st.store.getD i default)) := he
    rcases List.mem_or_eq_of_mem_set he2 with he' | rfl
    · exact h3 e he'
    · rw [precompute_hashed]
      by_cases hi : i < st.store.length
      · exact h3 _ (getD_mem_of_lt default hi)
      · show (st.store.getD i default).ce_hashed = false
        rw [List.getD_eq_getElem?_getD, List.getElem?_eq_none (by omega)]
        rfl
  | stepAlloc st ce _ hch hwf ih =>
    refine ⟨NHCore_alloc ic st ce ih.core hch hwf, ?_⟩
    intro hflag
    have hflag' : st.name_hash_initialized = false := hflag
    obtain ⟨h1, h2, h3⟩ := ih.uninit hflag'
    refine ⟨h1, h2, ?_⟩
    intro e he
    rcases List.mem_append.mp he with he' | he'
    · exact h3 e he'
    · rw [List.mem_singleton] at he'
      subst he'
      exact hch

/-- Example state for C7: the lazy build over a single two-component
path, under `ignore_case`. -/
def exC7 : index_state := lazy_init_name_hash true (mkState ["a/b"])

/-- C7: after every completed public index operation (any sequence of
lazy builds, adds, removes, precompute passes and allocations from a
valid start), every directory node present in `dir_hash` has a strictly
positive reference count; consequently membership in the table coincides
with having a strictly positive count. -/
theorem C7_positive_refcount (ic : Bool) (st : index_state) (h : Reachable ic st) :
    (∀ d ∈ st.dir_hash, 0 < d.nr) ∧
    (∀ d, d ∈ st.dir_hash ↔ (d ∈ st.dir_hash ∧ 0 < d.nr)) := by
  have hpos := (Reachable_NHInv h).core.nr_pos
  refine ⟨hpos, ?_⟩
  intro d
  constructor
  · intro hd
    exact ⟨hd, hpos d hd⟩
  · intro hd
    exact hd.1

/-- Witness for C7 at a concrete reachable state. -/
theorem C7_positive_refcount_witness :
    (∀ d ∈ exC7.dir_hash, 0 < d.nr) ∧
    (∀ d, d ∈ exC7.dir_hash ↔ (d ∈ exC7.dir_hash ∧ 0 < d.nr)) :=
  C7_positive_refcount true exC7
    (Reachable.stepInit _ (Reachable.start _ (by decide)))

/-- Example state for C6. -/
def exC6 : index_state := lazy_init_name_hash true (mkState ["d/e"])

/-- C6: when the entry's parent directory is present in the table (as it
is for every indexed entry), `remove_dir_entry` resolves it by a plain
lookup that leaves the state unchanged — no node is created — and the
rest of the operation is exactly the upward decrement walk
(`remove_dir_refs`, the loop that decrements, and detaches and frees a
node exactly when its count reaches zero, continuing with its parent)
started at that node. -/
theorem C6_remove_plain_lookup (st : index_state) (ce : cache_entry) (dlen : Nat)
    (hshape : DirShape st) (hwf : wf_entry ce)
    (hspan : dirSpanLen ce.name ce.name.length = some dlen)
    (hex : ∃ d0 ∈ st.dir_hash, foldName d0.name = foldName (ce.name.take dlen)) :
    ∃ d ∈ st.dir_hash, foldName d.name = foldName (ce.name.take dlen) ∧
      hash_dir_entry st ce ce.name.length none = (some d.id, st) ∧
      remove_dir_entry st ce = remove_dir_refs (st.dir_hash.length + 1) st (some d.id) := by
  obtain ⟨d0x, hd0x, hf0x⟩ := hex
  have hde := hde_spec (ce.name.length + 1) st ce ce.name.length none hshape hwf
    (Nat.le_refl _) (Nat.lt_succ_self _)
  obtain ⟨hfs, hfc, hfn, hfi, hfnext, news, hrdh, hrfacts, hrids, hrfolds,
    hrchain, hrres⟩ := hde
  rcases hrres with ⟨hr1, hrnil, hr2, hrspan⟩ | ⟨dlen2, hspan2, hsub⟩
  · rw [hspan] at hrspan
    cases hrspan
  · have hdd : dlen2 = dlen := by
      rw [hspan] at hspan2
      exact (Option.some.inj hspan2).symm
    subst hdd
    rcases hsub with ⟨d0, hd0, hr1, hrnil, hr2, hfold⟩ | ⟨c0, cs, hcnews, hr1, hfoldc0⟩
    · have hpair : hash_dir_entry st ce ce.name.length none = (some d0.id, st) :=
        Prod.ext_iff.mpr ⟨hr1, hr2⟩
      refine ⟨d0, hd0, hfold, hpair, ?_⟩
      rw [remove_dir_entry_fst, hpair]
    · exfalso
      have hc0 : c0 ∈ news := by rw [hcnews]; exact List.mem_cons_self _ _
      exact (hrfacts c0 hc0).2.2.2.2.1 d0x hd0x (by rw [hfoldc0, ← hf0x])

/-- Witness for C6 at a concrete state and entry. -/
theorem C6_remove_plain_lookup_witness :
    ∃ d ∈ exC6.dir_hash, foldName d.name = foldName ((mkEntry "d/e").name.take 1) ∧
      hash_dir_entry exC6 (mkEntry "d/e") (mkEntry "d/e").name.length none =
        (some d.id, exC6) ∧
      remove_dir_entry exC6 (mkEntry "d/e") =
        remove_dir_refs (exC6.dir_hash.length + 1) exC6 (some d.id) :=
  C6_remove_plain_lookup exC6 (mkEntry "d/e") 1
    ⟨by decide, by decide, by decide, by decide⟩ (by decide) (by decide) (by decide)

theorem le_foldr_max : ∀ (l : List Nat) (x : Nat), x ∈ l → x ≤ l.foldr max 0 := by
  intro l
  induction l with
  | nil => intro x hx; cases hx
  | cons c t ih =>
    intro x hx
    rcases List.mem_cons.mp hx with rfl | hx'
    · exact Nat.le_max_left _ _
    · exact Nat.le_trans (ih x hx') (Nat.le_max_right _ _)

theorem sep_transfer {a b : List Nat} (h : foldName a = foldName b) (j : Nat) :
    is_dir_sep (a.getD j 0) = is_dir_sep (b.getD j 0) := by
  rw [← foldName_sep a j, ← foldName_sep b j, h]

theorem fold_prefix_congr {a b : List Nat} (h : foldName a = foldName b) (j : Nat) :
    foldName (a.take j) = foldName (b.take j) := by
  rw [foldName_take, foldName_take, h]

theorem isProperAncestorDir_congr {a b p : List Nat} (h : foldName a = foldName b) :
    isProperAncestorDir a p ↔ isProperAncestorDir b p := by
  unfold isProperAncestorDir
  constructor
  · rintro ⟨j, h1, h2, h3⟩
    exact ⟨j, h1, h2, by rw [h3, h]⟩
  · rintro ⟨j, h1, h2, h3⟩
    exact ⟨j, h1, h2, by rw [h3, h]⟩

theorem dh_sound {st : index_state} (hcore : NHCore true st) :
    ∀ (k : Nat) (d : dir_entry), d ∈ st.dir_hash →
    (st.dir_hash.map (fun c => c.name.length)).foldr max 0 ≤ k + d.name.length →
    ∃ i, i < st.store.length ∧ (st.store.getD i default).ce_hashed = true ∧
      isProperAncestorDir d.name (st.store.getD i default).name := by
  intro k
  induction k using Nat.strong_induction_on with
  | _ k ih =>
    intro d hd hB
    have hnr := hcore.nr_pos d hd
    have hin := hcore.nr_eq d hd
    have hEC : 0 < entryRefs st d + childRefs st d := by omega
    by_cases hE : 0 < entryRefs st d
    · -- some indexed entry supports this node directly
      have hne : st.store.filter (entrySpanMatches d) ≠ [] := by
        intro he
        have : entryRefs st d = 0 := by
          unfold entryRefs
          rw [he]
          rfl
        omega
      obtain ⟨e, hef⟩ := List.exists_mem_of_ne_nil _ hne
      have hef' := List.mem_filter.mp hef
      obtain ⟨i, hi, hie⟩ := List.getElem_of_mem hef'.1
      have hgetd : st.store.getD i default = e := by
        rw [List.getD_eq_getElem?_getD, List.getElem?_eq_getElem hi]
        exact hie
      have hpred := hef'.2
      unfold entrySpanMatches at hpred
      rw [Bool.and_eq_true] at hpred
      obtain ⟨hh, hmatch⟩ := hpred
      cases hsp : dirSpanLen e.name e.name.length with
      | none =>
        rw [hsp] at hmatch
        cases hmatch
      | some s =>
        rw [hsp] at hmatch
        have hfold : foldName (e.name.take s) = foldName d.name := by
          simpa using hmatch
        refine ⟨i, hi, by rw [hgetd]; exact hh, ?_⟩
        rw [hgetd]
        exact ⟨s, dirSpanLen_lt hsp, dirSpanLen_sep hsp, hfold⟩
    · -- some child supports it; recurse into the child
      have hC : 0 < childRefs st d := by omega
      have hne : st.dir_hash.filter (fun c => c.parent == some d.id) ≠ [] := by
        intro he
        have : childRefs st d = 0 := by
          unfold childRefs
          rw [he]
          rfl
        omega
      obtain ⟨c, hcf⟩ := List.exists_mem_of_ne_nil _ hne
      have hcf' := List.mem_filter.mp hcf
      have hcp : c.parent = some d.id := by simpa using hcf'.2
      cases hsp : dirSpanLen c.name c.name.length with
      | none =>
        rw [hcore.parent_none c hcf'.1 hsp] at hcp
        cases hcp
      | some sc =>
        obtain ⟨q, hq, hpq, hfq⟩ := hcore.parent_some c hcf'.1 sc hsp
        have hqd : q = d := by
          apply id_inj_of_shape hcore.shape hq hd
          rw [hpq] at hcp
          exact Option.some.inj hcp
        subst hqd
        have hslt : sc < c.name.length := dirSpanLen_lt hsp
        have hdlen : q.name.length = sc := by
          have := foldName_eq_length hfq
          rw [List.length_take] at this
          omega
        have hclen : c.name.length ≤
            (st.dir_hash.map (fun x => x.name.length)).foldr max 0 :=
          le_foldr_max _ _ (List.mem_map_of_mem _ hcf'.1)
        have hk1 : 1 ≤ k := by omega
        obtain ⟨i, hi, hh, j, hj, hsepj, hfoldj⟩ :=
          ih (k - 1) (by omega) c hcf'.1 (by omega)
        have hjlen : j = c.name.length := by
          have := foldName_eq_length hfoldj
          rw [List.length_take] at this
          omega
        refine ⟨i, hi, hh, sc, by omega, ?_, ?_⟩
        · have h1 := sep_transfer hfoldj sc
          rw [getD_take (by omega)] at h1
          rw [h1]
          exact dirSpanLen_sep hsp
        · have h2 := fold_prefix_congr hfoldj sc
          rw [List.take_take, Nat.min_eq_left (by omega)] at h2
          rw [h2, ← hfq]

theorem node_ancestor {st : index_state} (hcore : NHCore true st) :
    ∀ (n : Nat) (d : dir_entry), d ∈ st.dir_hash → d.name.length ≤ n →
    ∀ j, j < d.name.length → is_dir_sep (d.name.getD j 0) = true →
    ∃ q ∈ st.dir_hash, foldName q.name = foldName (d.name.take j) := by
  intro n
  induction n with
  | zero =>
    intro d _ hle j hj _
    omega
  | succ n ih =>
    intro d hd hle j hj hsep
    obtain ⟨s, hsp, hjs⟩ := dirSpanLen_isSome_of_sep hj hsep
    obtain ⟨q, hq, hpq, hfq⟩ := hcore.parent_some d hd s hsp
    have hslt : s < d.name.length := dirSpanLen_lt hsp
    have hqlen : q.name.length = s := by
      have := foldName_eq_length hfq
      rw [List.length_take] at this
      omega
    by_cases hjeq : j = s
    · subst hjeq
      exact ⟨q, hq, hfq⟩
    · have hjlt : j < s := by omega
      have hsq : is_dir_sep (q.name.getD j 0) = true := by
        have h1 := sep_transfer hfq j
        rw [getD_take hjlt] at h1
        rw [h1]
        exact hsep
      obtain ⟨q', hq', hfq'⟩ := ih q hq (by omega) j (by omega) hsq
      refine ⟨q', hq', ?_⟩
      have h2 := fold_prefix_congr hfq j
      rw [List.take_take, Nat.min_eq_left (Nat.le_of_lt hjlt)] at h2
      rw [hfq', h2]

theorem find_pred_iff {st : index_state} (hcore : NHCore true st) {name : List Nat}
    {namelen : Nat} (hnl : namelen ≤ name.length) :
    ∀ dd ∈ st.dir_hash,
      (((dd.ent_hash == memihash (name.take namelen)) &&
        !dir_entry_cmp dd namelen name) = true) ↔
      foldName dd.name = foldName (name.take namelen) := by
  intro dd hdd
  simp only [Bool.and_eq_true, Bool.not_eq_true', dir_entry_cmp, Bool.or_eq_false_iff,
    bne_eq_false_iff_eq, beq_iff_eq]
  constructor
  · rintro ⟨h1, h2, h3⟩
    rw [h2] at h3
    exact h3
  · intro hf
    have hlen : dd.name.length = namelen := by
      have := foldName_eq_length hf
      rw [List.length_take] at this
      omega
    refine ⟨?_, hlen, ?_⟩
    · rw [hcore.shape.hash_ok dd hdd]
      exact memihash_congr hf
    · rw [hlen]
      exact hf

theorem index_dir_exists_eq (ic : Bool) (st : index_state) (name : List Nat) (namelen : Nat) :
    index_dir_exists ic st name namelen =
      match find_dir_entry (lazy_init_name_hash ic st) name namelen with
      | some dir => dir.nr != 0
      | none => false := rfl

/-- Case-sensitive build of an index holding `a/b`, for the C1
counterexample. -/
def exC1 : index_state := lazy_init_name_hash false (mkState ["a/b"])

/-- Counterexample to C1 as stated for every active case-sensitivity
policy: with `ignore_case` off (`ic = false`), the entry `a/b` is
indexed and has `a` as a proper ancestor directory, but
`index_dir_exists` answers `false`, because the directory table is only
maintained under `ignore_case`. -/
theorem C1_counterexample :
    Reachable false exC1 ∧ exC1.name_hash_initialized = true ∧
    0 < exC1.store.length ∧ (exC1.store.getD 0 default).ce_hashed = true ∧
    isProperAncestorDir ((pathBytes "a/b").take 1) (exC1.store.getD 0 default).name ∧
    index_dir_exists false exC1 (pathBytes "a/b") 1 = false :=
  ⟨Reachable.stepInit _ (Reachable.start _ (by decide)), by decide, by decide, by decide,
   by decide, by decide⟩

/-- Case-insensitive build of an index holding `a/b`, for the C1
witness. -/
def exC1b : index_state := lazy_init_name_hash true (mkState ["a/b"])

/-- C1 (amended): under `ignore_case`, for every state built by the
maintenance operations whose lazy table exists, the directory-existence
query on a directory span answers true exactly when some currently
indexed entry's path has that directory as a proper ancestor directory
(up to ASCII case folding, the active policy); in particular it answers
false once all such entries have been removed. -/
theorem C1_dir_exists_iff (st : index_state) (name : List Nat) (namelen : Nat)
    (hreach : Reachable true st) (hinit : st.name_hash_initialized = true)
    (hnl : namelen ≤ name.length) :
    index_dir_exists true st name namelen = true ↔
      ∃ i, i < st.store.length ∧ (st.store.getD i default).ce_hashed = true ∧
        isProperAncestorDir (name.take namelen) (st.store.getD i default).name := by
  have hcore := (Reachable_NHInv hreach).core
  have hlz : lazy_init_name_hash true st = st := lazy_noop true hinit
  constructor
  · intro hex
    rw [index_dir_exists_eq, hlz] at hex
    cases hfind : find_dir_entry st name namelen with
    | none =>
      rw [hfind] at hex
      have hex' : (false : Bool) = true := hex
      cases hex'
    | some dir =>
      have hfind' : st.dir_hash.find? (fun d => (d.ent_hash == memihash (name.take namelen))
          && !dir_entry_cmp d namelen name) = some dir := hfind
      have hdirmem := List.mem_of_find?_eq_some hfind'
      have hdirpred := List.find?_some hfind'
      have hfold := (find_pred_iff hcore hnl dir hdirmem).mp hdirpred
      obtain ⟨i, hi, hh, hanc⟩ := dh_sound hcore
        ((st.dir_hash.map (fun c => c.name.length)).foldr max 0) dir hdirmem
        (Nat.le_add_right _ _)
      exact ⟨i, hi, hh, (isProperAncestorDir_congr hfold).mp hanc⟩
  · rintro ⟨i, hi, hh, j, hj, hsepj, hfoldj⟩
    obtain ⟨s, hsp, hjs⟩ := dirSpanLen_isSome_of_sep hj hsepj
    obtain ⟨d1, hd1, hf1⟩ := hcore.dh_complete rfl _ (getD_mem_of_lt default hi) hh s hsp
    have hslt : s < (st.store.getD i default).name.length := dirSpanLen_lt hsp
    have hd1len : d1.name.length = s := by
      have := foldName_eq_length hf1
      rw [List.length_take] at this
      omega
    have hnode : ∃ q ∈ st.dir_hash,
        foldName q.name = foldName ((st.store.getD i default).name.take j) := by
      by_cases hjeq : j = s
      · subst hjeq
        exact ⟨d1, hd1, hf1⟩
      · have hjlt : j < s := by omega
        have hsd1 : is_dir_sep (d1.name.getD j 0) = true := by
          have h1 := sep_transfer hf1 j
          rw [getD_take hjlt] at h1
          rw [h1]
          exact hsepj
        obtain ⟨q, hq, hfq⟩ := node_ancestor hcore d1.name.length d1 hd1 (Nat.le_refl _)
          j (by omega) hsd1
        refine ⟨q, hq, ?_⟩
        have h2 := fold_prefix_congr hf1 j
        rw [List.take_take, Nat.min_eq_left (Nat.le_of_lt hjlt)] at h2
        rw [hfq, h2]
    obtain ⟨q, hq, hfq⟩ := hnode
    have hfq2 : foldName q.name = foldName (name.take namelen) := by
      rw [hfq, hfoldj]
    rw [index_dir_exists_eq, hlz]
    cases hfind : find_dir_entry st name namelen with
    | none =>
      exfalso
      have hfind' : st.dir_hash.find? (fun d => (d.ent_hash == memihash (name.take namelen))
          && !dir_entry_cmp d namelen name) = none := hfind
      rw [List.find?_eq_none] at hfind'
      exact absurd ((find_pred_iff hcore hnl q hq).mpr hfq2) (by simpa using hfind' q hq)
    | some dir =>
      have hfind' : st.dir_hash.find? (fun d => (d.ent_hash == memihash (name.take namelen))
          && !dir_entry_cmp d namelen name) = some dir := hfind
      have hdirmem := List.mem_of_find?_eq_some hfind'
      have hpos := hcore.nr_pos dir hdirmem
      show (dir.nr != 0) = true
      simp only [bne_iff_ne, ne_eq]
      exact hpos.ne'

/-- Witness for the amended C1 at a concrete reachable, initialized
state. -/
theorem C1_dir_exists_iff_witness :
    1 ≤ (pathBytes "a/b").length ∧
    (index_dir_exists true exC1b (pathBytes "a/b") 1 = true ↔
      ∃ i, i < exC1b.store.length ∧ (exC1b.store.getD i default).ce_hashed = true ∧
        isProperAncestorDir ((pathBytes "a/b").take 1)
          (exC1b.store.getD i default).name) :=
  ⟨by decide, C1_dir_exists_iff exC1b (pathBytes "a/b") 1
    (Reachable.stepInit _ (Reachable.start _ (by decide))) (by decide) (by decide)⟩

theorem set_flag_id {x : cache_entry} (h : x.ce_hashed = true) :
    { x with ce_hashed := true } = x := by
  cases x
  simp_all

/-- The store effect of one `hash_index_entry`: the entry at `i` gets its
`CE_HASHED` flag set (a no-op when it is set already or `i` is out of
range). -/
def markOne (s : List cache_entry) (i : Nat) : List cache_entry :=
  s.set i { s.getD i default with ce_hashed := true }

theorem hie_store_mark (ic : Bool) (st : index_state) (i : Nat) (prev : Option Nat) :
    (hash_index_entry ic st i prev).1.store = markOne st.store i := by
  rw [hie_store]
  unfold markOne
  split
  next h => rw [set_flag_id h, set_getD_self]
  next h => rfl

theorem build_store (ic : Bool) : ∀ (l : List Nat) (acc : index_state × Option Nat),
    ((l.foldl (fun a j => hash_index_entry ic a.1 j a.2) acc).1).store =
    l.foldl markOne acc.1.store := by
  intro l
  induction l with
  | nil => intro acc; rfl
  | cons j t ih =>
    intro acc
    simp only [List.foldl_cons]
    rw [ih, hie_store_mark]

theorem markOne_comm (s : List cache_entry) (i j : Nat) :
    markOne (markOne s i) j = markOne (markOne s j) i := by
  by_cases hij : i = j
  · rw [hij]
  · unfold markOne
    rw [getD_set_ne _ _ _ (fun h => hij h)]
    rw [getD_set_ne _ _ _ (fun h => hij h.symm)]
    exact List.set_comm _ _ _ hij

theorem lazy_store (ic : Bool) (st : index_state) (h : st.name_hash_initialized = false) :
    (lazy_init_name_hash ic st).store = st.cache.foldl markOne st.store := by
  rw [lazy_eq_of_uninit ic st h]
  exact build_store ic st.cache _

theorem node_of_sep {st : index_state} (hcore : NHCore true st) {i j : Nat}
    (hi : i < st.store.length) (hh : (st.store.getD i default).ce_hashed = true)
    (hj : j < (st.store.getD i default).name.length)
    (hsepj : is_dir_sep ((st.store.getD i default).name.getD j 0) = true) :
    ∃ q ∈ st.dir_hash, foldName q.name = foldName ((st.store.getD i default).name.take j) := by
  obtain ⟨s, hsp, hjs⟩ := dirSpanLen_isSome_of_sep hj hsepj
  obtain ⟨d1, hd1, hf1⟩ := hcore.dh_complete rfl _ (getD_mem_of_lt default hi) hh s hsp
  have hslt : s < (st.store.getD i default).name.length := dirSpanLen_lt hsp
  have hd1len : d1.name.length = s := by
    have := foldName_eq_length hf1
    rw [List.length_take] at this
    omega
  by_cases hjeq : j = s
  · subst hjeq
    exact ⟨d1, hd1, hf1⟩
  · have hjlt : j < s := by omega
    have hsd1 : is_dir_sep (d1.name.getD j 0) = true := by
      have h1 := sep_transfer hf1 j
      rw [getD_take hjlt] at h1
      rw [h1]
      exact hsepj
    obtain ⟨q, hq, hfq⟩ := node_ancestor hcore d1.name.length d1 hd1 (Nat.le_refl _)
      j (by omega) hsd1
    refine ⟨q, hq, ?_⟩
    have h2 := fold_prefix_congr hf1 j
    rw [List.take_take, Nat.min_eq_left (Nat.le_of_lt hjlt)] at h2
    rw [hfq, h2]

theorem foldset_sub {st1 st2 : index_state} (hc1 : NHCore true st1) (hc2 : NHCore true st2)
    (hs : st1.store = st2.store) :
    ∀ d ∈ st1.dir_hash, ∃ q ∈ st2.dir_hash, foldName q.name = foldName d.name := by
  intro d hd
  obtain ⟨i, hi, hh, hanc⟩ := dh_sound hc1
    ((st1.dir_hash.map (fun c => c.name.length)).foldr max 0) d hd (Nat.le_add_right _ _)
  obtain ⟨j, hj, hsepj, hfoldj⟩ := hanc
  rw [hs] at hi hh hj hsepj hfoldj
  obtain ⟨q, hq, hfq⟩ := node_of_sep hc2 hi hh hj hsepj
  exact ⟨q, hq, by rw [hfq, hfoldj]⟩

theorem folds_perm {st1 st2 : index_state} (hc1 : NHCore true st1) (hc2 : NHCore true st2)
    (hs : st1.store = st2.store) :
    (st1.dir_hash.map (fun d => foldName d.name)).Perm
      (st2.dir_hash.map (fun d => foldName d.name)) := by
  refine (List.perm_ext_iff_of_nodup hc1.shape.names_nodup hc2.shape.names_nodup).mpr ?_
  intro f
  simp only [List.mem_map]
  constructor
  · rintro ⟨d, hd, rfl⟩
    obtain ⟨q, hq, hfq⟩ := foldset_sub hc1 hc2 hs d hd
    exact ⟨q, hq, hfq⟩
  · rintro ⟨d, hd, rfl⟩
    obtain ⟨q, hq, hfq⟩ := foldset_sub hc2 hc1 hs.symm d hd
    exact ⟨q, hq, hfq⟩

/-- Whether a (case-folded) node name `g` has a parent directory span
whose bytes case-fold to `f`: the abstract form of the parent-link test,
depending only on the folded spellings. -/
def spanFoldPred (f : List Nat) (g : List Nat) : Bool :=
  match dirSpanLen g g.length with
  | some s => foldName (g.take s) == f
  | none => false

theorem spanFoldPred_fold (f : List Nat) (nm : List Nat) :
    spanFoldPred f (foldName nm) =
      match dirSpanLen nm nm.length with
      | some s => foldName (nm.take s) == f
      | none => false := by
  unfold spanFoldPred
  rw [foldName_length, dirSpanLen_foldName]
  cases dirSpanLen nm nm.length with
  | none => rfl
  | some s =>
    show (foldName ((foldName nm).take s) == f) = _
    rw [← foldName_take, foldName_idem]

theorem parent_pred_eq {st : index_state} (hcore : NHCore true st)
    {c d : dir_entry} (hc : c ∈ st.dir_hash) (hd : d ∈ st.dir_hash) :
    (c.parent == some d.id) = spanFoldPred (foldName d.name) (foldName c.name) := by
  rw [spanFoldPred_fold]
  cases hsp : dirSpanLen c.name c.name.length with
  | none =>
    rw [hcore.parent_none c hc hsp]
    rfl
  | some s =>
    obtain ⟨q, hq, hpq, hfq⟩ := hcore.parent_some c hc s hsp
    rw [hpq]
    show (some q.id == some d.id) = (foldName (c.name.take s) == foldName d.name)
    rw [← hfq]
    show (q.id == d.id) = (foldName q.name == foldName d.name)
    cases hqd : (q.id == d.id) with
    | true =>
      have hqd' : q = d := id_inj_of_shape hcore.shape hq hd (by simpa using hqd)
      rw [hqd', beq_self_eq_true]
    | false =>
      have hne : q.id ≠ d.id := by simpa using hqd
      have hfne : foldName q.name ≠ foldName d.name := fun h =>
        hne (by rw [fold_inj_of_shape hcore.shape hq hd h])
      exact (beq_eq_false_iff_ne.mpr hfne).symm

theorem childRefs_eq_folds {st : index_state} (hcore : NHCore true st)
    {d : dir_entry} (hd : d ∈ st.dir_hash) :
    childRefs st d =
      ((st.dir_hash.map (fun c => foldName c.name)).filter
        (spanFoldPred (foldName d.name))).length := by
  unfold childRefs
  rw [filter_length_map]
  congr 1
  apply List.filter_congr
  intro c hc
  exact parent_pred_eq hcore hc hd

theorem childRefs_det {st1 st2 : index_state} (hc1 : NHCore true st1) (hc2 : NHCore true st2)
    (hs : st1.store = st2.store) {d1 d2 : dir_entry} (hd1 : d1 ∈ st1.dir_hash)
    (hd2 : d2 ∈ st2.dir_hash) (hf : foldName d1.name = foldName d2.name) :
    childRefs st1 d1 = childRefs st2 d2 := by
  rw [childRefs_eq_folds hc1 hd1, childRefs_eq_folds hc2 hd2, hf]
  exact (((folds_perm hc1 hc2 hs)).filter _).length_eq

theorem nr_det {st1 st2 : index_state} (hc1 : NHCore true st1) (hc2 : NHCore true st2)
    (hs : st1.store = st2.store) {d1 d2 : dir_entry} (hd1 : d1 ∈ st1.dir_hash)
    (hd2 : d2 ∈ st2.dir_hash) (hf : foldName d1.name = foldName d2.name) :
    d1.nr = d2.nr := by
  have he : entryRefs st1 d1 = entryRefs st2 d2 :=
    (entryRefs_fold_congr hf).trans (entryRefs_congr_st hs d2)
  have hch := childRefs_det hc1 hc2 hs hd1 hd2 hf
  rw [hc1.nr_eq d1 hd1, hc2.nr_eq d2 hd2, he, hch]

theorem nh_perm {st1 st2 : index_state} {ic1 ic2 : Bool} (hc1 : NHCore ic1 st1)
    (hc2 : NHCore ic2 st2) (hs : st1.store = st2.store) :
    st1.name_hash.Perm st2.name_hash := by
  have hmem : ∀ {stA stB : index_state} {icA icB : Bool}, NHCore icA stA → NHCore icB stB →
      stA.store = stB.store → ∀ p ∈ stA.name_hash, p ∈ stB.name_hash := by
    intro stA stB icA icB hcA hcB hsAB p hp
    obtain ⟨hlt, hhash, hflag⟩ := hcA.nh_mem p hp
    rw [hsAB] at hlt hhash hflag
    obtain ⟨q, hq, hq2⟩ := hcB.nh_complete p.2 hlt hflag
    obtain ⟨hlt2, hhash2, hflag2⟩ := hcB.nh_mem q hq
    have h1 : q.1 = p.1 := by rw [hhash2, hq2, ← hhash]
    have : q = p := Prod.ext_iff.mpr ⟨h1, hq2⟩
    rwa [← this]
  refine (List.perm_ext_iff_of_nodup (List.Nodup.of_map Prod.snd hc1.nh_nodup)
    (List.Nodup.of_map Prod.snd hc2.nh_nodup)).mpr ?_
  intro p
  exact ⟨fun hp => hmem hc1 hc2 hs p hp, fun hp => hmem hc2 hc1 hs.symm p hp⟩

theorem dir_pairs_nodup {st : index_state} (hshape : DirShape st) :
    (st.dir_hash.map (fun d => (foldName d.name, d.nr))).Nodup := by
  apply List.Nodup.of_map Prod.fst
  rw [List.map_map]
  exact hshape.names_nodup

theorem dir_pairs_perm {st1 st2 : index_state} (hc1 : NHCore true st1) (hc2 : NHCore true st2)
    (hs : st1.store = st2.store) :
    (st1.dir_hash.map (fun d => (foldName d.name, d.nr))).Perm
      (st2.dir_hash.map (fun d => (foldName d.name, d.nr))) := by
  refine (List.perm_ext_iff_of_nodup (dir_pairs_nodup hc1.shape)
    (dir_pairs_nodup hc2.shape)).mpr ?_
  intro x
  simp only [List.mem_map]
  constructor
  · rintro ⟨d, hd, rfl⟩
    obtain ⟨q, hq, hfq⟩ := foldset_sub hc1 hc2 hs d hd
    refine ⟨q, hq, ?_⟩
    rw [hfq, nr_det hc2 hc1 hs.symm hq hd hfq]
  · rintro ⟨d, hd, rfl⟩
    obtain ⟨q, hq, hfq⟩ := foldset_sub hc2 hc1 hs.symm d hd
    refine ⟨q, hq, ?_⟩
    rw [hfq, nr_det hc1 hc2 hs hq hd hfq]

/-- A fresh index over `A/x` and `a/y`, basis of the C8 counterexample
and witness. -/
def exC8base : index_state := mkState ["A/x", "a/y"]

/-- The bulk build of `exC8base` in its own (sorted) order. -/
def exC8a : index_state := lazy_init_name_hash true exC8base

/-- The bulk build of `exC8base` with the two entries reordered. -/
def exC8b : index_state := lazy_init_name_hash true { exC8base with cache := [1, 0] }

/-- Counterexample to C8 as stated: building the same two entries `A/x`
and `a/y` (case-insensitive) in the two possible orders produces
different directory-tree and path-table contents — the single directory
node carries the first-seen spelling `A` in one order and `a` in the
other, and the path-table pair lists differ as well. -/
theorem C8_counterexample :
    exC8base.cache.Perm [1, 0] ∧
    exC8a.store = exC8b.store ∧
    exC8a.dir_hash.map dir_entry.name = [pathBytes "A"] ∧
    exC8b.dir_hash.map dir_entry.name = [pathBytes "a"] ∧
    exC8a.dir_hash ≠ exC8b.dir_hash ∧ exC8a.name_hash ≠ exC8b.name_hash :=
  ⟨by decide, by decide, by decide, by decide, by decide, by decide⟩

/-- C8 (amended): the bulk build over any reordering of the collection
produces the same final store (the same entries carry the indexed flag),
the same path-table contents up to chain order (the pair lists are
permutations), and the same directory tree up to chain order and up to
the first-seen case of the node names: the multisets of (case-folded
node name, reference count) pairs coincide. -/
theorem C8_order_independent (st : index_state) (c2 : List Nat)
    (h0 : init0 st) (hperm : st.cache.Perm c2) :
    (lazy_init_name_hash true st).store =
      (lazy_init_name_hash true { st with cache := c2 }).store ∧
    (lazy_init_name_hash true st).name_hash.Perm
      (lazy_init_name_hash true { st with cache := c2 }).name_hash ∧
    ((lazy_init_name_hash true st).dir_hash.map (fun d => (foldName d.name, d.nr))).Perm
      ((lazy_init_name_hash true { st with cache := c2 }).dir_hash.map
        (fun d => (foldName d.name, d.nr))) := by
  have h0' : init0 { st with cache := c2 } := by
    obtain ⟨h1, h2, h3, h4, h5⟩ := h0
    exact ⟨h1, h2, h3, h4, fun i hi => h5 i (hperm.mem_iff.mpr hi)⟩
  have hr1 : Reachable true (lazy_init_name_hash true st) :=
    Reachable.stepInit _ (Reachable.start _ h0)
  have hr2 : Reachable true (lazy_init_name_hash true { st with cache := c2 }) :=
    Reachable.stepInit _ (Reachable.start _ h0')
  have hc1 := (Reachable_NHInv hr1).core
  have hc2 := (Reachable_NHInv hr2).core
  have hinit : st.name_hash_initialized = false := h0.2.2.1
  have hs : (lazy_init_name_hash true st).store =
      (lazy_init_name_hash true { st with cache := c2 }).store := by
    rw [lazy_store true st hinit, lazy_store true { st with cache := c2 } hinit]
    exact List.Perm.foldl_eq' hperm (fun x _ y _ z => markOne_comm z x y) st.store
  exact ⟨hs, nh_perm hc1 hc2 hs, dir_pairs_perm hc1 hc2 hs⟩

/-- Witness for the amended C8 at the concrete two-entry index. -/
theorem C8_order_independent_witness :
    (init0 exC8base ∧ exC8base.cache.Perm [1, 0]) ∧
    ((lazy_init_name_hash true exC8base).store =
      (lazy_init_name_hash true { exC8base with cache := [1, 0] }).store ∧
     (lazy_init_name_hash true exC8base).name_hash.Perm
      (lazy_init_name_hash true { exC8base with cache := [1, 0] }).name_hash ∧
     ((lazy_init_name_hash true exC8base).dir_hash.map
        (fun d => (foldName d.name, d.nr))).Perm
      ((lazy_init_name_hash true { exC8base with cache := [1, 0] }).dir_hash.map
        (fun d => (foldName d.name, d.nr)))) :=
  ⟨⟨by decide, by decide⟩, C8_order_independent exC8base [1, 0] (by decide) (by decide)⟩
